import Mathlib

/-!
# gui4life: the `dng` table / query engine (`src/DataEngine.h`)

A shallow embedding of `dng::Table` and `dng::DbTables` and theorems about the
incrementally maintained join-query caches, followed by the tab splitter `parseTabs`
of `src/tsvdata.cpp` (namespace `tsvdata`).

Modelling conventions.

* `Id` is `uint64_t`; Ids are only compared, never computed with, so an Id is a `Nat`
  (the name `Id` itself is Lean's identity monad).
* Every declared row type is a slot of one value type `V`; a table is named by its
  index in `m_tables` (the result of `GetTableIndex`), a query signature
  `QueryRowTypes...` is the list of those indices.
* `std::ranges::lower_bound` over a table or a cache, which are sorted by the Id they
  are searched by, is modelled by its contract: the first position whose element is not
  less than the key. That is the position the binary search of the libraries returns on
  a vector partitioned by the comparator (`lower_bound.search_eq`). The search of
  `id_members` in `Set` uses the comparator `mem_id`, which does not partition the
  vector, and is modelled by the binary search itself (`lower_bound.search`).
* `unordered_set` is a duplicate-free list; its iteration order is the list order
  (`insertDrain_perm`: the insert drain does not depend on that order).
  `unordered_map` is a function into `Option` (`none`: no entry).
* Dereferencing a past-the-end iterator and a failing `assert` are faults: the
  operations return `Except Fault`.
* The function-local statics of `Query` (`instance_id`, one per instantiation, that
  is per signature and callback type) and the class statics (`s_instances`,
  `getCacheRows`) live in `Statics`, apart from the per-instance `DbTables`.
* A `std::string` is the list of its characters, shorter than `npos`; `size_t`
  arithmetic is taken modulo `2 ^ 64`. The `while (true)` loop of `parseTabs` runs on
  fuel, and the theorem about it shows that the fuel given suffices.
-/

namespace dng

/-! ## The embedding -/

/-- Query key (`bitset<NumTables>`), as the number whose bit `i` is the bitset's bit `i`. -/
abbrev Qid := Nat

/-- Undefined or aborting behaviour of the C++ code. -/
inductive Fault where
  | pastTheEnd
  | assertFailed
  deriving DecidableEq, Repr

/-- Contract of `std::ranges::lower_bound`: index of the first element that is not
`less` than the key (the length when there is none). -/
def lower_bound {α : Type} (less : α → Bool) : List α → Nat
  | [] => 0
  | a :: as => if less a then lower_bound less as + 1 else 0

/-- The binary search by which the standard libraries compute `std::ranges::lower_bound`,
over the `len` elements from index `first` on: each round tests the middle element
`v[first + len / 2]`; when it is `less` than the key the search goes on behind it, with
`len - len / 2 - 1` elements, else in front of it, with `len / 2` elements. `fuel` bounds
the number of rounds (`len` shrinks in every round), and the middle index lies in the
vector as long as `first + len` does not exceed its size. -/
def lower_bound.bisect {α : Type} (less : α → Bool) (v : List α) : Nat → Nat → Nat → Nat
  | 0, first, _ => first
  | fuel + 1, first, len =>
    if len = 0 then first
    else
      let half := len / 2
      match v[first + half]? with
      | none => first
      | some x =>
        if less x then lower_bound.bisect less v fuel (first + half + 1) (len - half - 1)
        else lower_bound.bisect less v fuel first half

/-- `std::ranges::lower_bound(v, key, comp)` as computed: the binary search over the whole
vector. On a vector partitioned by `less` it returns the position of the contract
`lower_bound`; the comparator `mem_id` of `Set` does not partition the membership index,
so the search of that index is modelled by the computation. -/
def lower_bound.search {α : Type} (less : α → Bool) (v : List α) : Nat :=
  lower_bound.bisect less v v.length 0 v.length

/-- `vector::insert(pos, x)` / `vector::emplace(pos)` followed by assignment. -/
def vecInsert {α : Type} (rows : List α) (pos : Nat) (x : α) : List α :=
  rows.take pos ++ x :: rows.drop pos

/-- `unordered_set::insert`. -/
def usetInsert {α : Type} [DecidableEq α] (s : List α) (a : α) : List α :=
  if a ∈ s then s else s ++ [a]

/-- `class Table<RowT>`: `vector<tuple<Id, RowT>> rows`. -/
structure Table (V : Type) where
  rows : List (Nat × V) := []

namespace Table

variable {V : Type}

/-- `Table::set`. -/
def set (t : Table V) (id : Nat) (row : V) : Table V :=
  let pos := lower_bound (fun a => decide (a.1 < id)) t.rows
  match t.rows[pos]? with
  | some r =>
    if r.1 = id then ⟨t.rows.set pos (r.1, row)⟩
    else ⟨vecInsert t.rows pos (id, row)⟩
  | none => ⟨vecInsert t.rows pos (id, row)⟩

/-- `Table::get`; `none` is `nullptr`. -/
def get (t : Table V) (id : Nat) : Option V :=
  let pos := lower_bound (fun a => decide (a.1 < id)) t.rows
  match t.rows[pos]? with
  | some r => if r.1 = id then some r.2 else none
  | none => none

end Table

/-- One instantiation `Query<QueryRowTypes..., F>`: the signature (table indices of
`QueryRowTypes...`) and a tag for the callback type `F`. -/
structure Site where
  sig : List Nat
  fn : Nat
  deriving DecidableEq, Repr

/-- A cache row `tuple<Id, QueryRowTypes...>`. -/
abbrev CacheRow (V : Type) := Nat × List V

/-- Static storage shared by all instances of one `DbTables<RowTypes...>` type. -/
structure Statics (V : Type) where
  s_instances : Nat := 1
  instance_id : Site → Nat := fun _ => 0
  cache_rows : List Nat → Nat → List (CacheRow V) := fun _ _ => []

/-- `class DbTables<RowTypes...>`: the per-instance members. -/
structure DbTables (V : Type) where
  m_tables : Nat → Table V := fun _ => {}
  id_members : List (Nat × Nat) := []
  query_stack : Int := 0
  query_to_tables : Nat → List Qid := fun _ => []
  query_insert : Qid → Option (List Nat) := fun _ => none
  query_remove : Qid → Option (List Nat) := fun _ => none

/-- A store instance together with the static storage of its class. -/
structure World (V : Type) where
  st : Statics V := {}
  db : DbTables V := {}

section Engine

variable {V : Type} [Inhabited V]

/-- `unordered_map::operator[]` read: the entry, default-constructed when missing. -/
def pending (m : Qid → Option (List Nat)) (q : Qid) : List Nat := (m q).getD []

/-- `DbTables::makeQid` on the table indices of the signature. -/
def makeQid : List Nat → Qid
  | [] => 0
  | QR :: QRT => (1 <<< QR) ||| makeQid QRT

/-- `DbTables::registerQueryTables`. -/
def registerQueryTables (qid : Qid) : List Nat → (Nat → List Qid) → (Nat → List Qid)
  | [], q2t => q2t
  | QR :: QRT, q2t =>
    registerQueryTables qid QRT (Function.update q2t QR (usetInsert (q2t QR) qid))

/-- `DbTables::updateCache<recur, QR, QRT...>`. -/
def updateCache (db : DbTables V) : Nat → List Nat → CacheRow V → Nat → Except Fault (CacheRow V)
  | _, [], row, _ => .ok row
  | recur, QR :: QRT, row, id =>
    match (db.m_tables QR).get id with
    | none => .error .assertFailed
    | some base_row => updateCache db (recur + 1) QRT (row.1, row.2.set recur base_row) id

/-- `DbTables::fill<recur, QR, QRT...>`. -/
def fill (db : DbTables V) : Nat → List Nat → List (CacheRow V) → List (CacheRow V)
  | _, [], rows => rows
  | recur, QR :: QRT, rows =>
    let base_table := db.m_tables QR
    let rows1 :=
      if recur = 0 then
        rows ++ base_table.rows.map
          (fun row => (row.1, (List.replicate (QRT.length + 1) default).set 0 row.2))
      else
        rows.filterMap (fun r =>
          match base_table.get r.1 with
          | none => none
          | some base_row => some (r.1, r.2.set recur base_row))
    fill db (recur + 1) QRT rows1

/-- `DbTables::isInCache`. -/
def isInCache (db : DbTables V) : List Nat → Nat → Bool
  | [], _ => true
  | QR :: QRT, id =>
    let rows := (db.m_tables QR).rows
    let iter := lower_bound (fun (row : Nat × V) => decide (row.1 < id)) rows
    match rows[iter]? with
    | none => false
    | some r => if r.1 ≠ id then false else isInCache db QRT id

/-- Body of the insert-drain loop of `Query` for one pending Id. -/
def insertStep (db : DbTables V) (sig : List Nat) (cache_rows : List (CacheRow V)) (id : Nat) :
    Except Fault (List (CacheRow V)) :=
  let iter := lower_bound (fun (row : CacheRow V) => decide (row.1 < id)) cache_rows
  match cache_rows[iter]? with
  | none => .error .pastTheEnd
  | some r =>
    if r.1 ≠ id then
      if !isInCache db sig id then .ok cache_rows
      else
        match updateCache db 0 sig (id, List.replicate sig.length default) id with
        | .error e => .error e
        | .ok row => .ok (vecInsert cache_rows iter row)
    else
      match updateCache db 0 sig r id with
      | .error e => .error e
      | .ok row => .ok (cache_rows.set iter row)

/-- The insert-drain loop over the pending-insert set, in iteration order. -/
def insertDrain (db : DbTables V) (sig : List Nat) :
    List Nat → List (CacheRow V) → Except Fault (List (CacheRow V))
  | [], cache_rows => .ok cache_rows
  | id :: ids, cache_rows =>
    match insertStep db sig cache_rows id with
    | .error e => .error e
    | .ok cache_rows1 => insertDrain db sig ids cache_rows1

/-- Body of the remove-drain loop of `Query` for one pending Id. -/
def removeStep (cache_rows : List (CacheRow V)) (id : Nat) : Except Fault (List (CacheRow V)) :=
  let iter := lower_bound (fun (row : CacheRow V) => decide (row.1 < id)) cache_rows
  match cache_rows[iter]? with
  | none => .error .pastTheEnd
  | some r => if r.1 = id then .ok (cache_rows.eraseIdx iter) else .ok cache_rows

/-- The remove-drain loop over the pending-remove set, in iteration order. -/
def removeDrain : List Nat → List (CacheRow V) → Except Fault (List (CacheRow V))
  | [], cache_rows => .ok cache_rows
  | id :: ids, cache_rows =>
    match removeStep cache_rows id with
    | .error e => .error e
    | .ok cache_rows1 => removeDrain ids cache_rows1

/-- The insert half of the reconciliation block of `Query` (lines 268-295). -/
def reconcileInsert (db : DbTables V) (sig : List Nat) (queryId : Qid)
    (cache_rows : List (CacheRow V)) : Except Fault (DbTables V × List (CacheRow V)) :=
  match db.query_insert queryId with
  | none => .ok (db, cache_rows)
  | some insert_list =>
    if insert_list.isEmpty then .ok (db, cache_rows)
    else
      match (if cache_rows.isEmpty then .ok cache_rows
             else insertDrain db sig insert_list cache_rows) with
      | .error e => .error e
      | .ok cache_rows1 =>
        .ok ({ db with query_insert := Function.update db.query_insert queryId (some []) },
             cache_rows1)

/-- The remove half of the reconciliation block of `Query` (lines 297-317). -/
def reconcileRemove (db : DbTables V) (queryId : Qid)
    (cache_rows : List (CacheRow V)) : Except Fault (DbTables V × List (CacheRow V)) :=
  match db.query_remove queryId with
  | none => .ok (db, cache_rows)
  | some remove_list =>
    if remove_list.isEmpty then .ok (db, cache_rows)
    else
      match (if cache_rows.isEmpty then .ok cache_rows
             else removeDrain remove_list cache_rows) with
      | .error e => .error e
      | .ok cache_rows1 =>
        .ok ({ db with query_remove := Function.update db.query_remove queryId (some []) },
             cache_rows1)

/-- The reconciliation block of `Query`, guarded by `query_stack == 0` (lines 266-318). -/
def reconcile (db : DbTables V) (sig : List Nat) (queryId : Qid)
    (cache_rows : List (CacheRow V)) : Except Fault (DbTables V × List (CacheRow V)) :=
  if db.query_stack = 0 then
    match reconcileInsert db sig queryId cache_rows with
    | .error e => .error e
    | .ok (db1, cache_rows1) => reconcileRemove db1 queryId cache_rows1
  else .ok (db, cache_rows)

/-- Store `rows` as the vector `getCacheRows<sig>()[instance_id]`. -/
def setSlot (m : List Nat → Nat → List (CacheRow V)) (sig : List Nat) (instance_id : Nat)
    (rows : List (CacheRow V)) : List Nat → Nat → List (CacheRow V) :=
  Function.update m sig (Function.update (m sig) instance_id rows)

/-- The rows of the cache that `Query` at `site` works on, once `instance_id` is set. -/
def World.cacheOf (w : World V) (site : Site) : List (CacheRow V) :=
  w.st.cache_rows site.sig (w.st.instance_id site)

/-- Lines 245-264 of `Query`: the statics, and on the first run registration and the
full join. -/
def Query.init (site : Site) (w : World V) : World V :=
  let queryId := makeQid site.sig
  let firstRun := w.st.instance_id site = 0
  let st1 : Statics V :=
    if firstRun then
      { w.st with
        instance_id := Function.update w.st.instance_id site w.st.s_instances
        s_instances := w.st.s_instances + 1 }
    else w.st
  let instance_id := st1.instance_id site
  let cache_rows := st1.cache_rows site.sig instance_id
  if firstRun then
    { st := { st1 with
              cache_rows := setSlot st1.cache_rows site.sig instance_id
                (fill w.db 0 site.sig cache_rows) }
      db := { w.db with
              query_to_tables := registerQueryTables queryId site.sig w.db.query_to_tables } }
  else { st := st1, db := w.db }

/-- Lines 245-318 of `Query`: everything before the iteration (`Query.init`, then the
reconciliation block on the site's cache). -/
def Query.prepare (site : Site) (w : World V) : Except Fault (World V) :=
  let w1 := Query.init site w
  let instance_id := w1.st.instance_id site
  match reconcile w1.db site.sig (makeQid site.sig) (w1.cacheOf site) with
  | .error e => .error e
  | .ok (db2, cache_rows2) =>
    .ok { st := { w1.st with
                  cache_rows := setSlot w1.st.cache_rows site.sig instance_id cache_rows2 }
          db := db2 }

/-- `DbTables::queryTrackInsertForId`: the loop over `query_to_tables[table]`. -/
def trackInsert (id : Nat) :
    List Qid → (Qid → Option (List Nat)) × (Qid → Option (List Nat)) →
      (Qid → Option (List Nat)) × (Qid → Option (List Nat))
  | [], maps => maps
  | q :: qs, (query_insert, query_remove) =>
    trackInsert id qs
      (Function.update query_insert q (some (usetInsert (pending query_insert q) id)),
       Function.update query_remove q (some ((pending query_remove q).erase id)))

/-- `DbTables::queryTrackInsertForId`. -/
def queryTrackInsertForId (db : DbTables V) (id : Nat) (table : Nat) : DbTables V :=
  let maps := trackInsert id (db.query_to_tables table) (db.query_insert, db.query_remove)
  { db with query_insert := maps.1, query_remove := maps.2 }

/-- `DbTables::queryTrackRemoveForId`. -/
def trackRemove (id : Nat) :
    List Qid → (Qid → Option (List Nat)) × (Qid → Option (List Nat)) →
      (Qid → Option (List Nat)) × (Qid → Option (List Nat))
  | [], maps => maps
  | q :: qs, (query_insert, query_remove) =>
    trackRemove id qs
      (Function.update query_insert q (some ((pending query_insert q).erase id)),
       Function.update query_remove q (some (usetInsert (pending query_remove q) id)))

/-- `DbTables::queryTrackRemoveForId`. -/
def queryTrackRemoveForId (db : DbTables V) (id : Nat) (table : Nat) : DbTables V :=
  let maps := trackRemove id (db.query_to_tables table) (db.query_insert, db.query_remove)
  { db with query_insert := maps.1, query_remove := maps.2 }

/-- The comparator `mem_id` of `Set`. -/
def mem_id (a b : Nat × Nat) : Bool :=
  if a.1 < b.1 then true else decide (a.2 < b.2)

/-- `DbTables::Set<RowT>`, `table` being `GetTableIndex<RowT>()`. The membership index is
searched as the library computes `lower_bound`, by binary search: its comparator `mem_id`
does not partition the index, so the contract `lower_bound` does not describe the result. -/
def DbTables.Set (db : DbTables V) (table : Nat) (id : Nat) (row : V) : DbTables V :=
  let db1 := { db with m_tables := Function.update db.m_tables table ((db.m_tables table).set id row) }
  let membership : Nat × Nat := (id, table)
  let pos := lower_bound.search (fun a => mem_id a membership) db1.id_members
  let db2 :=
    match db1.id_members[pos]? with
    | some m =>
      if m ≠ membership then { db1 with id_members := vecInsert db1.id_members pos membership }
      else db1
    | none => { db1 with id_members := vecInsert db1.id_members pos membership }
  queryTrackInsertForId db2 membership.1 membership.2

/-- The range-based `for` loop over a row vector with the short-circuit test: `n` rows
remain, the next one is read at index `i` of the vector as it is in the current state
(`rowsOf`). Returns the rows handed to the callback, in order. -/
def iterate (f : CacheRow V → World V → Except Fault (World V × Bool))
    (rowsOf : World V → List (CacheRow V)) :
    Nat → Nat → World V → Except Fault (World V × List (CacheRow V))
  | 0, _, w => .ok (w, [])
  | n + 1, i, w =>
    match (rowsOf w)[i]? with
    | none => .error .pastTheEnd
    | some row =>
      match f row w with
      | .error e => .error e
      | .ok (w1, b) =>
        if b then
          match iterate f rowsOf n (i + 1) w1 with
          | .error e => .error e
          | .ok (w2, visited) => .ok (w2, row :: visited)
        else .ok (w1, [row])

/-- `DbTables::Query<QueryRowTypes..., F>` with the callback `f`, a state transformer
returning the callback's result. Returns the rows visited by this call. -/
def Query (site : Site) (f : CacheRow V → World V → Except Fault (World V × Bool))
    (w : World V) : Except Fault (World V × List (CacheRow V)) :=
  match Query.prepare site w with
  | .error e => .error e
  | .ok w1 =>
    let w2 : World V := { w1 with db := { w1.db with query_stack := w1.db.query_stack + 1 } }
    match iterate f (fun w => w.cacheOf site) (w2.cacheOf site).length 0 w2 with
    | .error e => .error e
    | .ok (w3, visited) =>
      .ok ({ w3 with db := { w3.db with query_stack := w3.db.query_stack - 1 } }, visited)

/-- `DbTables::QueryOnce<QueryRowTypes..., F>`. Returns the rows visited by this call. -/
def QueryOnce (sig : List Nat) (f : CacheRow V → World V → Except Fault (World V × Bool))
    (w : World V) : Except Fault (World V × List (CacheRow V)) :=
  let rows := fill w.db 0 sig []
  iterate f (fun _ => rows) rows.length 0 w

/-- A callback without side effects. -/
def pureFn (p : CacheRow V → Bool) : CacheRow V → World V → Except Fault (World V × Bool) :=
  fun row w => .ok (w, p row)

end Engine

/-- Client code of one store: a finite sequence of `Set`, `Query` and `QueryOnce` calls
ending in a result. A callback is such a program for each row it is handed, its result
being the value tested by the iteration. -/
inductive Prog (V : Type) where
  | ret (b : Bool)
  | set (table : Nat) (id : Nat) (row : V) (k : Prog V)
  | query (site : Site) (fn : CacheRow V → Prog V) (k : Prog V)
  | queryOnce (sig : List Nat) (fn : CacheRow V → Prog V) (k : Prog V)

/-- Run client code on a store. -/
def Prog.exec {V : Type} [Inhabited V] : Prog V → World V → Except Fault (World V × Bool)
  | .ret b, w => .ok (w, b)
  | .set table id row k, w => k.exec { w with db := w.db.Set table id row }
  | .query site fn k, w =>
    match Query site (fun row w1 => (fn row).exec w1) w with
    | .error e => .error e
    | .ok (w1, _) => k.exec w1
  | .queryOnce sig fn k, w =>
    match QueryOnce sig (fun row w1 => (fn row).exec w1) w with
    | .error e => .error e
    | .ok (w1, _) => k.exec w1

/-- Strictly ascending by Id. -/
def StrictAsc {β : Type} (l : List (Nat × β)) : Prop := l.Pairwise (fun a b => a.1 < b.1)

/-- Insert-or-overwrite at the Id-sorted position, by recursion on the vector: the
effect of `lower_bound` followed by assignment or `insert`. -/
def upsert {β : Type} (id : Nat) (b : β) : List (Nat × β) → List (Nat × β)
  | [] => [(id, b)]
  | a :: as =>
    if a.1 < id then a :: upsert id b as
    else if a.1 = id then (id, b) :: as
    else (id, b) :: a :: as

/-- The element found by `lower_bound` followed by the test `get<0>(*pos) == id`. -/
def findRow {β : Type} (id : Nat) (l : List (Nat × β)) : Option (Nat × β) :=
  match l[lower_bound (fun a => decide (a.1 < id)) l]? with
  | some r => if r.1 = id then some r else none
  | none => none

/-- Every table of the store is strictly ascending by Id. -/
def TablesSorted {V : Type} (db : DbTables V) : Prop :=
  ∀ t, StrictAsc (db.m_tables t).rows

/-- The inner join by Id: the vector is strictly ascending by Id and holds exactly the
rows `(id, r1, ..., rn)` such that, for every `k`, `(id, rk)` is a row of the `k`-th
participating table. -/
def IsInnerJoin {V : Type} (db : DbTables V) (sig : List Nat) (cache : List (CacheRow V)) :
    Prop :=
  StrictAsc cache ∧
    ∀ id vals, (id, vals) ∈ cache ↔
      List.Forall₂ (fun t v => (id, v) ∈ (db.m_tables t).rows) sig vals

/-- The values `Table::get` yields for `id` in the tables of the signature, when every
one of them holds a row for `id`. -/
def joinRow {V : Type} (db : DbTables V) : List Nat → Nat → Option (List V)
  | [], _ => some []
  | QR :: QRT, id =>
    match (db.m_tables QR).get id with
    | none => none
    | some v => (joinRow db QRT id).map (fun vs => v :: vs)

/-- Every row of the vector has one value slot per type of the signature (the rows are
`tuple<Id, QueryRowTypes...>`). -/
def RowsWidth {V : Type} (n : Nat) (rows : List (CacheRow V)) : Prop :=
  ∀ r ∈ rows, r.2.length = n

/-- Every cached Id has a row in every table of the signature. -/
def Joinable {V : Type} (db : DbTables V) (sig : List Nat) (rows : List (CacheRow V)) : Prop :=
  ∀ r ∈ rows, (joinRow db sig r.1).isSome

/-- Invariant of the class statics: `s_instances` starts at 1 and only grows, every
assigned `instance_id` is below it, and no cache vector exists yet for an unassigned
instance id. -/
structure StaticsOk {V : Type} (st : Statics V) : Prop where
  pos : 0 < st.s_instances
  lt : ∀ s, st.instance_id s < st.s_instances
  fresh : ∀ sig i, st.s_instances ≤ i → st.cache_rows sig i = []

/-- Invariant of a store with its caches. -/
structure StoreOk {V : Type} (w : World V) : Prop where
  statics : StaticsOk w.st
  tables : TablesSorted w.db
  stack : 0 ≤ w.db.query_stack
  remove : ∀ q, pending w.db.query_remove q = []
  sorted : ∀ sig i, StrictAsc (w.st.cache_rows sig i)
  width : ∀ sig i, RowsWidth sig.length (w.st.cache_rows sig i)
  joinable : ∀ sig i, Joinable w.db sig (w.st.cache_rows sig i)

/-- States of one store reachable by `Set`, `Query` and `QueryOnce` calls, nested in
callbacks or not, when the cached queries evaluated are those of the sites in `allowed`:
closure of the initial state under `Set`, the part of `Query` before the iteration, and
the increment and decrement of `query_stack` around the iteration. -/
inductive Reachable {V : Type} [Inhabited V] (allowed : Site → Prop) : World V → Prop where
  | init : Reachable allowed {}
  | set (w : World V) (table id : Nat) (row : V) :
      Reachable allowed w → Reachable allowed { w with db := w.db.Set table id row }
  | prepare (w w1 : World V) (site : Site) :
      Reachable allowed w → allowed site → Query.prepare site w = .ok w1 →
        Reachable allowed w1
  | enter (w : World V) :
      Reachable allowed w →
        Reachable allowed { w with db := { w.db with query_stack := w.db.query_stack + 1 } }
  | leave (w : World V) :
      Reachable allowed w → 0 < w.db.query_stack →
        Reachable allowed { w with db := { w.db with query_stack := w.db.query_stack - 1 } }

/-- No restriction on the sites evaluated. -/
def anySite : Site → Prop := fun _ => True

/-- The cached queries that client code evaluates are those of sites in `allowed`. -/
def Prog.SitesIn {V : Type} (allowed : Site → Prop) : Prog V → Prop
  | .ret _ => True
  | .set _ _ _ k => k.SitesIn allowed
  | .query site fn k => allowed site ∧ (∀ row, (fn row).SitesIn allowed) ∧ k.SitesIn allowed
  | .queryOnce _ fn k => (∀ row, (fn row).SitesIn allowed) ∧ k.SitesIn allowed

/-- The result client code ends with. -/
def Prog.result {V : Type} : Prog V → Bool
  | .ret b => b
  | .set _ _ _ k => k.result
  | .query _ _ k => k.result
  | .queryOnce _ _ k => k.result

/-- The rows a short-circuiting iteration hands to a callback with results `p`: every
row up to and including the first one on which `p` is false. -/
def visitedBy {V : Type} (p : CacheRow V → Bool) : List (CacheRow V) → List (CacheRow V)
  | [] => []
  | r :: rs => if p r then r :: visitedBy p rs else [r]

/-- A sequence of `Set` calls in order, each write being (table index, Id, row). -/
def setAll {V : Type} [Inhabited V] (writes : List (Nat × Nat × V)) (db : DbTables V) :
    DbTables V :=
  writes.foldl (fun db wr => db.Set wr.1 wr.2.1 wr.2.2) db

/-- What client code run while `query_stack` is positive leaves fixed in the statics:
instance ids already assigned and the cache vectors that exist. -/
structure StFrame {V : Type} (st st1 : Statics V) : Prop where
  instances : st.s_instances ≤ st1.s_instances
  ids : ∀ s, st.instance_id s ≠ 0 → st1.instance_id s = st.instance_id s
  caches : ∀ sig i, i < st.s_instances → st1.cache_rows sig i = st.cache_rows sig i

/-- `StFrame` on the statics, and the same `query_stack`. -/
def Frame {V : Type} (w w1 : World V) : Prop :=
  w1.db.query_stack = w.db.query_stack ∧ StFrame w.st w1.st

/-- The sites whose evaluation leaves the pending diff sets of `site` alone: `site`
itself and the sites with another QueryKey. -/
def compatibleWith (site : Site) : Site → Prop :=
  fun s => s = site ∨ makeQid s.sig ≠ makeQid site.sig

/-- Invariant relating the cache of `site` to the tables: before the first evaluation
the QueryKey is registered nowhere and has no pending Id; afterwards it is registered
with every participating table and, when the cache is not empty, the cache and the join
agree on every Id that is not pending. -/
structure SiteInv {V : Type} (site : Site) (w : World V) : Prop where
  unreg : w.st.instance_id site = 0 →
    (∀ t, makeQid site.sig ∉ w.db.query_to_tables t) ∧
      pending w.db.query_insert (makeQid site.sig) = []
  reg : w.st.instance_id site ≠ 0 → ∀ t ∈ site.sig, makeQid site.sig ∈ w.db.query_to_tables t
  agree : w.st.instance_id site ≠ 0 → w.cacheOf site ≠ [] →
    ∀ x, x.1 ∉ pending w.db.query_insert (makeQid site.sig) →
      (x ∈ w.cacheOf site ↔ joinRow w.db site.sig x.1 = some x.2)

/-- Row values of the example schema `Position{x, y}`, `Name{text}`. -/
inductive Row where
  | blank
  | Position (x y : Int)
  | Name (text : String)
  deriving DecidableEq, Repr

instance : Inhabited Row := ⟨Row.blank⟩

/-- The short-circuit contract of an iteration over `rows` with callback results `p`:
`vis` are the rows handed to the callback. If the first false result is on the row at
index `k` (counting from 0), the callback was invoked on the first `k + 1` rows and no
other; if no result is false it was invoked on every row. -/
def ShortCircuit {V : Type} (p : CacheRow V → Bool) (rows vis : List (CacheRow V)) : Prop :=
  (∀ k (hk : k < rows.length), p (rows.get ⟨k, hk⟩) = false →
      (∀ j (hj : j < rows.length), j < k → p (rows.get ⟨j, hj⟩) = true) →
      vis = rows.take (k + 1)) ∧
    ((∀ r ∈ rows, p r = true) → vis = rows)

/-- The site of the example query over `{Position, Name}` (tables 0 and 1). -/
def positionName : Site := ⟨[0, 1], 0⟩

/-- The state client code leaves on a fresh store (the fresh store when it faults). -/
def runProg (p : Prog Row) : World Row :=
  match p.exec {} with
  | .ok (w, _) => w
  | .error _ => {}

/-- The state after the part of `Query` before the iteration (unchanged when it faults). -/
def prepared (site : Site) (w : World Row) : World Row :=
  match Query.prepare site w with
  | .ok w1 => w1
  | .error _ => w

/-- The query is first evaluated on the empty store; then entity 1 gets both rows. -/
def lateJoinProg : Prog Row :=
  .query positionName (fun _ => .ret true)
    (.set 0 1 (.Position 0 0) (.set 1 1 (.Name "A") (.ret true)))

/-- Entity 1 joins, the query is evaluated, then the Position of entity 1 is
overwritten. -/
def overwriteProg : Prog Row :=
  .set 0 1 (.Position 0 0) (.set 1 1 (.Name "A")
    (.query positionName (fun _ => .ret true) (.set 0 1 (.Position 9 9) (.ret true))))

/-- Entity 1 joins, the query is evaluated, then entity 2 gets a Position only. -/
def skipProg : Prog Row :=
  .set 0 1 (.Position 0 0) (.set 1 1 (.Name "A")
    (.query positionName (fun _ => .ret true) (.set 0 2 (.Position 5 5) (.ret true))))

/-- Entity 5 joins, the query is evaluated, then entity 2 gets both rows. -/
def insertProg : Prog Row :=
  .set 0 5 (.Position 0 0) (.set 1 5 (.Name "A")
    (.query positionName (fun _ => .ret true)
      (.set 0 2 (.Position 5 5) (.set 1 2 (.Name "B") (.ret true)))))

/-- The state of the overwrite scenario as a callback sees it: `query_stack` is 1. -/
def nestedWorld : World Row :=
  { runProg overwriteProg with db := { (runProg overwriteProg).db with query_stack := 1 } }

/-- Client code of the witness of C10: write a Position for a new entity 2, overwrite
the Position of entity 1, and evaluate the same query again. -/
def disturbingCallback : CacheRow Row → Prog Row :=
  fun _ => .set 0 2 (.Position 5 5) (.set 0 1 (.Position 9 9)
    (.query positionName (fun _ => .ret true) (.ret true)))

/-- A table built from the empty table by a sequence of `Table::set` calls, in order,
each write being (Id, row). -/
def Table.build {V : Type} (writes : List (Nat × V)) : Table V :=
  writes.foldl (fun t wr => t.set wr.1 wr.2) {}

/-- The finite map of the spec with last-write-wins: the row given by the most recent
write for `id` in the sequence (the last one in the list), `none` when there is none. -/
def lastWrite {V : Type} : List (Nat × V) → Nat → Option V
  | [], _ => none
  | wr :: rest, id =>
    match lastWrite rest id with
    | some v => some v
    | none => if wr.1 = id then some wr.2 else none

/-- The guarded insert drain of `Query` for a pending-insert set `ids` (lines 271-293):
the loop runs only on a cache that is not empty. -/
def guardedInsertDrain {V : Type} [Inhabited V] (db : DbTables V) (sig : List Nat)
    (ids : List Nat) (cache_rows : List (CacheRow V)) : Except Fault (List (CacheRow V)) :=
  if cache_rows.isEmpty then .ok cache_rows else insertDrain db sig ids cache_rows

/-- `DbTables::GetTableIndex<RowT, n>` for the declared row types `RowTypes...`: `rest`
are the declared types from position `n` on. The type at position `n` is compared with
`RowT`; when they differ and more types follow (`NumTables - 1 > n`) the search goes on
at `n + 1`; `none` is the `static_assert` (the call does not compile). -/
def GetTableIndex.go {Ty : Type} [DecidableEq Ty] : List Ty → Ty → Nat → Option Nat
  | [], _, _ => none
  | T :: rest, RowT, n => if T = RowT then some n else GetTableIndex.go rest RowT (n + 1)

/-- `DbTables::GetTableIndex<RowT>()` (`n = 0`) for the declared row types `schema`. -/
def GetTableIndex {Ty : Type} [DecidableEq Ty] (schema : List Ty) (RowT : Ty) : Option Nat :=
  GetTableIndex.go schema RowT 0

/-- The table indices `GetTableIndex<QRT>()` of the types of a query signature, when
every one of them is a declared row type. -/
def resolveSig {Ty : Type} [DecidableEq Ty] (schema : List Ty) : List Ty → Option (List Nat)
  | [] => some []
  | QR :: QRT =>
    match GetTableIndex schema QR, resolveSig schema QRT with
    | some i, some is => some (i :: is)
    | _, _ => none

/-- Every QueryKey in the dependency list of a table has the bit of that table set. -/
def RegistryOk {V : Type} (db : DbTables V) : Prop :=
  ∀ t q, q ∈ db.query_to_tables t → q.testBit t = true

/-- Client code run on store A of the two-store scenario: entity 1 gets both rows and
the query is evaluated. -/
def storeAProg : Prog Row :=
  .set 0 1 (.Position 0 0) (.set 1 1 (.Name "A")
    (.query positionName (fun _ => .ret true) (.ret true)))

/-- Store B of the two-store scenario: a second instance of the same `DbTables` class,
holding both rows of entity 2, with the static storage of the class as the code run on
store A left it. -/
def storeB : World Row :=
  { st := (runProg storeAProg).st
    db := setAll [(0, 2, Row.Position 5 5), (1, 2, Row.Name "B")] {} }

/-- The membership index is sorted by (Id, table-index) with no duplicate pair: strictly
ascending in the lexicographic order. -/
def MembersSorted (l : List (Nat × Nat)) : Prop :=
  l.Pairwise (fun a b => a.1 < b.1 ∨ (a.1 = b.1 ∧ a.2 < b.2))

/-- The pending lists of a store represent sets (`unordered_set<Id>`): no Id occurs
twice in one of them. -/
def PendingSets {V : Type} (db : DbTables V) : Prop :=
  ∀ q, (pending db.query_insert q).Nodup ∧ (pending db.query_remove q).Nodup

/-- For every QueryKey, no Id is both in the pending-insert and in the pending-remove
set. -/
def PendingDisjoint {V : Type} (db : DbTables V) : Prop :=
  ∀ q i, i ∈ pending db.query_insert q → i ∉ pending db.query_remove q

/-- A store state with both kinds of pending Ids: QueryKey 3 (tables 0 and 1) is
registered with table 0, Id 1 is pending for insert and Id 2 is pending for remove. -/
def pendingExample : DbTables Row :=
  { query_to_tables := fun t => if t = 0 then [3] else []
    query_insert := fun q => if q = 3 then some [1] else none
    query_remove := fun q => if q = 3 then some [2] else none }

/-- Nothing has been removed between a state `w` and a later state `w1`: every Id stored
in a table is still stored in that table, and every Id cached in a cache vector is still
cached in that vector. -/
def Grows {V : Type} (w w1 : World V) : Prop :=
  (∀ t r, r ∈ (w.db.m_tables t).rows → ∃ r1 ∈ (w1.db.m_tables t).rows, r1.1 = r.1) ∧
  (∀ sig i r, r ∈ w.st.cache_rows sig i → ∃ r1 ∈ w1.st.cache_rows sig i, r1.1 = r.1)

/-- A property of states kept by each step that client code can take from a reachable
state: a `Set`, the part of `Query` before the iteration, and a change of
`query_stack`. -/
structure StepClosed {V : Type} [Inhabited V] (allowed : Site → Prop) (P : World V → Prop) :
    Prop where
  set : ∀ (w : World V) t id v, Reachable allowed w → P w →
    P { w with db := w.db.Set t id v }
  prepare : ∀ (w w1 : World V) site, Reachable allowed w → allowed site →
    Query.prepare site w = .ok w1 → P w → P w1
  stack : ∀ (w : World V) k, P w → P { w with db := { w.db with query_stack := k } }

/-- The state and the visited rows that `Query` with client code as callback returns
(the state it was called on and no row when it faults). -/
def queried (site : Site) (fn : CacheRow Row → Prog Row) (w : World Row) :
    World Row × List (CacheRow Row) :=
  match Query site (fun row x => (fn row).exec x) w with
  | .ok r => r
  | .error _ => (w, [])

/-- A callback that evaluates the query again and then stops the iteration. -/
def stoppingCallback : CacheRow Row → Prog Row :=
  fun _ => .query positionName (fun _ => .ret true) (.ret false)

/-- Entity 1 joins, the query is evaluated, then entity 2 gets both rows (steps 1 and 3
of the scenario of the spec). -/
def appendProg : Prog Row :=
  .set 0 1 (.Position 0 0) (.set 1 1 (.Name "A")
    (.query positionName (fun _ => .ret true)
      (.set 0 2 (.Position 5 5) (.set 1 2 (.Name "B") (.ret true)))))

/-- Entity 1 joins and the query is evaluated with a callback that gives entity 3 both
rows. -/
def callbackWriteProg : Prog Row :=
  .set 0 1 (.Position 0 0) (.set 1 1 (.Name "A")
    (.query positionName
      (fun _ => .set 0 3 (.Position 7 7) (.set 1 3 (.Name "C") (.ret true))) (.ret true)))

/-- A second instantiation of the query over `{Position, Name}`: the same signature with
another callback type. -/
def positionNameOther : Site := ⟨[0, 1], 1⟩

/-- Entity 1 joins, both instantiations of the query are evaluated, the Position of
entity 1 is overwritten and the first instantiation is evaluated again. -/
def twoSiteProg : Prog Row :=
  .set 0 1 (.Position 0 0) (.set 1 1 (.Name "A")
    (.query positionName (fun _ => .ret true)
      (.query positionNameOther (fun _ => .ret true)
        (.set 0 1 (.Position 9 9)
          (.query positionName (fun _ => .ret true) (.ret true))))))

/-- The site of the query over `{Name, Position}`: the row types of `positionName` in
the other order. -/
def namePosition : Site := ⟨[1, 0], 1⟩

/-- Entity 5 joins, both orders of the query are evaluated, then entity 2 gets both
rows. -/
def twoOrderProg : Prog Row :=
  .set 0 5 (.Position 0 0) (.set 1 5 (.Name "A")
    (.query positionName (fun _ => .ret true)
      (.query namePosition (fun _ => .ret true)
        (.set 0 2 (.Position 5 5) (.set 1 2 (.Name "B") (.ret true))))))

end dng

namespace tsvdata

/-! ## The embedding of `parseTabs` (`src/tsvdata.cpp`) -/

/-- `std::string::npos`, the largest value of `size_t` (64 bits). -/
def npos : Nat := 2 ^ 64 - 1

/-- Subtraction of `size_t` values. -/
def sizeSub (a b : Nat) : Nat := (a + 2 ^ 64 - b) % 2 ^ 64

/-- Faults of `parseTabs`: `substr` throws `std::out_of_range`; `outOfFuel` is the bound
of the model on the number of loop iterations. -/
inductive ParseFault where
  | outOfRange
  | outOfFuel
  deriving DecidableEq, Repr

/-- The scan of `std::string::find(ch, pos)`: `rest` holds the characters from index
`pos` on; the result is the index of the first `ch`, `npos` when there is none. -/
def findFrom (ch : Char) : List Char → Nat → Nat
  | [], _ => npos
  | c :: cs, pos => if c = ch then pos else findFrom ch cs (pos + 1)

/-- `std::string::find(ch, pos)`. -/
def find (line : List Char) (ch : Char) (pos : Nat) : Nat :=
  findFrom ch (line.drop pos) pos

/-- `std::string::substr(pos, count)`: the characters from `pos` on, at most `count` of
them; it throws when `pos > size()`. -/
def substr (line : List Char) (pos count : Nat) : Except ParseFault (List Char) :=
  if line.length < pos then .error .outOfRange else .ok ((line.drop pos).take count)

/-- The inner loop of `parseTabs`: while the last character of `col` is a line feed or
a carriage return, `col.resize(col.size() - 1)`. -/
def stripLineEnd (col : List Char) : List Char :=
  col.rdropWhile (fun c => c == '\n' || c == '\r')

/-- The `while (true)` loop of `parseTabs`, run for at most `fuel` iterations. -/
def parseTabs.loop (line : List Char) :
    Nat → Nat → List (List Char) → Except ParseFault (List (List Char))
  | 0, _, _ => .error .outOfFuel
  | fuel + 1, iter, parts =>
    let endPos := find line '\t' iter
    match substr line iter (sizeSub endPos iter) with
    | .error e => .error e
    | .ok col =>
      let parts1 := parts ++ [stripLineEnd col]
      if endPos ≠ npos then parseTabs.loop line fuel ((endPos + 1) % 2 ^ 64) parts1
      else .ok parts1

/-- `parseTabs(line, parts)`: the value of `parts` on return. The loop runs at most once
per character of the line, and once more. -/
def parseTabs (line : List Char) (parts : List (List Char)) :
    Except ParseFault (List (List Char)) :=
  parseTabs.loop line (line.length + 1) 0 parts

/-- The tab-delimited segments of a line, in order: the pieces between consecutive tab
characters, from the start of the line to its end. -/
def segments : List Char → List (List Char)
  | [] => [[]]
  | c :: cs =>
    if c = '\t' then [] :: segments cs
    else
      match segments cs with
      | [] => [[c]]
      | s :: ss => (c :: s) :: ss
end tsvdata

namespace dng

/-! ## Lemmas -/

section Lemmas

variable {V : Type} {β : Type}

theorem lower_bound_cons (id : Nat) (a : Nat × β) (as : List (Nat × β)) :
    (a :: as)[lower_bound (fun a => decide (a.1 < id)) (a :: as)]? =
      if a.1 < id then as[lower_bound (fun a => decide (a.1 < id)) as]? else some a := by
  by_cases h : a.1 < id <;> simp [lower_bound, h]

theorem lower_bound_none_iff (id : Nat) (l : List (Nat × β)) :
    l[lower_bound (fun a => decide (a.1 < id)) l]? = none ↔ ∀ r ∈ l, r.1 < id := by
  induction l with
  | nil => simp [lower_bound]
  | cons a as ih =>
    rw [lower_bound_cons]
    by_cases h : a.1 < id
    · simp [h, ih]
    · simp [h]

theorem lower_bound_some_ge (id : Nat) (l : List (Nat × β)) (r : Nat × β)
    (h : l[lower_bound (fun a => decide (a.1 < id)) l]? = some r) : id ≤ r.1 ∧ r ∈ l := by
  induction l with
  | nil => simp [lower_bound] at h
  | cons a as ih =>
    rw [lower_bound_cons] at h
    by_cases h1 : a.1 < id
    · simp only [h1, if_true] at h
      exact ⟨(ih h).1, List.mem_cons_of_mem _ (ih h).2⟩
    · simp only [h1, if_false, Option.some.injEq] at h
      subst h
      exact ⟨Nat.le_of_not_lt h1, List.mem_cons_self _ _⟩

theorem findRow_cons (id : Nat) (a : Nat × β) (as : List (Nat × β)) :
    findRow id (a :: as) =
      if a.1 < id then findRow id as else if a.1 = id then some a else none := by
  unfold findRow
  rw [lower_bound_cons]
  by_cases h : a.1 < id <;> simp [h]

theorem findRow_eq_some_iff (id : Nat) (l : List (Nat × β)) (hl : StrictAsc l) (r : Nat × β) :
    findRow id l = some r ↔ r ∈ l ∧ r.1 = id := by
  induction l with
  | nil => simp [findRow, lower_bound]
  | cons a as ih =>
    have has : StrictAsc as := (List.pairwise_cons.mp hl).2
    have hlt : ∀ x ∈ as, a.1 < x.1 := (List.pairwise_cons.mp hl).1
    rw [findRow_cons]
    by_cases h1 : a.1 < id
    · simp only [h1, if_true, ih has, List.mem_cons]
      constructor
      · rintro ⟨h2, h3⟩; exact ⟨Or.inr h2, h3⟩
      · rintro ⟨h2 | h2, h3⟩
        · subst h2; omega
        · exact ⟨h2, h3⟩
    · by_cases h2 : a.1 = id
      · rw [if_neg h1, if_pos h2]
        simp only [Option.some.injEq, List.mem_cons]
        constructor
        · rintro rfl; exact ⟨Or.inl rfl, h2⟩
        · rintro ⟨h3 | h3, h4⟩
          · exact h3.symm
          · have := hlt r h3; omega
      · rw [if_neg h1, if_neg h2]
        simp only [List.mem_cons, false_iff, not_and, reduceCtorEq]
        rintro (h3 | h3) h4
        · subst h3; exact h2 h4
        · have := hlt r h3; omega

theorem findRow_eq_none_iff (id : Nat) (l : List (Nat × β)) (hl : StrictAsc l) :
    findRow id l = none ↔ ∀ r ∈ l, r.1 ≠ id := by
  constructor
  · intro h r hr hid
    have := (findRow_eq_some_iff id l hl r).mpr ⟨hr, hid⟩
    rw [h] at this; cases this
  · intro h
    cases hf : findRow id l with
    | none => rfl
    | some r =>
      have := (findRow_eq_some_iff id l hl r).mp hf
      exact absurd this.2 (h r this.1)

theorem set_eq_upsert (id : Nat) (b : β) (l : List (Nat × β)) (r : Nat × β)
    (h : l[lower_bound (fun a => decide (a.1 < id)) l]? = some r) (hr : r.1 = id) :
    l.set (lower_bound (fun a => decide (a.1 < id)) l) (id, b) = upsert id b l := by
  induction l with
  | nil => simp [lower_bound] at h
  | cons a as ih =>
    rw [lower_bound_cons] at h
    by_cases h1 : a.1 < id
    · simp only [h1, if_true] at h
      simp [lower_bound, upsert, h1, ih h]
    · simp only [h1, if_false, Option.some.injEq] at h
      subst h
      simp [lower_bound, upsert, h1, hr]

theorem vecInsert_eq_upsert (id : Nat) (b : β) (l : List (Nat × β))
    (h : ∀ r, l[lower_bound (fun a => decide (a.1 < id)) l]? = some r → r.1 ≠ id) :
    vecInsert l (lower_bound (fun a => decide (a.1 < id)) l) (id, b) = upsert id b l := by
  induction l with
  | nil => simp [lower_bound, upsert, vecInsert]
  | cons a as ih =>
    rw [lower_bound_cons] at h
    by_cases h1 : a.1 < id
    · simp only [h1, if_true] at h
      have := ih h
      simp only [vecInsert] at this
      simp [lower_bound, upsert, h1, vecInsert, this]
    · simp only [h1, if_false, Option.some.injEq] at h
      have h2 : a.1 ≠ id := h a rfl
      simp [lower_bound, upsert, h1, h2, vecInsert]

theorem mem_upsert (id : Nat) (b : β) (l : List (Nat × β)) (hl : StrictAsc l) (x : Nat × β) :
    x ∈ upsert id b l ↔ x = (id, b) ∨ (x ∈ l ∧ x.1 ≠ id) := by
  induction l with
  | nil => simp [upsert]
  | cons a as ih =>
    have has : StrictAsc as := (List.pairwise_cons.mp hl).2
    have hlt : ∀ y ∈ as, a.1 < y.1 := (List.pairwise_cons.mp hl).1
    by_cases h1 : a.1 < id
    · simp only [upsert, h1, if_true, List.mem_cons, ih has]
      constructor
      · rintro (h | h | h)
        · subst h; exact Or.inr ⟨Or.inl rfl, by omega⟩
        · exact Or.inl h
        · exact Or.inr ⟨Or.inr h.1, h.2⟩
      · rintro (h | ⟨h | h, h3⟩)
        · exact Or.inr (Or.inl h)
        · exact Or.inl h
        · exact Or.inr (Or.inr ⟨h, h3⟩)
    · by_cases h2 : a.1 = id
      · simp only [upsert]
        rw [if_neg h1, if_pos h2]
        simp only [List.mem_cons]
        constructor
        · rintro (h | h)
          · exact Or.inl h
          · exact Or.inr ⟨Or.inr h, by have := hlt x h; omega⟩
        · rintro (h | ⟨h | h, h3⟩)
          · exact Or.inl h
          · subst h; exact absurd h2 h3
          · exact Or.inr h
      · simp only [upsert, h1, h2, if_false, List.mem_cons]
        constructor
        · rintro (h | h | h)
          · exact Or.inl h
          · subst h; exact Or.inr ⟨Or.inl rfl, h2⟩
          · exact Or.inr ⟨Or.inr h, by have := hlt x h; omega⟩
        · rintro (h | ⟨h | h, _⟩)
          · exact Or.inl h
          · exact Or.inr (Or.inl h)
          · exact Or.inr (Or.inr h)

theorem mem_upsert_fst (id : Nat) (b : β) (l : List (Nat × β)) (x : Nat × β)
    (hx : x ∈ upsert id b l) : x.1 = id ∨ x ∈ l := by
  induction l with
  | nil => simp [upsert] at hx; subst hx; exact Or.inl rfl
  | cons a as ih =>
    by_cases h1 : a.1 < id
    · simp only [upsert, h1, if_true, List.mem_cons] at hx
      rcases hx with h | h
      · exact Or.inr (h ▸ List.mem_cons_self _ _)
      · rcases ih h with h | h
        · exact Or.inl h
        · exact Or.inr (List.mem_cons_of_mem _ h)
    · by_cases h2 : a.1 = id
      · simp only [upsert] at hx
        rw [if_neg h1, if_pos h2] at hx
        simp only [List.mem_cons] at hx
        rcases hx with h | h
        · subst h; exact Or.inl rfl
        · exact Or.inr (List.mem_cons_of_mem _ h)
      · simp only [upsert, h1, h2, if_false, List.mem_cons] at hx
        rcases hx with h | h | h
        · subst h; exact Or.inl rfl
        · exact Or.inr (h ▸ List.mem_cons_self _ _)
        · exact Or.inr (List.mem_cons_of_mem _ h)

theorem strictAsc_upsert (id : Nat) (b : β) (l : List (Nat × β)) (hl : StrictAsc l) :
    StrictAsc (upsert id b l) := by
  induction l with
  | nil => simp [upsert, StrictAsc]
  | cons a as ih =>
    have has : StrictAsc as := (List.pairwise_cons.mp hl).2
    have hlt : ∀ y ∈ as, a.1 < y.1 := (List.pairwise_cons.mp hl).1
    by_cases h1 : a.1 < id
    · simp only [upsert, h1, if_true]
      refine List.pairwise_cons.mpr ⟨?_, ih has⟩
      intro y hy
      rcases mem_upsert_fst id b as y hy with h | h
      · omega
      · exact hlt y h
    · by_cases h2 : a.1 = id
      · simp only [upsert]
        rw [if_neg h1, if_pos h2]
        refine List.pairwise_cons.mpr ⟨?_, has⟩
        intro y hy
        have := hlt y hy
        simp only; omega
      · simp only [upsert, h1, h2, if_false]
        refine List.pairwise_cons.mpr ⟨?_, hl⟩
        intro y hy
        rcases List.mem_cons.mp hy with h | h
        · subst h; simp only; omega
        · have := hlt y h; simp only; omega

theorem Table.set_rows (t : Table V) (id : Nat) (row : V) :
    (t.set id row).rows = upsert id row t.rows := by
  unfold Table.set
  dsimp only
  cases h : t.rows[lower_bound (fun a => decide (a.1 < id)) t.rows]? with
  | none =>
    simp only
    exact vecInsert_eq_upsert id row t.rows (by intro r hr; rw [h] at hr; cases hr)
  | some r =>
    simp only
    by_cases h1 : r.1 = id
    · rw [if_pos h1]
      simp only [h1]
      exact set_eq_upsert id row t.rows r h h1
    · rw [if_neg h1]
      exact vecInsert_eq_upsert id row t.rows
        (by intro r2 hr; rw [h] at hr; cases hr; exact h1)

theorem Table.get_eq (t : Table V) (id : Nat) :
    t.get id = (findRow id t.rows).map (fun r => r.2) := by
  unfold Table.get findRow
  dsimp only
  cases t.rows[lower_bound (fun a => decide (a.1 < id)) t.rows]? with
  | none => rfl
  | some r => by_cases h1 : r.1 = id <;> simp [h1]

theorem Table.get_eq_some_iff (t : Table V) (ht : StrictAsc t.rows) (id : Nat) (v : V) :
    t.get id = some v ↔ (id, v) ∈ t.rows := by
  rw [Table.get_eq]
  constructor
  · intro h
    cases hf : findRow id t.rows with
    | none => rw [hf] at h; cases h
    | some r =>
      rw [hf] at h
      simp only [Option.map_some', Option.some.injEq] at h
      have := (findRow_eq_some_iff id t.rows ht r).mp hf
      rw [← h, ← this.2]
      exact this.1
  · intro h
    rw [(findRow_eq_some_iff id t.rows ht (id, v)).mpr ⟨h, rfl⟩]
    rfl

theorem Table.set_sorted (t : Table V) (ht : StrictAsc t.rows) (id : Nat) (row : V) :
    StrictAsc (t.set id row).rows := by
  rw [Table.set_rows]
  exact strictAsc_upsert id row t.rows ht

theorem joinRow_length (db : DbTables V) (sig : List Nat) (id : Nat) (vs : List V)
    (h : joinRow db sig id = some vs) : vs.length = sig.length := by
  induction sig generalizing vs with
  | nil => simp [joinRow] at h; subst h; rfl
  | cons QR QRT ih =>
    simp only [joinRow] at h
    cases hg : (db.m_tables QR).get id with
    | none => rw [hg] at h; cases h
    | some v =>
      rw [hg] at h
      cases hj : joinRow db QRT id with
      | none => rw [hj] at h; cases h
      | some ws =>
        rw [hj] at h
        simp only [Option.map_some', Option.some.injEq] at h
        subst h
        simp [ih ws hj]

theorem joinRow_eq_some_iff (db : DbTables V) (hdb : TablesSorted db) (sig : List Nat)
    (id : Nat) (vs : List V) :
    joinRow db sig id = some vs ↔
      List.Forall₂ (fun t v => (id, v) ∈ (db.m_tables t).rows) sig vs := by
  induction sig generalizing vs with
  | nil =>
    simp only [joinRow, Option.some.injEq, List.forall₂_nil_left_iff]
    exact eq_comm
  | cons QR QRT ih =>
    simp only [joinRow]
    constructor
    · intro h
      cases hg : (db.m_tables QR).get id with
      | none => rw [hg] at h; cases h
      | some v =>
        rw [hg] at h
        cases hj : joinRow db QRT id with
        | none => rw [hj] at h; cases h
        | some ws =>
          rw [hj] at h
          simp only [Option.map_some', Option.some.injEq] at h
          subst h
          exact List.Forall₂.cons ((Table.get_eq_some_iff _ (hdb QR) id v).mp hg) ((ih ws).mp hj)
    · intro h
      cases h with
      | cons h1 h2 =>
        rw [(Table.get_eq_some_iff _ (hdb QR) id _).mpr h1, (ih _).mpr h2]
        rfl

theorem joinRow_isSome_iff (db : DbTables V) (sig : List Nat) (id : Nat) :
    (joinRow db sig id).isSome ↔ ∀ t ∈ sig, ((db.m_tables t).get id).isSome := by
  induction sig with
  | nil => simp [joinRow]
  | cons QR QRT ih =>
    simp only [joinRow, List.mem_cons, forall_eq_or_imp]
    cases hg : (db.m_tables QR).get id with
    | none => simp
    | some v => simp [← ih]

theorem isInCache_eq (db : DbTables V) (sig : List Nat) (id : Nat) :
    isInCache db sig id = (joinRow db sig id).isSome := by
  induction sig with
  | nil => rfl
  | cons QR QRT ih =>
    simp only [isInCache, joinRow, Table.get_eq, findRow]
    cases (db.m_tables QR).rows[lower_bound (fun a => decide (a.1 < id)) (db.m_tables QR).rows]? with
    | none => rfl
    | some r =>
      by_cases h1 : r.1 = id
      · simp [h1, ih]
      · simp [h1]

theorem take_set_succ (l : List V) (n : Nat) (v : V) (h : n < l.length) :
    (l.set n v).take (n + 1) = l.take n ++ [v] := by
  induction l generalizing n with
  | nil => simp at h
  | cons a as ih =>
    cases n with
    | zero => simp
    | succ m => simpa using ih m (by simpa using h)

theorem updateCache_eq (db : DbTables V) (sig : List Nat) (recur : Nat) (row : CacheRow V)
    (id : Nat) (hw : row.2.length = recur + sig.length) :
    updateCache db recur sig row id =
      match joinRow db sig id with
      | none => .error .assertFailed
      | some vs => .ok (row.1, row.2.take recur ++ vs) := by
  induction sig generalizing recur row with
  | nil =>
    simp only [updateCache, joinRow, List.append_nil]
    rw [List.take_of_length_le (by simp at hw; omega)]
  | cons QR QRT ih =>
    simp only [updateCache, joinRow]
    cases hg : (db.m_tables QR).get id with
    | none => rfl
    | some v =>
      simp only
      rw [ih (recur + 1) (row.1, row.2.set recur v) (by simp at hw ⊢; omega)]
      cases hj : joinRow db QRT id with
      | none => rfl
      | some ws =>
        simp only [Option.map_some']
        rw [take_set_succ row.2 recur v (by simp at hw; omega)]
        simp

theorem fill_succ_eq [Inhabited V] (db : DbTables V) (sig : List Nat) (recur : Nat)
    (rows : List (CacheRow V)) (hrec : recur ≠ 0) (hw : RowsWidth (recur + sig.length) rows) :
    fill db recur sig rows =
      rows.filterMap (fun r =>
        (joinRow db sig r.1).map (fun vs => (r.1, r.2.take recur ++ vs))) := by
  induction sig generalizing recur rows with
  | nil =>
    simp only [fill, joinRow, Option.map_some', List.append_nil]
    have h1 : rows.filterMap (fun r => some (r.1, r.2.take recur)) = rows.filterMap some := by
      apply List.filterMap_congr
      intro r hr
      have := hw r hr
      rw [List.take_of_length_le (by simp at this; omega)]
    rw [h1, List.filterMap_some]
  | cons QR QRT ih =>
    simp only [fill, if_neg hrec]
    rw [ih (recur + 1) _ (by omega)]
    · rw [List.filterMap_filterMap]
      apply List.filterMap_congr
      intro r hr
      have hrw := hw r hr
      simp only [joinRow]
      cases hg : (db.m_tables QR).get r.1 with
      | none => rfl
      | some v =>
        simp only [Option.some_bind]
        cases hj : joinRow db QRT r.1 with
        | none => rfl
        | some ws =>
          simp only [Option.map_some']
          rw [take_set_succ r.2 recur v (by simp at hrw; omega)]
          simp
    · intro r hr
      rw [List.mem_filterMap] at hr
      obtain ⟨r0, hr0, h0⟩ := hr
      have hrw := hw r0 hr0
      cases hg : (db.m_tables QR).get r0.1 with
      | none => rw [hg] at h0; cases h0
      | some v =>
        rw [hg] at h0
        simp only [Option.some.injEq] at h0
        subst h0
        simp at hrw ⊢
        omega

theorem fill_zero_eq [Inhabited V] (db : DbTables V) (QR : Nat) (QRT : List Nat) :
    fill db 0 (QR :: QRT) [] =
      (db.m_tables QR).rows.filterMap (fun row =>
        (joinRow db QRT row.1).map (fun vs => (row.1, row.2 :: vs))) := by
  simp only [fill, if_true, List.nil_append]
  rw [fill_succ_eq db QRT 1 _ (by omega)]
  · rw [List.filterMap_map]
    apply List.filterMap_congr
    intro r _
    simp only [Function.comp]
    cases joinRow db QRT r.1 with
    | none => rfl
    | some ws => simp [List.replicate_succ]
  · intro r hr
    rw [List.mem_map] at hr
    obtain ⟨r0, _, h0⟩ := hr
    subst h0
    simp
    omega

theorem fill_isInnerJoin [Inhabited V] (db : DbTables V) (hdb : TablesSorted db)
    (sig : List Nat) (hsig : sig ≠ []) : IsInnerJoin db sig (fill db 0 sig []) := by
  cases sig with
  | nil => exact absurd rfl hsig
  | cons QR QRT =>
    rw [fill_zero_eq]
    constructor
    · apply List.Pairwise.filterMap _ _ (hdb QR)
      intro a a' haa b hb b' hb'
      simp only [Option.mem_def, Option.map_eq_some'] at hb hb'
      obtain ⟨_, _, rfl⟩ := hb
      obtain ⟨_, _, rfl⟩ := hb'
      exact haa
    · intro id vals
      rw [List.mem_filterMap]
      constructor
      · rintro ⟨row, hrow, h⟩
        simp only [Option.map_eq_some'] at h
        obtain ⟨vs, hvs, hrv⟩ := h
        simp only [Prod.mk.injEq] at hrv
        obtain ⟨h1, h2⟩ := hrv
        subst h1 h2
        exact List.Forall₂.cons hrow ((joinRow_eq_some_iff db hdb QRT _ vs).mp hvs)
      · intro h
        cases h with
        | cons h1 h2 =>
          refine ⟨_, h1, ?_⟩
          simp only [(joinRow_eq_some_iff db hdb QRT id _).mpr h2, Option.map_some']

theorem insertStep_pastTheEnd [Inhabited V] (db : DbTables V) (sig : List Nat)
    (cache : List (CacheRow V)) (id : Nat) (h : ∀ r ∈ cache, r.1 < id) :
    insertStep db sig cache id = .error .pastTheEnd := by
  unfold insertStep
  dsimp only
  rw [(lower_bound_none_iff id cache).mpr h]

theorem insertStep_ok [Inhabited V] (db : DbTables V) (sig : List Nat)
    (cache : List (CacheRow V)) (id : Nat) (hs : StrictAsc cache)
    (hw : RowsWidth sig.length cache) (hj : Joinable db sig cache)
    (hb : ∃ r ∈ cache, id ≤ r.1) :
    ∃ cache1, insertStep db sig cache id = .ok cache1 ∧ StrictAsc cache1 ∧
      RowsWidth sig.length cache1 ∧ Joinable db sig cache1 ∧
      ∀ x, x ∈ cache1 ↔
        (x.1 = id ∧ joinRow db sig id = some x.2) ∨ (x.1 ≠ id ∧ x ∈ cache) := by
  unfold insertStep
  dsimp only
  cases hlb : cache[lower_bound (fun (row : CacheRow V) => decide (row.1 < id)) cache]? with
  | none =>
    obtain ⟨r, hr, hle⟩ := hb
    have := (lower_bound_none_iff id cache).mp hlb r hr
    omega
  | some r =>
    have hrmem : r ∈ cache := (lower_bound_some_ge id cache r hlb).2
    have key : ∀ vs, joinRow db sig id = some vs →
        StrictAsc (upsert id vs cache) ∧ RowsWidth sig.length (upsert id vs cache) ∧
        Joinable db sig (upsert id vs cache) ∧
        ∀ x, x ∈ upsert id vs cache ↔
          (x.1 = id ∧ joinRow db sig id = some x.2) ∨ (x.1 ≠ id ∧ x ∈ cache) := by
      intro vs hvs
      have hmem := mem_upsert id vs cache hs
      refine ⟨strictAsc_upsert id vs cache hs, ?_, ?_, ?_⟩
      · intro x hx
        rcases (hmem x).mp hx with h | h
        · subst h; exact joinRow_length db sig id vs hvs
        · exact hw x h.1
      · intro x hx
        rcases (hmem x).mp hx with h | h
        · subst h; simp [hvs]
        · exact hj x h.1
      · intro x
        rw [hmem x]
        constructor
        · rintro (h | h)
          · subst h; exact Or.inl ⟨rfl, hvs⟩
          · exact Or.inr ⟨h.2, h.1⟩
        · rintro (⟨h1, h2⟩ | ⟨h1, h2⟩)
          · left
            rw [hvs] at h2
            simp only [Option.some.injEq] at h2
            exact Prod.ext h1 h2.symm
          · exact Or.inr ⟨h2, h1⟩
    dsimp only
    by_cases h1 : r.1 = id
    · rw [if_neg (not_not.mpr h1)]
      have hjr := hj r hrmem
      rw [h1] at hjr
      obtain ⟨vs, hvs⟩ := Option.isSome_iff_exists.mp hjr
      rw [updateCache_eq db sig 0 r id (by simpa using hw r hrmem), hvs]
      dsimp only
      refine ⟨_, rfl, ?_⟩
      have : cache.set (lower_bound (fun (row : CacheRow V) => decide (row.1 < id)) cache)
          (r.1, List.take 0 r.2 ++ vs) = upsert id vs cache := by
        rw [h1]
        exact set_eq_upsert id vs cache r hlb h1
      rw [this]
      simpa only [hvs] using key vs hvs
    · rw [if_pos h1, isInCache_eq]
      cases hvs : joinRow db sig id with
      | none =>
        simp only [Option.isSome_none, Bool.not_false, if_true]
        refine ⟨_, rfl, hs, hw, hj, ?_⟩
        intro x
        have hnone : findRow id cache = none := by
          unfold findRow
          rw [hlb]
          simp [h1]
        have := (findRow_eq_none_iff id cache hs).mp hnone
        constructor
        · intro hx; exact Or.inr ⟨this x hx, hx⟩
        · rintro (⟨_, h2⟩ | ⟨_, h2⟩)
          · cases h2
          · exact h2
      | some vs =>
        simp only [Option.isSome_some, Bool.not_true, Bool.false_eq_true, if_false]
        rw [updateCache_eq db sig 0 (id, List.replicate sig.length default) id (by simp), hvs]
        dsimp only
        refine ⟨_, rfl, ?_⟩
        have : vecInsert cache (lower_bound (fun (row : CacheRow V) => decide (row.1 < id)) cache)
            (id, List.take 0 (List.replicate sig.length default) ++ vs) = upsert id vs cache := by
          simp only [List.take_zero, List.nil_append]
          exact vecInsert_eq_upsert id vs cache
            (by intro r2 hr2; rw [hlb] at hr2; cases hr2; exact h1)
        rw [this]
        simpa only [hvs] using key vs hvs

theorem insertDrain_pastTheEnd [Inhabited V] (db : DbTables V) (sig : List Nat)
    (ids : List Nat) (cache : List (CacheRow V)) (hs : StrictAsc cache)
    (hw : RowsWidth sig.length cache) (hj : Joinable db sig cache)
    (id : Nat) (hid : id ∈ ids) (h : ∀ r ∈ cache, r.1 < id) :
    insertDrain db sig ids cache = .error .pastTheEnd := by
  induction ids generalizing cache with
  | nil => cases hid
  | cons a as ih =>
    simp only [insertDrain]
    by_cases ha : ∀ r ∈ cache, r.1 < a
    · rw [insertStep_pastTheEnd db sig cache a ha]
    · have hb : ∃ r ∈ cache, a ≤ r.1 := by
        by_contra hcon
        apply ha
        intro r hr
        by_contra hlt
        exact hcon ⟨r, hr, Nat.le_of_not_lt hlt⟩
      obtain ⟨cache1, h1, hs1, hw1, hj1, hm1⟩ := insertStep_ok db sig cache a hs hw hj hb
      rw [h1]
      dsimp only
      rcases List.mem_cons.mp hid with hia | hia
      · subst hia
        obtain ⟨r, hr, hle⟩ := hb
        have := h r hr
        omega
      · apply ih cache1 hs1 hw1 hj1 hia
        intro r hr
        rcases (hm1 r).mp hr with ⟨h2, _⟩ | ⟨_, h2⟩
        · obtain ⟨r0, hr0, hle⟩ := hb
          have := h r0 hr0
          omega
        · exact h r h2

theorem insertDrain_ok [Inhabited V] (db : DbTables V) (sig : List Nat)
    (ids : List Nat) (cache : List (CacheRow V)) (hs : StrictAsc cache)
    (hw : RowsWidth sig.length cache) (hj : Joinable db sig cache)
    (hb : ∀ id ∈ ids, ∃ r ∈ cache, id ≤ r.1) :
    ∃ cache1, insertDrain db sig ids cache = .ok cache1 ∧ StrictAsc cache1 ∧
      RowsWidth sig.length cache1 ∧ Joinable db sig cache1 ∧
      ∀ x, x ∈ cache1 ↔
        (x.1 ∈ ids ∧ joinRow db sig x.1 = some x.2) ∨ (x.1 ∉ ids ∧ x ∈ cache) := by
  induction ids generalizing cache with
  | nil => exact ⟨cache, rfl, hs, hw, hj, by simp⟩
  | cons a as ih =>
    obtain ⟨cache1, h1, hs1, hw1, hj1, hm1⟩ :=
      insertStep_ok db sig cache a hs hw hj (hb a (List.mem_cons_self _ _))
    have hb1 : ∀ id ∈ as, ∃ r ∈ cache1, id ≤ r.1 := by
      intro id hid
      obtain ⟨r, hr, hle⟩ := hb id (List.mem_cons_of_mem _ hid)
      by_cases hra : r.1 = a
      · have hjr := hj r hr
        obtain ⟨vs, hvs⟩ := Option.isSome_iff_exists.mp hjr
        rw [hra] at hvs
        exact ⟨(a, vs), (hm1 (a, vs)).mpr (Or.inl ⟨rfl, hvs⟩), by rw [← hra]; exact hle⟩
      · exact ⟨r, (hm1 r).mpr (Or.inr ⟨hra, hr⟩), hle⟩
    obtain ⟨cache2, h2, hs2, hw2, hj2, hm2⟩ := ih cache1 hs1 hw1 hj1 hb1
    refine ⟨cache2, ?_, hs2, hw2, hj2, ?_⟩
    · simp only [insertDrain, h1]
      exact h2
    · intro x
      rw [hm2 x, hm1 x]
      simp only [List.mem_cons]
      by_cases hxa : x.1 = a
      · rw [hxa]
        by_cases haas : a ∈ as <;> simp [haas]
      · simp [hxa]

theorem strictAsc_ext {l1 l2 : List (Nat × β)} (h1 : StrictAsc l1) (h2 : StrictAsc l2)
    (h : ∀ x, x ∈ l1 ↔ x ∈ l2) : l1 = l2 := by
  induction l1 generalizing l2 with
  | nil =>
    cases l2 with
    | nil => rfl
    | cons b bs => exact absurd ((h b).mpr (List.mem_cons_self _ _)) (List.not_mem_nil _)
  | cons a as ih =>
    cases l2 with
    | nil => exact absurd ((h a).mp (List.mem_cons_self _ _)) (List.not_mem_nil _)
    | cons b bs =>
      have ha := List.pairwise_cons.mp h1
      have hb := List.pairwise_cons.mp h2
      have hab : a = b := by
        rcases List.mem_cons.mp ((h a).mp (List.mem_cons_self _ _)) with h3 | h3
        · exact h3
        · rcases List.mem_cons.mp ((h b).mpr (List.mem_cons_self _ _)) with h4 | h4
          · exact h4.symm
          · have := ha.1 b h4
            have := hb.1 a h3
            omega
      subst hab
      congr 1
      apply ih ha.2 hb.2
      intro x
      constructor
      · intro hx
        rcases List.mem_cons.mp ((h x).mp (List.mem_cons_of_mem _ hx)) with h3 | h3
        · subst h3; have := ha.1 x hx; omega
        · exact h3
      · intro hx
        rcases List.mem_cons.mp ((h x).mpr (List.mem_cons_of_mem _ hx)) with h3 | h3
        · subst h3; have := hb.1 x hx; omega
        · exact h3

/-- The insert drain does not depend on the iteration order of the pending-insert set. -/
theorem insertDrain_perm [Inhabited V] (db : DbTables V) (sig : List Nat)
    (ids ids1 : List Nat) (hperm : ids.Perm ids1) (cache : List (CacheRow V))
    (hs : StrictAsc cache) (hw : RowsWidth sig.length cache) (hj : Joinable db sig cache) :
    insertDrain db sig ids cache = insertDrain db sig ids1 cache := by
  by_cases hb : ∀ id ∈ ids, ∃ r ∈ cache, id ≤ r.1
  · have hb1 : ∀ id ∈ ids1, ∃ r ∈ cache, id ≤ r.1 :=
      fun id hid => hb id (hperm.mem_iff.mpr hid)
    obtain ⟨c, hc, hsc, _, _, hmc⟩ := insertDrain_ok db sig ids cache hs hw hj hb
    obtain ⟨c1, hc1, hsc1, _, _, hmc1⟩ := insertDrain_ok db sig ids1 cache hs hw hj hb1
    rw [hc, hc1]
    congr 1
    apply strictAsc_ext hsc hsc1
    intro x
    rw [hmc x, hmc1 x, hperm.mem_iff]
  · push_neg at hb
    obtain ⟨id, hid, hall⟩ := hb
    have hall1 : ∀ r ∈ cache, r.1 < id := fun r hr => hall r hr
    rw [insertDrain_pastTheEnd db sig ids cache hs hw hj id hid hall1,
      insertDrain_pastTheEnd db sig ids1 cache hs hw hj id (hperm.mem_iff.mp hid) hall1]

theorem reconcileInsert_spec [Inhabited V] (db db1 : DbTables V) (sig : List Nat) (q : Qid)
    (c c1 : List (CacheRow V)) (h : reconcileInsert db sig q c = .ok (db1, c1)) :
    (db1 = db ∨ db1 = { db with query_insert := Function.update db.query_insert q (some []) }) ∧
      pending db1.query_insert q = [] ∧
      ((c1 = c ∧ (pending db.query_insert q = [] ∨ c = [])) ∨
        (c ≠ [] ∧ pending db.query_insert q ≠ [] ∧
          insertDrain db sig (pending db.query_insert q) c = .ok c1)) := by
  unfold reconcileInsert at h
  cases hq : db.query_insert q with
  | none =>
    rw [hq] at h
    simp only [Except.ok.injEq, Prod.mk.injEq] at h
    obtain ⟨rfl, rfl⟩ := h
    exact ⟨Or.inl rfl, by simp [pending, hq], Or.inl ⟨rfl, Or.inl (by simp [pending, hq])⟩⟩
  | some l =>
    rw [hq] at h
    dsimp only at h
    cases l with
    | nil =>
      simp only [List.isEmpty_nil, if_true, Except.ok.injEq, Prod.mk.injEq] at h
      obtain ⟨rfl, rfl⟩ := h
      exact ⟨Or.inl rfl, by simp [pending, hq], Or.inl ⟨rfl, Or.inl (by simp [pending, hq])⟩⟩
    | cons a as =>
      simp only [List.isEmpty_cons, Bool.false_eq_true, if_false] at h
      cases c with
      | nil =>
        simp only [List.isEmpty_nil, if_true, Except.ok.injEq, Prod.mk.injEq] at h
        obtain ⟨rfl, rfl⟩ := h
        exact ⟨Or.inr rfl, by simp [pending], Or.inl ⟨rfl, Or.inr rfl⟩⟩
      | cons r rs =>
        simp only [List.isEmpty_cons, Bool.false_eq_true, if_false] at h
        cases hd : insertDrain db sig (a :: as) (r :: rs) with
        | error e => rw [hd] at h; cases h
        | ok c2 =>
          rw [hd] at h
          simp only [Except.ok.injEq, Prod.mk.injEq] at h
          obtain ⟨rfl, rfl⟩ := h
          refine ⟨Or.inr rfl, by simp [pending], Or.inr ⟨by simp, by simp [pending, hq], ?_⟩⟩
          simp only [pending, hq, Option.getD_some]
          exact hd

theorem reconcileInsert_total [Inhabited V] (db : DbTables V) (sig : List Nat) (q : Qid)
    (c : List (CacheRow V))
    (h : c ≠ [] → ∃ c1, insertDrain db sig (pending db.query_insert q) c = .ok c1) :
    ∃ r, reconcileInsert db sig q c = .ok r := by
  unfold reconcileInsert
  cases hq : db.query_insert q with
  | none => exact ⟨_, rfl⟩
  | some l =>
    dsimp only
    cases l with
    | nil => exact ⟨_, rfl⟩
    | cons a as =>
      simp only [List.isEmpty_cons, Bool.false_eq_true, if_false]
      cases c with
      | nil => exact ⟨_, rfl⟩
      | cons r rs =>
        obtain ⟨c1, hc1⟩ := h (by simp)
        simp only [pending, hq, Option.getD_some] at hc1
        simp only [List.isEmpty_cons, Bool.false_eq_true, if_false, hc1]
        exact ⟨_, rfl⟩

theorem reconcileRemove_of_empty (db : DbTables V) (q : Qid) (c : List (CacheRow V))
    (h : pending db.query_remove q = []) : reconcileRemove db q c = .ok (db, c) := by
  unfold reconcileRemove
  cases hq : db.query_remove q with
  | none => rfl
  | some l =>
    simp only [pending, hq, Option.getD_some] at h
    subst h
    rfl

theorem reconcile_nested [Inhabited V] (db : DbTables V) (sig : List Nat) (q : Qid)
    (c : List (CacheRow V)) (h : db.query_stack ≠ 0) : reconcile db sig q c = .ok (db, c) := by
  unfold reconcile
  rw [if_neg h]

theorem reconcile_top [Inhabited V] (db : DbTables V) (sig : List Nat) (q : Qid)
    (c : List (CacheRow V)) (h : db.query_stack = 0) (hr : pending db.query_remove q = []) :
    reconcile db sig q c = reconcileInsert db sig q c := by
  unfold reconcile
  rw [if_pos h]
  cases hi : reconcileInsert db sig q c with
  | error e => rfl
  | ok r =>
    obtain ⟨db1, c1⟩ := r
    dsimp only
    have := reconcileInsert_spec db db1 sig q c c1 hi
    rcases this.1 with h1 | h1
    · subst h1; exact reconcileRemove_of_empty _ q c1 hr
    · subst h1; exact reconcileRemove_of_empty _ q c1 hr

theorem trackInsert_fst_of_not_mem (id : Nat) (qs : List Qid)
    (maps : (Qid → Option (List Nat)) × (Qid → Option (List Nat))) (q : Qid) (hq : q ∉ qs) :
    (trackInsert id qs maps).1 q = maps.1 q := by
  induction qs generalizing maps with
  | nil => rfl
  | cons a as ih =>
    obtain ⟨ins, rem⟩ := maps
    simp only [trackInsert]
    rw [ih _ (fun h => hq (List.mem_cons_of_mem _ h))]
    exact Function.update_noteq (fun h => hq (by rw [h]; exact List.mem_cons_self _ _)) _ _

theorem mem_usetInsert {α : Type} [DecidableEq α] (s : List α) (a x : α) :
    x ∈ usetInsert s a ↔ x ∈ s ∨ x = a := by
  unfold usetInsert
  by_cases h : a ∈ s
  · rw [if_pos h]
    constructor
    · exact Or.inl
    · rintro (h1 | h1)
      · exact h1
      · exact h1 ▸ h
  · rw [if_neg h]
    simp

theorem mem_trackInsert_fst (id : Nat) (qs : List Qid)
    (maps : (Qid → Option (List Nat)) × (Qid → Option (List Nat))) (q : Qid) (i : Nat) :
    i ∈ pending (trackInsert id qs maps).1 q ↔ i ∈ pending maps.1 q ∨ (q ∈ qs ∧ i = id) := by
  induction qs generalizing maps with
  | nil => simp [trackInsert]
  | cons a as ih =>
    obtain ⟨ins, rem⟩ := maps
    simp only [trackInsert]
    rw [ih]
    by_cases hqa : q = a
    · subst hqa
      simp only [pending, Function.update_same, Option.getD_some, mem_usetInsert,
        List.mem_cons, true_or, true_and]
      constructor
      · rintro (h | h)
        · exact h
        · exact Or.inr h.2
      · rintro (h | h)
        · exact Or.inl (Or.inl h)
        · exact Or.inl (Or.inr h)
    · simp only [pending, Function.update_noteq hqa, List.mem_cons, hqa, false_or]

theorem trackInsert_snd_empty (id : Nat) (qs : List Qid)
    (maps : (Qid → Option (List Nat)) × (Qid → Option (List Nat)))
    (h : ∀ q, pending maps.2 q = []) (q : Qid) :
    pending (trackInsert id qs maps).2 q = [] := by
  induction qs generalizing maps with
  | nil => exact h q
  | cons a as ih =>
    obtain ⟨ins, rem⟩ := maps
    simp only [trackInsert]
    apply ih
    intro q'
    by_cases hqa : q' = a
    · subst hqa
      simp only [pending, Function.update_same, Option.getD_some]
      have := h q'
      simp only [pending] at this
      rw [this]
      rfl
    · simp only [pending, Function.update_noteq hqa]
      exact h q'

theorem Set_m_tables (db : DbTables V) (t id : Nat) (v : V) :
    (db.Set t id v).m_tables = Function.update db.m_tables t ((db.m_tables t).set id v) := by
  unfold DbTables.Set queryTrackInsertForId
  dsimp only
  split <;> try split
  all_goals rfl

theorem Set_query_stack (db : DbTables V) (t id : Nat) (v : V) :
    (db.Set t id v).query_stack = db.query_stack := by
  unfold DbTables.Set queryTrackInsertForId
  dsimp only
  split <;> try split
  all_goals rfl

theorem Set_query_to_tables (db : DbTables V) (t id : Nat) (v : V) :
    (db.Set t id v).query_to_tables = db.query_to_tables := by
  unfold DbTables.Set queryTrackInsertForId
  dsimp only
  split <;> try split
  all_goals rfl

theorem Set_query_insert (db : DbTables V) (t id : Nat) (v : V) :
    (db.Set t id v).query_insert =
      (trackInsert id (db.query_to_tables t) (db.query_insert, db.query_remove)).1 := by
  unfold DbTables.Set queryTrackInsertForId
  dsimp only
  split <;> try split
  all_goals rfl

theorem Set_query_remove (db : DbTables V) (t id : Nat) (v : V) :
    (db.Set t id v).query_remove =
      (trackInsert id (db.query_to_tables t) (db.query_insert, db.query_remove)).2 := by
  unfold DbTables.Set queryTrackInsertForId
  dsimp only
  split <;> try split
  all_goals rfl

theorem Set_tablesSorted (db : DbTables V) (hdb : TablesSorted db) (t id : Nat) (v : V) :
    TablesSorted (db.Set t id v) := by
  intro t'
  rw [Set_m_tables]
  by_cases h : t' = t
  · subst h
    rw [Function.update_same]
    exact Table.set_sorted _ (hdb t') id v
  · rw [Function.update_noteq h]
    exact hdb t'

theorem Table.get_set (t : Table V) (ht : StrictAsc t.rows) (id i : Nat) (v : V) :
    (t.set id v).get i = if i = id then some v else t.get i := by
  apply Option.ext
  intro x
  rw [Option.mem_def, Option.mem_def, Table.get_eq_some_iff _ (Table.set_sorted t ht id v),
    Table.set_rows, mem_upsert id v t.rows ht]
  by_cases h : i = id
  · subst h
    simp only [if_true, Option.some.injEq, Prod.mk.injEq, true_and, ne_eq, not_true_eq_false,
      and_false, or_false]
    exact eq_comm
  · simp only [if_neg h, Prod.mk.injEq, h, false_and, ne_eq, not_false_eq_true, and_true,
      false_or]
    exact (Table.get_eq_some_iff t ht i x).symm

theorem joinRow_congr (db db1 : DbTables V) (h : db1.m_tables = db.m_tables) (sig : List Nat)
    (i : Nat) : joinRow db1 sig i = joinRow db sig i := by
  induction sig with
  | nil => rfl
  | cons QR QRT ih => simp only [joinRow, h, ih]

theorem joinable_of_tables_eq (db db1 : DbTables V) (h : db1.m_tables = db.m_tables) (sig : List Nat)
    (c : List (CacheRow V)) (hj : Joinable db sig c) : Joinable db1 sig c := by
  intro r hr
  rw [joinRow_congr db db1 h]
  exact hj r hr

theorem joinRow_Set_of_ne (db : DbTables V) (hdb : TablesSorted db) (t id : Nat) (v : V)
    (sig : List Nat) (i : Nat) (h : i ≠ id ∨ t ∉ sig) :
    joinRow (db.Set t id v) sig i = joinRow db sig i := by
  induction sig with
  | nil => rfl
  | cons QR QRT ih =>
    have h2 : i ≠ id ∨ t ∉ QRT := by
      rcases h with h | h
      · exact Or.inl h
      · exact Or.inr (fun hc => h (List.mem_cons_of_mem _ hc))
    simp only [joinRow, ih h2, Set_m_tables]
    by_cases hQ : QR = t
    · subst hQ
      rw [Function.update_same, Table.get_set _ (hdb QR)]
      rcases h with h | h
      · rw [if_neg h]
      · exact absurd (List.mem_cons_self _ _) h
    · rw [Function.update_noteq hQ]

theorem joinRow_Set_isSome (db : DbTables V) (hdb : TablesSorted db) (t id : Nat) (v : V)
    (sig : List Nat) (i : Nat) (h : (joinRow db sig i).isSome) :
    (joinRow (db.Set t id v) sig i).isSome := by
  rw [joinRow_isSome_iff] at h ⊢
  intro t' ht'
  have := h t' ht'
  rw [Set_m_tables]
  by_cases hQ : t' = t
  · subst hQ
    rw [Function.update_same, Table.get_set _ (hdb t')]
    by_cases hi : i = id
    · simp [hi]
    · rw [if_neg hi]; exact this
  · rw [Function.update_noteq hQ]; exact this

theorem setSlot_same (m : List Nat → Nat → List (CacheRow V)) (sig : List Nat) (i : Nat)
    (c : List (CacheRow V)) : setSlot m sig i c sig i = c := by
  simp [setSlot]

theorem setSlot_other (m : List Nat → Nat → List (CacheRow V)) (sig : List Nat) (i : Nat)
    (c : List (CacheRow V)) (sig1 : List Nat) (i1 : Nat) (h : sig1 ≠ sig ∨ i1 ≠ i) :
    setSlot m sig i c sig1 i1 = m sig1 i1 := by
  unfold setSlot
  by_cases h1 : sig1 = sig
  · subst h1
    rcases h with h | h
    · exact absurd rfl h
    · rw [Function.update_same, Function.update_noteq h]
  · rw [Function.update_noteq h1]

theorem setSlot_cases (P : List (CacheRow V) → Prop)
    (m : List Nat → Nat → List (CacheRow V)) (sig : List Nat) (i : Nat)
    (c : List (CacheRow V)) (sig1 : List Nat) (i1 : Nat)
    (hc : sig1 = sig → i1 = i → P c) (hm : P (m sig1 i1)) : P (setSlot m sig i c sig1 i1) := by
  by_cases h : sig1 = sig ∧ i1 = i
  · obtain ⟨h1, h2⟩ := h
    subst h1 h2
    rw [setSlot_same]
    exact hc rfl rfl
  · rw [setSlot_other]
    · exact hm
    · by_contra hcon
      push_neg at hcon
      exact h hcon

theorem insertDrain_of_ok [Inhabited V] (db : DbTables V) (sig : List Nat)
    (ids : List Nat) (cache cache1 : List (CacheRow V)) (hs : StrictAsc cache)
    (hw : RowsWidth sig.length cache) (hj : Joinable db sig cache)
    (h : insertDrain db sig ids cache = .ok cache1) :
    (∀ id ∈ ids, ∃ r ∈ cache, id ≤ r.1) ∧ StrictAsc cache1 ∧
      RowsWidth sig.length cache1 ∧ Joinable db sig cache1 ∧
      ∀ x, x ∈ cache1 ↔
        (x.1 ∈ ids ∧ joinRow db sig x.1 = some x.2) ∨ (x.1 ∉ ids ∧ x ∈ cache) := by
  have hb : ∀ id ∈ ids, ∃ r ∈ cache, id ≤ r.1 := by
    intro id hid
    by_contra hcon
    have hall : ∀ r ∈ cache, r.1 < id := by
      intro r hr
      by_contra hlt
      exact hcon ⟨r, hr, Nat.le_of_not_lt hlt⟩
    rw [insertDrain_pastTheEnd db sig ids cache hs hw hj id hid hall] at h
    cases h
  obtain ⟨c2, h2, hrest⟩ := insertDrain_ok db sig ids cache hs hw hj hb
  rw [h] at h2
  cases h2
  exact ⟨hb, hrest⟩

theorem reconcile_spec [Inhabited V] (db db2 : DbTables V) (sig : List Nat) (q : Qid)
    (c c2 : List (CacheRow V)) (hr : ∀ q, pending db.query_remove q = [])
    (h : reconcile db sig q c = .ok (db2, c2)) :
    (db2 = db ∨ db2 = { db with query_insert := Function.update db.query_insert q (some []) }) ∧
      (db.query_stack = 0 → pending db2.query_insert q = []) ∧
      ((c2 = c ∧ (db.query_stack ≠ 0 ∨ pending db.query_insert q = [] ∨ c = [])) ∨
        (c ≠ [] ∧ db.query_stack = 0 ∧ pending db.query_insert q ≠ [] ∧
          insertDrain db sig (pending db.query_insert q) c = .ok c2)) := by
  by_cases hs : db.query_stack = 0
  · rw [reconcile_top db sig q c hs (hr q)] at h
    obtain ⟨h1, h2, h3⟩ := reconcileInsert_spec db db2 sig q c c2 h
    refine ⟨h1, fun _ => h2, ?_⟩
    rcases h3 with ⟨h3, h4⟩ | ⟨h3, h4, h5⟩
    · exact Or.inl ⟨h3, Or.inr h4⟩
    · exact Or.inr ⟨h3, hs, h4, h5⟩
  · rw [reconcile_nested db sig q c hs] at h
    simp only [Except.ok.injEq, Prod.mk.injEq] at h
    obtain ⟨rfl, rfl⟩ := h
    exact ⟨Or.inl rfl, fun h0 => absurd h0 hs, Or.inl ⟨rfl, Or.inl hs⟩⟩

theorem Query.init_of_evaluated [Inhabited V] (site : Site) (w : World V)
    (h : w.st.instance_id site ≠ 0) : Query.init site w = w := by
  unfold Query.init
  simp only [h, if_false]

theorem Query.init_of_first [Inhabited V] (site : Site) (w : World V)
    (h : w.st.instance_id site = 0) :
    Query.init site w =
      { st := { s_instances := w.st.s_instances + 1
                instance_id := Function.update w.st.instance_id site w.st.s_instances
                cache_rows := setSlot w.st.cache_rows site.sig w.st.s_instances
                  (fill w.db 0 site.sig (w.st.cache_rows site.sig w.st.s_instances)) }
        db := { w.db with
                query_to_tables :=
                  registerQueryTables (makeQid site.sig) site.sig w.db.query_to_tables } } := by
  unfold Query.init
  simp only [h, if_true, Function.update_same]

theorem fill_nil_props [Inhabited V] (db : DbTables V) (hdb : TablesSorted db)
    (sig : List Nat) :
    StrictAsc (fill db 0 sig []) ∧ RowsWidth sig.length (fill db 0 sig []) ∧
      Joinable db sig (fill db 0 sig []) := by
  cases sig with
  | nil => simp [fill, StrictAsc, RowsWidth, Joinable]
  | cons QR QRT =>
    have hj := fill_isInnerJoin db hdb (QR :: QRT) (by simp)
    refine ⟨hj.1, ?_, ?_⟩
    · intro r hr
      have := (hj.2 r.1 r.2).mp hr
      exact (List.Forall₂.length_eq this).symm
    · intro r hr
      have := (hj.2 r.1 r.2).mp hr
      rw [(joinRow_eq_some_iff db hdb _ r.1 r.2).mpr this]
      rfl

theorem storeOk_init [Inhabited V] : StoreOk ({} : World V) where
  statics := ⟨Nat.zero_lt_one, fun _ => Nat.zero_lt_one, fun _ _ _ => rfl⟩
  tables := fun _ => List.Pairwise.nil
  stack := le_refl _
  remove := fun _ => rfl
  sorted := fun _ _ => List.Pairwise.nil
  width := fun _ _ r hr => by cases hr
  joinable := fun _ _ r hr => by cases hr

theorem storeOk_set [Inhabited V] (w : World V) (hw : StoreOk w) (t id : Nat) (v : V) :
    StoreOk { w with db := w.db.Set t id v } where
  statics := hw.statics
  tables := Set_tablesSorted w.db hw.tables t id v
  stack := by
    show 0 ≤ (w.db.Set t id v).query_stack
    rw [Set_query_stack]; exact hw.stack
  remove := by
    intro q
    show pending (w.db.Set t id v).query_remove q = []
    rw [Set_query_remove]
    exact trackInsert_snd_empty id _ _ hw.remove q
  sorted := hw.sorted
  width := hw.width
  joinable := fun sig i r hr => joinRow_Set_isSome w.db hw.tables t id v sig r.1 (hw.joinable sig i r hr)

theorem storeOk_stack [Inhabited V] (w : World V) (hw : StoreOk w) (k : Int) (hk : 0 ≤ k) :
    StoreOk { w with db := { w.db with query_stack := k } } where
  statics := hw.statics
  tables := hw.tables
  stack := hk
  remove := hw.remove
  sorted := hw.sorted
  width := hw.width
  joinable := fun sig i => by
    refine joinable_of_tables_eq w.db _ ?_ _ _ (hw.joinable sig i)
    rfl

theorem storeOk_Query_init [Inhabited V] (site : Site) (w : World V) (hw : StoreOk w) :
    StoreOk (Query.init site w) := by
  by_cases h : w.st.instance_id site = 0
  · rw [Query.init_of_first site w h]
    have hfill := fill_nil_props w.db hw.tables site.sig
    rw [hw.statics.fresh site.sig w.st.s_instances (le_refl _)]
    refine ⟨⟨?_, ?_, ?_⟩, hw.tables, hw.stack, hw.remove, ?_, ?_, ?_⟩
    · exact Nat.succ_pos _
    · intro s
      show Function.update w.st.instance_id site w.st.s_instances s < w.st.s_instances + 1
      by_cases hs : s = site
      · subst hs; rw [Function.update_same]; exact Nat.lt_succ_self _
      · rw [Function.update_noteq hs]; exact Nat.lt_succ_of_lt (hw.statics.lt s)
    · intro sig i hi
      show setSlot w.st.cache_rows site.sig w.st.s_instances _ sig i = []
      rw [setSlot_other _ _ _ _ _ _ (Or.inr (by
        have : w.st.s_instances + 1 ≤ i := hi
        omega))]
      exact hw.statics.fresh sig i (by
        have : w.st.s_instances + 1 ≤ i := hi
        omega)
    · intro sig i
      exact setSlot_cases StrictAsc _ _ _ _ sig i (fun _ _ => hfill.1) (hw.sorted sig i)
    · intro sig i
      exact setSlot_cases (RowsWidth sig.length) _ _ _ _ sig i
        (fun h1 _ => by rw [h1]; exact hfill.2.1) (hw.width sig i)
    · intro sig i
      exact setSlot_cases (Joinable _ sig) _ _ _ _ sig i
        (fun h1 _ => by
          rw [h1]
          refine joinable_of_tables_eq w.db _ ?_ _ _ hfill.2.2
          rfl)
        (by
          refine joinable_of_tables_eq w.db _ ?_ _ _ (hw.joinable sig i)
          rfl)
  · rw [Query.init_of_evaluated site w h]
    exact hw

theorem Query.prepare_eq [Inhabited V] (site : Site) (w w1 : World V)
    (h : Query.prepare site w = .ok w1) :
    ∃ db2 c2,
      reconcile (Query.init site w).db site.sig (makeQid site.sig)
        ((Query.init site w).cacheOf site) = .ok (db2, c2) ∧
      w1 = { st := { (Query.init site w).st with
                     cache_rows := setSlot (Query.init site w).st.cache_rows site.sig
                       ((Query.init site w).st.instance_id site) c2 }
             db := db2 } := by
  unfold Query.prepare at h
  dsimp only at h
  cases hr : reconcile (Query.init site w).db site.sig (makeQid site.sig)
      ((Query.init site w).cacheOf site) with
  | error e => rw [hr] at h; cases h
  | ok r =>
    obtain ⟨db2, c2⟩ := r
    rw [hr] at h
    simp only [Except.ok.injEq] at h
    exact ⟨db2, c2, rfl, h.symm⟩

theorem storeOk_reconciled [Inhabited V] (site : Site) (w0 : World V) (hw : StoreOk w0)
    (db2 : DbTables V) (c2 : List (CacheRow V))
    (hr : reconcile w0.db site.sig (makeQid site.sig) (w0.cacheOf site) = .ok (db2, c2)) :
    StoreOk { st := { w0.st with
                      cache_rows := setSlot w0.st.cache_rows site.sig
                        (w0.st.instance_id site) c2 }
              db := db2 } := by
  obtain ⟨hdb, _, hc⟩ := reconcile_spec w0.db db2 site.sig _ _ c2 hw.remove hr
  have htab : db2.m_tables = w0.db.m_tables := by
    rcases hdb with h | h <;> rw [h]
  have hstack : db2.query_stack = w0.db.query_stack := by
    rcases hdb with h | h <;> rw [h]
  have hrem : db2.query_remove = w0.db.query_remove := by
    rcases hdb with h | h <;> rw [h]
  have hc2 : StrictAsc c2 ∧ RowsWidth site.sig.length c2 ∧ Joinable w0.db site.sig c2 := by
    rcases hc with ⟨h1, _⟩ | ⟨_, _, _, h4⟩
    · rw [h1]
      exact ⟨hw.sorted _ _, hw.width _ _, hw.joinable _ _⟩
    · have := insertDrain_of_ok w0.db site.sig _ _ c2 (hw.sorted _ _) (hw.width _ _)
        (hw.joinable _ _) h4
      exact ⟨this.2.1, this.2.2.1, this.2.2.2.1⟩
  refine ⟨⟨hw.statics.pos, hw.statics.lt, ?_⟩, ?_, ?_, ?_, ?_, ?_, ?_⟩
  · intro sig i hi
    have hi2 : w0.st.s_instances ≤ i := hi
    show setSlot w0.st.cache_rows site.sig (w0.st.instance_id site) c2 sig i = []
    rw [setSlot_other _ _ _ _ _ _ (Or.inr (by
      have := hw.statics.lt site
      omega))]
    exact hw.statics.fresh sig i hi2
  · intro t
    show StrictAsc (db2.m_tables t).rows
    rw [htab]; exact hw.tables t
  · show 0 ≤ db2.query_stack
    rw [hstack]; exact hw.stack
  · intro q
    show pending db2.query_remove q = []
    rw [hrem]; exact hw.remove q
  · intro sig i
    exact setSlot_cases StrictAsc _ _ _ _ sig i (fun _ _ => hc2.1) (hw.sorted sig i)
  · intro sig i
    exact setSlot_cases (RowsWidth sig.length) _ _ _ _ sig i
      (fun h1 _ => by rw [h1]; exact hc2.2.1) (hw.width sig i)
  · intro sig i
    exact setSlot_cases (Joinable _ sig) _ _ _ _ sig i
      (fun h1 _ => by
        rw [h1]
        exact joinable_of_tables_eq w0.db db2 htab _ _ hc2.2.2)
      (joinable_of_tables_eq w0.db db2 htab _ _ (hw.joinable sig i))

theorem storeOk_prepare [Inhabited V] (site : Site) (w w1 : World V) (hw : StoreOk w)
    (h : Query.prepare site w = .ok w1) : StoreOk w1 := by
  obtain ⟨db2, c2, hr, rfl⟩ := Query.prepare_eq site w w1 h
  exact storeOk_reconciled site _ (storeOk_Query_init site w hw) db2 c2 hr

theorem Reachable.storeOk [Inhabited V] {allowed : Site → Prop} {w : World V}
    (h : Reachable allowed w) : StoreOk w := by
  induction h with
  | init => exact storeOk_init
  | set w t id v _ ih => exact storeOk_set w ih t id v
  | prepare w w1 site _ _ hp ih => exact storeOk_prepare site w w1 ih hp
  | enter w _ ih => exact storeOk_stack w ih _ (by have := ih.stack; omega)
  | leave w _ hpos ih => exact storeOk_stack w ih _ (by omega)

theorem Query.init_db_frame [Inhabited V] (site : Site) (w : World V) :
    (Query.init site w).db.m_tables = w.db.m_tables ∧
      (Query.init site w).db.query_stack = w.db.query_stack ∧
      (Query.init site w).db.query_insert = w.db.query_insert ∧
      (Query.init site w).db.query_remove = w.db.query_remove := by
  by_cases h : w.st.instance_id site = 0
  · rw [Query.init_of_first site w h]
    exact ⟨rfl, rfl, rfl, rfl⟩
  · rw [Query.init_of_evaluated site w h]
    exact ⟨rfl, rfl, rfl, rfl⟩

theorem Query.prepare_db_frame [Inhabited V] (site : Site) (w w1 : World V) (hw : StoreOk w)
    (h : Query.prepare site w = .ok w1) :
    w1.db.m_tables = w.db.m_tables ∧ w1.db.query_stack = w.db.query_stack ∧
      w1.db.query_remove = w.db.query_remove ∧
      (∀ q, q ≠ makeQid site.sig → w1.db.query_insert q = w.db.query_insert q) := by
  obtain ⟨db2, c2, hr, rfl⟩ := Query.prepare_eq site w w1 h
  obtain ⟨hdb, _, _⟩ := reconcile_spec _ db2 site.sig _ _ c2
    (storeOk_Query_init site w hw).remove hr
  obtain ⟨h1, h2, h3, h4⟩ := Query.init_db_frame site w
  rcases hdb with hd | hd
  · subst hd
    exact ⟨h1, h2, h4, fun q _ => by rw [h3]⟩
  · subst hd
    refine ⟨h1, h2, h4, fun q hq => ?_⟩
    show Function.update (Query.init site w).db.query_insert (makeQid site.sig) (some []) q = _
    rw [Function.update_noteq hq, h3]

theorem iterate_preserves [Inhabited V] (P : World V → Prop)
    (f : CacheRow V → World V → Except Fault (World V × Bool))
    (rowsOf : World V → List (CacheRow V))
    (hf : ∀ row w w1 b, P w → f row w = .ok (w1, b) → P w1) :
    ∀ n i w w1 vis, P w → iterate f rowsOf n i w = .ok (w1, vis) → P w1 := by
  intro n
  induction n with
  | zero =>
    intro i w w1 vis hP h
    simp only [iterate, Except.ok.injEq, Prod.mk.injEq] at h
    rw [← h.1]; exact hP
  | succ n ih =>
    intro i w w1 vis hP h
    simp only [iterate] at h
    cases hrow : (rowsOf w)[i]? with
    | none => rw [hrow] at h; cases h
    | some row =>
      rw [hrow] at h
      dsimp only at h
      cases hfr : f row w with
      | error e => rw [hfr] at h; cases h
      | ok r =>
        obtain ⟨w2, b⟩ := r
        rw [hfr] at h
        dsimp only at h
        have hP2 := hf row w w2 b hP hfr
        cases b with
        | false =>
          simp only [Bool.false_eq_true, if_false, Except.ok.injEq, Prod.mk.injEq] at h
          rw [← h.1]; exact hP2
        | true =>
          simp only [if_true] at h
          cases hit : iterate f rowsOf n (i + 1) w2 with
          | error e => rw [hit] at h; cases h
          | ok r2 =>
            obtain ⟨w3, vis3⟩ := r2
            rw [hit] at h
            simp only [Except.ok.injEq, Prod.mk.injEq] at h
            rw [← h.1]
            exact ih (i + 1) w2 w3 vis3 hP2 hit

theorem Query_reachable [Inhabited V] (allowed : Site → Prop) (site : Site)
    (hsite : allowed site)
    (f : CacheRow V → World V → Except Fault (World V × Bool))
    (hf : ∀ row w w1 b, Reachable allowed w → f row w = .ok (w1, b) →
      Reachable allowed w1 ∧ w1.db.query_stack = w.db.query_stack)
    (w w1 : World V) (vis : List (CacheRow V)) (hw : Reachable allowed w)
    (h : Query site f w = .ok (w1, vis)) :
    Reachable allowed w1 ∧ w1.db.query_stack = w.db.query_stack := by
  unfold Query at h
  cases hp : Query.prepare site w with
  | error e => rw [hp] at h; cases h
  | ok wp =>
    rw [hp] at h
    dsimp only at h
    have hrp : Reachable allowed wp := Reachable.prepare w wp site hw hsite hp
    have hsp := (Query.prepare_db_frame site w wp hw.storeOk hp).2.1
    cases hit : iterate f (fun w => w.cacheOf site)
        (World.cacheOf { wp with db := { wp.db with query_stack := wp.db.query_stack + 1 } }
          site).length 0
        { wp with db := { wp.db with query_stack := wp.db.query_stack + 1 } } with
    | error e => rw [hit] at h; cases h
    | ok r =>
      obtain ⟨w3, vis3⟩ := r
      rw [hit] at h
      simp only [Except.ok.injEq, Prod.mk.injEq] at h
      have := iterate_preserves
        (fun x => Reachable allowed x ∧ x.db.query_stack = wp.db.query_stack + 1) f _
        (fun row x x1 b hx hfx => by
          obtain ⟨h1, h2⟩ := hf row x x1 b hx.1 hfx
          exact ⟨h1, by rw [h2, hx.2]⟩)
        _ 0 _ w3 vis3 ⟨Reachable.enter wp hrp, rfl⟩ hit
      obtain ⟨hr3, hs3⟩ := this
      have hnn := hrp.storeOk.stack
      rw [← h.1]
      refine ⟨Reachable.leave w3 hr3 (by omega), ?_⟩
      show w3.db.query_stack - 1 = w.db.query_stack
      omega

theorem QueryOnce_reachable [Inhabited V] (allowed : Site → Prop) (sig : List Nat)
    (f : CacheRow V → World V → Except Fault (World V × Bool))
    (hf : ∀ row w w1 b, Reachable allowed w → f row w = .ok (w1, b) →
      Reachable allowed w1 ∧ w1.db.query_stack = w.db.query_stack)
    (w w1 : World V) (vis : List (CacheRow V)) (hw : Reachable allowed w)
    (h : QueryOnce sig f w = .ok (w1, vis)) :
    Reachable allowed w1 ∧ w1.db.query_stack = w.db.query_stack := by
  unfold QueryOnce at h
  exact iterate_preserves
    (fun x => Reachable allowed x ∧ x.db.query_stack = w.db.query_stack) f _
    (fun row x x1 b hx hfx => by
      obtain ⟨h1, h2⟩ := hf row x x1 b hx.1 hfx
      exact ⟨h1, by rw [h2, hx.2]⟩)
    _ 0 w w1 vis ⟨hw, rfl⟩ h

theorem Prog.exec_reachable [Inhabited V] (allowed : Site → Prop) (p : Prog V) :
    ∀ (w w1 : World V) (b : Bool), p.SitesIn allowed → Reachable allowed w →
      p.exec w = .ok (w1, b) →
      Reachable allowed w1 ∧ w1.db.query_stack = w.db.query_stack := by
  induction p with
  | ret b0 =>
    intro w w1 b _ hw h
    simp only [Prog.exec, Except.ok.injEq, Prod.mk.injEq] at h
    rw [← h.1]; exact ⟨hw, rfl⟩
  | set t id v k ih =>
    intro w w1 b hp hw h
    simp only [Prog.exec] at h
    obtain ⟨h1, h2⟩ := ih _ w1 b hp (Reachable.set w t id v hw) h
    refine ⟨h1, ?_⟩
    rw [h2]
    exact Set_query_stack w.db t id v
  | query site fn k ihfn ihk =>
    intro w w1 b hp hw h
    simp only [Prog.exec] at h
    cases hq : Query site (fun row w1 => (fn row).exec w1) w with
    | error e => rw [hq] at h; cases h
    | ok r =>
      obtain ⟨w2, vis⟩ := r
      rw [hq] at h
      dsimp only at h
      obtain ⟨h1, h2⟩ := Query_reachable allowed site hp.1 _
        (fun row x x1 b1 => ihfn row x x1 b1 (hp.2.1 row)) w w2 vis hw hq
      obtain ⟨h3, h4⟩ := ihk w2 w1 b hp.2.2 h1 h
      exact ⟨h3, by rw [h4, h2]⟩
  | queryOnce sig fn k ihfn ihk =>
    intro w w1 b hp hw h
    simp only [Prog.exec] at h
    cases hq : QueryOnce sig (fun row w1 => (fn row).exec w1) w with
    | error e => rw [hq] at h; cases h
    | ok r =>
      obtain ⟨w2, vis⟩ := r
      rw [hq] at h
      dsimp only at h
      obtain ⟨h1, h2⟩ := QueryOnce_reachable allowed sig _
        (fun row x x1 b1 => ihfn row x x1 b1 (hp.1 row)) w w2 vis hw hq
      obtain ⟨h3, h4⟩ := ihk w2 w1 b hp.2 h1 h
      exact ⟨h3, by rw [h4, h2]⟩

theorem iterate_pure [Inhabited V] (p : CacheRow V → Bool)
    (rowsOf : World V → List (CacheRow V)) (w : World V) :
    ∀ n i, i + n ≤ (rowsOf w).length →
      iterate (pureFn p) rowsOf n i w = .ok (w, visitedBy p (((rowsOf w).drop i).take n)) := by
  intro n
  induction n with
  | zero => intro i _; simp [iterate, visitedBy]
  | succ n ih =>
    intro i hi
    have hlt : i < (rowsOf w).length := by omega
    simp only [iterate, List.getElem?_eq_getElem hlt, pureFn]
    rw [List.drop_eq_getElem_cons hlt, List.take_succ_cons]
    simp only [visitedBy]
    cases hp : p (rowsOf w)[i] with
    | false => simp
    | true =>
      have := ih (i + 1) (by omega)
      simp only [pureFn] at this
      simp [this]

theorem Query_pure [Inhabited V] (site : Site) (p : CacheRow V → Bool) (w w1 : World V)
    (h : Query.prepare site w = .ok w1) :
    Query site (pureFn p) w = .ok (w1, visitedBy p (w1.cacheOf site)) := by
  unfold Query
  rw [h]
  dsimp only
  rw [iterate_pure p _ _ _ 0 (by simp)]
  simp only [List.drop_zero, List.take_length, Except.ok.injEq, Prod.mk.injEq]
  constructor
  · show ({ st := w1.st, db := { w1.db with query_stack := w1.db.query_stack + 1 - 1 } } :
      World V) = w1
    rw [Int.add_sub_cancel]
  · rfl

theorem QueryOnce_pure [Inhabited V] (sig : List Nat) (p : CacheRow V → Bool) (w : World V) :
    QueryOnce sig (pureFn p) w = .ok (w, visitedBy p (fill w.db 0 sig [])) := by
  unfold QueryOnce
  dsimp only
  rw [iterate_pure p _ _ _ 0 (by simp)]
  simp

theorem visitedBy_all (p : CacheRow V → Bool) (rows : List (CacheRow V))
    (h : ∀ r ∈ rows, p r = true) : visitedBy p rows = rows := by
  induction rows with
  | nil => rfl
  | cons r rs ih =>
    simp only [visitedBy, h r (List.mem_cons_self _ _), if_true]
    rw [ih (fun x hx => h x (List.mem_cons_of_mem _ hx))]

theorem visitedBy_stop (p : CacheRow V → Bool) (rows : List (CacheRow V)) (k : Nat)
    (hk : k < rows.length) (hfalse : p (rows.get ⟨k, hk⟩) = false)
    (htrue : ∀ j (hj : j < rows.length), j < k → p (rows.get ⟨j, hj⟩) = true) :
    visitedBy p rows = rows.take (k + 1) := by
  induction rows generalizing k with
  | nil => simp at hk
  | cons r rs ih =>
    cases k with
    | zero =>
      simp only [List.get_eq_getElem, List.getElem_cons_zero] at hfalse
      simp [visitedBy, hfalse]
    | succ k =>
      have h0 : p r = true := by
        have := htrue 0 (by simp) (by omega)
        simpa using this
      simp only [visitedBy, h0, if_true, List.take_succ_cons]
      congr 1
      apply ih k (by simpa using hk)
      · simpa using hfalse
      · intro j hj hjk
        have := htrue (j + 1) (by simp; omega) (by omega)
        simpa using this

theorem reconcileInsert_of_empty [Inhabited V] (db : DbTables V) (sig : List Nat) (q : Qid)
    (c : List (CacheRow V)) (h : pending db.query_insert q = []) :
    reconcileInsert db sig q c = .ok (db, c) := by
  unfold reconcileInsert
  cases hq : db.query_insert q with
  | none => rfl
  | some l =>
    simp only [pending, hq, Option.getD_some] at h
    subst h
    rfl

theorem setSlot_self (m : List Nat → Nat → List (CacheRow V)) (sig : List Nat) (i : Nat) :
    setSlot m sig i (m sig i) = m := by
  unfold setSlot
  rw [Function.update_eq_self, Function.update_eq_self]

theorem setSlot_setSlot (m : List Nat → Nat → List (CacheRow V)) (sig : List Nat) (i : Nat)
    (c c1 : List (CacheRow V)) : setSlot (setSlot m sig i c) sig i c1 = setSlot m sig i c1 := by
  unfold setSlot
  simp

theorem Query.prepare_first [Inhabited V] (site : Site) (w : World V) (hw : StoreOk w)
    (hfirst : w.st.instance_id site = 0)
    (hpend : w.db.query_stack = 0 → pending w.db.query_insert (makeQid site.sig) = []) :
    ∃ w1, Query.prepare site w = .ok w1 ∧ w1.cacheOf site = fill w.db 0 site.sig [] ∧
      w1.db.m_tables = w.db.m_tables ∧ w1.st.instance_id site = w.st.s_instances := by
  have hrec : reconcile (Query.init site w).db site.sig (makeQid site.sig)
      ((Query.init site w).cacheOf site) =
      .ok ((Query.init site w).db, (Query.init site w).cacheOf site) := by
    by_cases hs : w.db.query_stack = 0
    · rw [reconcile_top _ _ _ _ (by rw [(Query.init_db_frame site w).2.1]; exact hs)
        ((storeOk_Query_init site w hw).remove _)]
      apply reconcileInsert_of_empty
      rw [(Query.init_db_frame site w).2.2.1]
      exact hpend hs
    · exact reconcile_nested _ _ _ _ (by rw [(Query.init_db_frame site w).2.1]; exact hs)
  refine ⟨Query.init site w, ?_, ?_, ?_, ?_⟩
  · unfold Query.prepare
    dsimp only
    rw [hrec]
    dsimp only [World.cacheOf]
    rw [setSlot_self]
  · dsimp only [World.cacheOf]
    rw [Query.init_of_first site w hfirst]
    dsimp only
    rw [Function.update_same, setSlot_same, hw.statics.fresh _ _ (le_refl _)]
  · exact (Query.init_db_frame site w).1
  · rw [Query.init_of_first site w hfirst]
    dsimp only
    rw [Function.update_same]

theorem setAll_world [Inhabited V] (writes : List (Nat × Nat × V)) (db : DbTables V)
    (st : Statics V) (allowed : Site → Prop) (h : Reachable allowed { st := st, db := db })
    (hq : ∀ t, db.query_to_tables t = []) :
    Reachable allowed { st := st, db := setAll writes db } ∧
      (setAll writes db).query_insert = db.query_insert ∧
      (setAll writes db).query_stack = db.query_stack := by
  induction writes generalizing db with
  | nil => exact ⟨h, rfl, rfl⟩
  | cons wr wrs ih =>
    have h1 := Reachable.set _ wr.1 wr.2.1 wr.2.2 h
    have h2 : ∀ t, (db.Set wr.1 wr.2.1 wr.2.2).query_to_tables t = [] := by
      intro t; rw [Set_query_to_tables]; exact hq t
    obtain ⟨h3, h4, h5⟩ := ih (db.Set wr.1 wr.2.1 wr.2.2) h1 h2
    refine ⟨h3, ?_, ?_⟩
    · show (setAll wrs (db.Set wr.1 wr.2.1 wr.2.2)).query_insert = _
      rw [h4, Set_query_insert, hq]
      rfl
    · show (setAll wrs (db.Set wr.1 wr.2.1 wr.2.2)).query_stack = _
      rw [h5, Set_query_stack]

theorem StFrame.refl (st : Statics V) : StFrame st st :=
  ⟨le_refl _, fun _ _ => rfl, fun _ _ _ => rfl⟩

theorem StFrame.trans {st st1 st2 : Statics V} (h1 : StFrame st st1) (h2 : StFrame st1 st2) :
    StFrame st st2 where
  instances := le_trans h1.instances h2.instances
  ids := fun s hs => by
    have := h1.ids s hs
    rw [h2.ids s (by rw [this]; exact hs), this]
  caches := fun sig i hi => by
    rw [h2.caches sig i (lt_of_lt_of_le hi h1.instances), h1.caches sig i hi]

theorem StFrame.cacheOf {w w1 : World V} (h : StFrame w.st w1.st) (hw : StaticsOk w.st)
    (site : Site) (hs : w.st.instance_id site ≠ 0) : w1.cacheOf site = w.cacheOf site := by
  unfold World.cacheOf
  rw [h.ids site hs, h.caches _ _ (hw.lt site)]

theorem Query.prepare_evaluated [Inhabited V] (site : Site) (w wp : World V) (hw : StoreOk w)
    (h : Query.prepare site w = .ok wp) : wp.st.instance_id site ≠ 0 := by
  obtain ⟨db2, c2, _, rfl⟩ := Query.prepare_eq site w wp h
  show (Query.init site w).st.instance_id site ≠ 0
  by_cases h0 : w.st.instance_id site = 0
  · rw [Query.init_of_first site w h0]
    dsimp only
    rw [Function.update_same]
    exact Nat.pos_iff_ne_zero.mp hw.statics.pos
  · rw [Query.init_of_evaluated site w h0]
    exact h0

theorem Query.prepare_nested [Inhabited V] (site : Site) (w : World V)
    (hstack : 0 < w.db.query_stack) :
    ∃ wp, Query.prepare site w = .ok wp ∧ Frame w wp := by
  have hne : w.db.query_stack ≠ 0 := by omega
  by_cases h0 : w.st.instance_id site = 0
  · refine ⟨Query.init site w, ?_, ?_⟩
    · unfold Query.prepare
      dsimp only
      rw [reconcile_nested _ _ _ _ (by rw [(Query.init_db_frame site w).2.1]; exact hne)]
      dsimp only [World.cacheOf]
      rw [setSlot_self]
    · refine ⟨(Query.init_db_frame site w).2.1, ?_⟩
      rw [Query.init_of_first site w h0]
      refine ⟨Nat.le_succ _, ?_, ?_⟩
      · intro s hs
        have : s ≠ site := fun hc => hs (hc ▸ h0)
        exact Function.update_noteq this _ _
      · intro sig i hi
        exact setSlot_other _ _ _ _ _ _ (Or.inr (Nat.ne_of_lt hi))
  · refine ⟨w, ?_, rfl, StFrame.refl _⟩
    unfold Query.prepare
    dsimp only
    rw [Query.init_of_evaluated site w h0, reconcile_nested _ _ _ _ hne]
    dsimp only [World.cacheOf]
    rw [setSlot_self]

theorem iterate_total [Inhabited V] (P : World V → Prop)
    (f : CacheRow V → World V → Except Fault (World V × Bool)) (pr : CacheRow V → Bool)
    (rowsOf : World V → List (CacheRow V)) (rows : List (CacheRow V))
    (hrows : ∀ w, P w → rowsOf w = rows)
    (hf : ∀ row w, P w → ∃ w1, f row w = .ok (w1, pr row) ∧ P w1) :
    ∀ n i w, P w → i + n ≤ rows.length →
      ∃ w1, iterate f rowsOf n i w = .ok (w1, visitedBy pr ((rows.drop i).take n)) ∧ P w1 := by
  intro n
  induction n with
  | zero =>
    intro i w hP _
    exact ⟨w, by simp [iterate, visitedBy], hP⟩
  | succ n ih =>
    intro i w hP hi
    have hlt : i < rows.length := by omega
    obtain ⟨w1, hf1, hP1⟩ := hf rows[i] w hP
    simp only [iterate, hrows w hP, List.getElem?_eq_getElem hlt, hf1]
    rw [List.drop_eq_getElem_cons hlt, List.take_succ_cons]
    simp only [visitedBy]
    cases hp : pr rows[i] with
    | false => exact ⟨w1, by simp, hP1⟩
    | true =>
      obtain ⟨w2, h2, hP2⟩ := ih (i + 1) w1 hP1 (by omega)
      exact ⟨w2, by simp [h2], hP2⟩

theorem Query_nested [Inhabited V] (allowed : Site → Prop) (site : Site) (hsite : allowed site)
    (f : CacheRow V → World V → Except Fault (World V × Bool)) (pr : CacheRow V → Bool)
    (hf : ∀ row x, Reachable allowed x → 0 < x.db.query_stack →
      ∃ x1, f row x = .ok (x1, pr row) ∧ Reachable allowed x1 ∧ Frame x x1)
    (w wp : World V) (hw : Reachable allowed w) (hp : Query.prepare site w = .ok wp) :
    ∃ w4, Query site f w = .ok (w4, visitedBy pr (wp.cacheOf site)) ∧
      Reachable allowed w4 ∧ Frame wp w4 := by
  have hrp : Reachable allowed wp := Reachable.prepare w wp site hw hsite hp
  have hev := Query.prepare_evaluated site w wp hw.storeOk hp
  have hnn := hrp.storeOk.stack
  obtain ⟨w3, h3, hr3, hs3, hf3⟩ := iterate_total
    (fun x => Reachable allowed x ∧ x.db.query_stack = wp.db.query_stack + 1 ∧
      StFrame wp.st x.st)
    f pr (fun x => x.cacheOf site) (wp.cacheOf site)
    (fun x hx => StFrame.cacheOf (w := wp) hx.2.2 hrp.storeOk.statics site hev)
    (fun row x hx => by
      obtain ⟨x1, h1, h2, h3, h4⟩ := hf row x hx.1 (by rw [hx.2.1]; omega)
      exact ⟨x1, h1, h2, by rw [h3, hx.2.1], StFrame.trans hx.2.2 h4⟩)
    (wp.cacheOf site).length 0
    { wp with db := { wp.db with query_stack := wp.db.query_stack + 1 } }
    ⟨Reachable.enter wp hrp, rfl, StFrame.refl _⟩ (by simp)
  refine ⟨{ w3 with db := { w3.db with query_stack := w3.db.query_stack - 1 } }, ?_,
    Reachable.leave w3 hr3 (by omega), ?_, hf3⟩
  · unfold Query
    rw [hp]
    dsimp only
    have hlen : (World.cacheOf
        { wp with db := { wp.db with query_stack := wp.db.query_stack + 1 } } site).length =
        (wp.cacheOf site).length := rfl
    rw [hlen, h3]
    simp
  · show w3.db.query_stack - 1 = wp.db.query_stack
    omega

theorem QueryOnce_nested [Inhabited V] (allowed : Site → Prop) (sig : List Nat)
    (f : CacheRow V → World V → Except Fault (World V × Bool)) (pr : CacheRow V → Bool)
    (hf : ∀ row x, Reachable allowed x → 0 < x.db.query_stack →
      ∃ x1, f row x = .ok (x1, pr row) ∧ Reachable allowed x1 ∧ Frame x x1)
    (w : World V) (hw : Reachable allowed w) (hstack : 0 < w.db.query_stack) :
    ∃ w1, QueryOnce sig f w = .ok (w1, visitedBy pr (fill w.db 0 sig [])) ∧
      Reachable allowed w1 ∧ Frame w w1 := by
  obtain ⟨w3, h3, hr3, hs3, hf3⟩ := iterate_total
    (fun x => Reachable allowed x ∧ x.db.query_stack = w.db.query_stack ∧ StFrame w.st x.st)
    f pr (fun _ => fill w.db 0 sig []) (fill w.db 0 sig [])
    (fun _ _ => rfl)
    (fun row x hx => by
      obtain ⟨x1, h1, h2, h3, h4⟩ := hf row x hx.1 (by rw [hx.2.1]; exact hstack)
      exact ⟨x1, h1, h2, by rw [h3, hx.2.1], StFrame.trans hx.2.2 h4⟩)
    (fill w.db 0 sig []).length 0 w ⟨hw, rfl, StFrame.refl _⟩ (by simp)
  refine ⟨w3, ?_, hr3, hs3, hf3⟩
  unfold QueryOnce
  dsimp only
  rw [h3]
  simp

theorem Prog.exec_nested [Inhabited V] (allowed : Site → Prop) (p : Prog V) :
    ∀ (w : World V), p.SitesIn allowed → Reachable allowed w → 0 < w.db.query_stack →
      ∃ w1, p.exec w = .ok (w1, p.result) ∧ Reachable allowed w1 ∧ Frame w w1 := by
  induction p with
  | ret b0 =>
    intro w _ hw _
    exact ⟨w, rfl, hw, rfl, StFrame.refl _⟩
  | set t id v k ih =>
    intro w hp hw hstack
    have hs : ({ w with db := w.db.Set t id v } : World V).db.query_stack = w.db.query_stack :=
      Set_query_stack w.db t id v
    obtain ⟨w1, h1, h2, h3, h4⟩ := ih _ hp (Reachable.set w t id v hw) (by rw [hs]; exact hstack)
    exact ⟨w1, by simp only [Prog.exec, Prog.result]; exact h1, h2, by rw [h3, hs], h4⟩
  | query site fn k ihfn ihk =>
    intro w hp hw hstack
    obtain ⟨wp, hwp, hfp1, hfp2⟩ := Query.prepare_nested site w hstack
    obtain ⟨w4, h4, hr4, hs4, hf4⟩ := Query_nested allowed site hp.1
      (fun row x => (fn row).exec x) (fun row => (fn row).result)
      (fun row x hx hxs => ihfn row x (hp.2.1 row) hx hxs) w wp hw hwp
    obtain ⟨w1, h1, h2, h3, h5⟩ := ihk w4 hp.2.2 hr4 (by rw [hs4, hfp1]; exact hstack)
    refine ⟨w1, ?_, h2, by rw [h3, hs4, hfp1], StFrame.trans (StFrame.trans hfp2 hf4) h5⟩
    simp only [Prog.exec, Prog.result, h4]
    exact h1
  | queryOnce sig fn k ihfn ihk =>
    intro w hp hw hstack
    obtain ⟨w4, h4, hr4, hs4, hf4⟩ := QueryOnce_nested allowed sig
      (fun row x => (fn row).exec x) (fun row => (fn row).result)
      (fun row x hx hxs => ihfn row x (hp.1 row) hx hxs) w hw hstack
    obtain ⟨w1, h1, h2, h3, h5⟩ := ihk w4 hp.2 hr4 (by rw [hs4]; exact hstack)
    refine ⟨w1, ?_, h2, by rw [h3, hs4], StFrame.trans hf4 h5⟩
    simp only [Prog.exec, Prog.result, h4]
    exact h1

theorem reconcileInsert_cases [Inhabited V] (db db1 : DbTables V) (sig : List Nat) (q : Qid)
    (c c1 : List (CacheRow V)) (h : reconcileInsert db sig q c = .ok (db1, c1)) :
    (db1 = db ∧ c1 = c ∧ pending db.query_insert q = []) ∨
      (db1 = { db with query_insert := Function.update db.query_insert q (some []) } ∧
        pending db.query_insert q ≠ [] ∧
        ((c = [] ∧ c1 = []) ∨
          (c ≠ [] ∧ insertDrain db sig (pending db.query_insert q) c = .ok c1))) := by
  unfold reconcileInsert at h
  cases hq : db.query_insert q with
  | none =>
    rw [hq] at h
    simp only [Except.ok.injEq, Prod.mk.injEq] at h
    obtain ⟨rfl, rfl⟩ := h
    exact Or.inl ⟨rfl, rfl, by simp [pending, hq]⟩
  | some l =>
    rw [hq] at h
    dsimp only at h
    cases l with
    | nil =>
      simp only [List.isEmpty_nil, if_true, Except.ok.injEq, Prod.mk.injEq] at h
      obtain ⟨rfl, rfl⟩ := h
      exact Or.inl ⟨rfl, rfl, by simp [pending, hq]⟩
    | cons a as =>
      simp only [List.isEmpty_cons, Bool.false_eq_true, if_false] at h
      right
      cases c with
      | nil =>
        simp only [List.isEmpty_nil, if_true, Except.ok.injEq, Prod.mk.injEq] at h
        obtain ⟨rfl, rfl⟩ := h
        exact ⟨rfl, by simp [pending, hq], Or.inl ⟨rfl, rfl⟩⟩
      | cons r rs =>
        simp only [List.isEmpty_cons, Bool.false_eq_true, if_false] at h
        cases hd : insertDrain db sig (a :: as) (r :: rs) with
        | error e => rw [hd] at h; cases h
        | ok c2 =>
          rw [hd] at h
          simp only [Except.ok.injEq, Prod.mk.injEq] at h
          obtain ⟨rfl, rfl⟩ := h
          refine ⟨rfl, by simp [pending, hq], Or.inr ⟨by simp, ?_⟩⟩
          simp only [pending, hq, Option.getD_some]
          exact hd

theorem reconcile_cases [Inhabited V] (db db2 : DbTables V) (sig : List Nat) (q : Qid)
    (c c2 : List (CacheRow V)) (hr : ∀ q, pending db.query_remove q = [])
    (h : reconcile db sig q c = .ok (db2, c2)) :
    (db2 = db ∧ c2 = c ∧ (db.query_stack ≠ 0 ∨ pending db.query_insert q = [])) ∨
      (db2 = { db with query_insert := Function.update db.query_insert q (some []) } ∧
        db.query_stack = 0 ∧ pending db.query_insert q ≠ [] ∧
        ((c = [] ∧ c2 = []) ∨
          (c ≠ [] ∧ insertDrain db sig (pending db.query_insert q) c = .ok c2))) := by
  by_cases hs : db.query_stack = 0
  · rw [reconcile_top db sig q c hs (hr q)] at h
    rcases reconcileInsert_cases db db2 sig q c c2 h with ⟨h1, h2, h3⟩ | ⟨h1, h2, h3⟩
    · exact Or.inl ⟨h1, h2, Or.inr h3⟩
    · exact Or.inr ⟨h1, hs, h2, h3⟩
  · rw [reconcile_nested db sig q c hs] at h
    simp only [Except.ok.injEq, Prod.mk.injEq] at h
    obtain ⟨rfl, rfl⟩ := h
    exact Or.inl ⟨rfl, rfl, Or.inl hs⟩

theorem mem_registerQueryTables (q : Qid) (sig : List Nat) (q2t : Nat → List Qid)
    (x : Qid) (t : Nat) :
    x ∈ registerQueryTables q sig q2t t ↔ x ∈ q2t t ∨ (x = q ∧ t ∈ sig) := by
  induction sig generalizing q2t with
  | nil => simp [registerQueryTables]
  | cons QR QRT ih =>
    simp only [registerQueryTables]
    rw [ih]
    by_cases ht : t = QR
    · subst ht
      simp only [Function.update_same, mem_usetInsert, List.mem_cons, true_or, and_true]
      constructor
      · rintro (h | h)
        · exact h
        · exact Or.inr h.1
      · rintro (h | h)
        · exact Or.inl (Or.inl h)
        · exact Or.inl (Or.inr h)
    · simp only [Function.update_noteq ht, List.mem_cons, ht, false_or]

theorem makeQid_ne_sig {s1 s2 : Site} (h : makeQid s1.sig ≠ makeQid s2.sig) :
    s1.sig ≠ s2.sig := fun hc => h (by rw [hc])

theorem siteInv_init [Inhabited V] (site : Site) : SiteInv site ({} : World V) where
  unreg := fun _ => ⟨fun _ hc => (List.not_mem_nil _ hc).elim, rfl⟩
  reg := fun h => absurd rfl h
  agree := fun h _ _ _ => absurd rfl h

theorem siteInv_set [Inhabited V] (site : Site) (w : World V) (hw : StoreOk w)
    (hi : SiteInv site w) (t id : Nat) (v : V) :
    SiteInv site { w with db := w.db.Set t id v } where
  unreg := fun h0 => by
    obtain ⟨h1, h2⟩ := hi.unreg h0
    refine ⟨fun t' => ?_, ?_⟩
    · show makeQid site.sig ∉ (w.db.Set t id v).query_to_tables t'
      rw [Set_query_to_tables]; exact h1 t'
    · show pending (w.db.Set t id v).query_insert _ = []
      rw [Set_query_insert]
      unfold pending
      rw [trackInsert_fst_of_not_mem id _ _ _ (h1 t)]
      exact h2
  reg := fun h0 t' ht' => by
    show makeQid site.sig ∈ (w.db.Set t id v).query_to_tables t'
    rw [Set_query_to_tables]; exact hi.reg h0 t' ht'
  agree := fun h0 hne x hx => by
    have hx' : x.1 ∉ pending (w.db.Set t id v).query_insert (makeQid site.sig) := hx
    rw [Set_query_insert, mem_trackInsert_fst] at hx'
    push_neg at hx'
    show x ∈ w.cacheOf site ↔ joinRow (w.db.Set t id v) site.sig x.1 = some x.2
    rw [joinRow_Set_of_ne w.db hw.tables t id v site.sig x.1 (by
      by_cases ht : t ∈ site.sig
      · exact Or.inl (hx'.2 (hi.reg h0 t ht))
      · exact Or.inr ht)]
    exact hi.agree h0 hne x hx'.1

theorem siteInv_stack [Inhabited V] (site : Site) (w : World V) (hi : SiteInv site w)
    (k : Int) : SiteInv site { w with db := { w.db with query_stack := k } } where
  unreg := hi.unreg
  reg := hi.reg
  agree := fun h0 hne x hx => by
    show x ∈ w.cacheOf site ↔ joinRow _ site.sig x.1 = some x.2
    rw [joinRow_congr w.db]
    · exact hi.agree h0 hne x hx
    · rfl

theorem Query.prepare_other_frame [Inhabited V] (s1 : Site) (w w1 : World V) (hw : StoreOk w)
    (h : Query.prepare s1 w = .ok w1) :
    (∀ s, s ≠ s1 → w1.st.instance_id s = w.st.instance_id s) ∧
      (∀ sig i, sig ≠ s1.sig → w1.st.cache_rows sig i = w.st.cache_rows sig i) ∧
      (∀ x t, x ≠ makeQid s1.sig →
        (x ∈ w1.db.query_to_tables t ↔ x ∈ w.db.query_to_tables t)) := by
  obtain ⟨db2, c2, hr, rfl⟩ := Query.prepare_eq s1 w w1 h
  have hq2t : db2.query_to_tables = (Query.init s1 w).db.query_to_tables := by
    rcases reconcile_cases _ db2 s1.sig _ _ c2 (storeOk_Query_init s1 w hw).remove hr with
      ⟨h1, _⟩ | ⟨h1, _⟩ <;> rw [h1]
  refine ⟨?_, ?_, ?_⟩
  · intro s hs
    show (Query.init s1 w).st.instance_id s = _
    by_cases h0 : w.st.instance_id s1 = 0
    · rw [Query.init_of_first s1 w h0]
      exact Function.update_noteq hs _ _
    · rw [Query.init_of_evaluated s1 w h0]
  · intro sig i hs
    show setSlot (Query.init s1 w).st.cache_rows s1.sig _ c2 sig i = _
    rw [setSlot_other _ _ _ _ _ _ (Or.inl hs)]
    by_cases h0 : w.st.instance_id s1 = 0
    · rw [Query.init_of_first s1 w h0]
      exact setSlot_other _ _ _ _ _ _ (Or.inl hs)
    · rw [Query.init_of_evaluated s1 w h0]
  · intro x t hx
    show x ∈ db2.query_to_tables t ↔ _
    rw [hq2t]
    by_cases h0 : w.st.instance_id s1 = 0
    · rw [Query.init_of_first s1 w h0]
      show x ∈ registerQueryTables (makeQid s1.sig) s1.sig w.db.query_to_tables t ↔ _
      rw [mem_registerQueryTables]
      constructor
      · rintro (h1 | h1)
        · exact h1
        · exact absurd h1.1 hx
      · exact Or.inl
    · rw [Query.init_of_evaluated s1 w h0]

theorem siteInv_prepare_other [Inhabited V] (site s1 : Site) (w w1 : World V) (hw : StoreOk w)
    (hi : SiteInv site w) (hq : makeQid s1.sig ≠ makeQid site.sig)
    (h : Query.prepare s1 w = .ok w1) : SiteInv site w1 := by
  have hsig : site.sig ≠ s1.sig := fun hc => hq (by rw [hc])
  have hsite : site ≠ s1 := fun hc => hq (by rw [hc])
  obtain ⟨hid, hcache, hq2t⟩ := Query.prepare_other_frame s1 w w1 hw h
  obtain ⟨htab, _, _, hins⟩ := Query.prepare_db_frame s1 w w1 hw h
  have hid1 := hid site hsite
  have hc1 : w1.cacheOf site = w.cacheOf site := by
    unfold World.cacheOf
    rw [hid1, hcache _ _ hsig]
  have hins1 : pending w1.db.query_insert (makeQid site.sig) =
      pending w.db.query_insert (makeQid site.sig) := by
    unfold pending
    rw [hins _ (Ne.symm hq)]
  refine ⟨?_, ?_, ?_⟩
  · intro h0
    rw [hid1] at h0
    obtain ⟨h1, h2⟩ := hi.unreg h0
    exact ⟨fun t hc => h1 t ((hq2t _ t (Ne.symm hq)).mp hc), by rw [hins1]; exact h2⟩
  · intro h0 t ht
    rw [hid1] at h0
    exact (hq2t _ t (Ne.symm hq)).mpr (hi.reg h0 t ht)
  · intro h0 hne x hx
    rw [hid1] at h0
    rw [hc1] at hne ⊢
    rw [hins1] at hx
    rw [joinRow_congr w.db w1.db htab]
    exact hi.agree h0 hne x hx

theorem fill_mem_iff [Inhabited V] (db : DbTables V) (hdb : TablesSorted db) (sig : List Nat)
    (hne : fill db 0 sig [] ≠ []) (x : CacheRow V) :
    x ∈ fill db 0 sig [] ↔ joinRow db sig x.1 = some x.2 := by
  cases sig with
  | nil => exact absurd rfl hne
  | cons QR QRT =>
    rw [joinRow_eq_some_iff db hdb]
    exact (fill_isInnerJoin db hdb (QR :: QRT) (by simp)).2 x.1 x.2

theorem siteInv_prepare_self [Inhabited V] (site : Site) (w w1 : World V) (hw : StoreOk w)
    (hi : SiteInv site w) (h : Query.prepare site w = .ok w1) : SiteInv site w1 := by
  have hev := Query.prepare_evaluated site w w1 hw h
  by_cases h0 : w.st.instance_id site = 0
  · obtain ⟨wf, hf1, hf2, hf3, _⟩ := Query.prepare_first site w hw h0 (fun _ => (hi.unreg h0).2)
    rw [h] at hf1
    simp only [Except.ok.injEq] at hf1
    subst hf1
    have hdbf := Query.prepare_eq site w w1 h
    have hq2t : ∀ t ∈ site.sig, makeQid site.sig ∈ w1.db.query_to_tables t := by
      obtain ⟨db2, c2, hr, rfl⟩ := hdbf
      have : db2.query_to_tables = (Query.init site w).db.query_to_tables := by
        rcases reconcile_cases _ db2 site.sig _ _ c2 (storeOk_Query_init site w hw).remove hr
          with ⟨h1, _⟩ | ⟨h1, _⟩ <;> rw [h1]
      intro t ht
      show makeQid site.sig ∈ db2.query_to_tables t
      rw [this, Query.init_of_first site w h0]
      show makeQid site.sig ∈ registerQueryTables _ _ _ t
      rw [mem_registerQueryTables]
      exact Or.inr ⟨rfl, ht⟩
    refine ⟨fun hc => absurd hc hev, fun _ => hq2t, ?_⟩
    intro _ hne x _
    rw [hf2] at hne ⊢
    rw [joinRow_congr w.db w1.db hf3]
    exact fill_mem_iff w.db hw.tables site.sig hne x
  · obtain ⟨db2, c2, hr, rfl⟩ := Query.prepare_eq site w w1 h
    rw [Query.init_of_evaluated site w h0] at hr ⊢
    have hcache : World.cacheOf
        { st := { w.st with
                  cache_rows := setSlot w.st.cache_rows site.sig (w.st.instance_id site) c2 }
          db := db2 } site = c2 := by
      unfold World.cacheOf
      exact setSlot_same _ _ _ _
    rcases reconcile_cases _ db2 site.sig _ _ c2 hw.remove hr with
      ⟨h1, h2, _⟩ | ⟨h1, hs, hpne, h3⟩
    · subst h1 h2
      refine ⟨fun hc => absurd hc h0, hi.reg, ?_⟩
      intro _ hne x hx
      rw [hcache] at hne ⊢
      exact hi.agree h0 hne x hx
    · have htab : db2.m_tables = w.db.m_tables := by rw [h1]
      have hq2t : db2.query_to_tables = w.db.query_to_tables := by rw [h1]
      refine ⟨fun hc => absurd hc h0, fun hn t ht => ?_, ?_⟩
      · show makeQid site.sig ∈ db2.query_to_tables t
        rw [hq2t]
        exact hi.reg hn t ht
      intro _ hne x _
      rw [hcache] at hne ⊢
      rcases h3 with ⟨_, h4⟩ | ⟨hcne, h4⟩
      · exact absurd h4 hne
      · obtain ⟨_, _, _, _, hmem⟩ := insertDrain_of_ok w.db site.sig _ _ c2
          (hw.sorted _ _) (hw.width _ _) (hw.joinable _ _) h4
        rw [hmem x]
        show _ ↔ joinRow db2 site.sig x.1 = some x.2
        rw [joinRow_congr w.db db2 htab]
        by_cases hx : x.1 ∈ pending w.db.query_insert (makeQid site.sig)
        · constructor
          · rintro (⟨_, hj⟩ | ⟨hn, _⟩)
            · exact hj
            · exact absurd hx hn
          · intro hj
            exact Or.inl ⟨hx, hj⟩
        · constructor
          · rintro (⟨hin, _⟩ | ⟨_, hc⟩)
            · exact absurd hin hx
            · exact (hi.agree h0 hcne x hx).mp hc
          · intro hj
            exact Or.inr ⟨hx, (hi.agree h0 hcne x hx).mpr hj⟩

theorem Reachable.siteInv [Inhabited V] (site : Site) {w : World V}
    (h : Reachable (compatibleWith site) w) : SiteInv site w := by
  induction h with
  | init => exact siteInv_init site
  | set w t id v hr ih => exact siteInv_set site w hr.storeOk ih t id v
  | prepare w w1 s1 hr hal hp ih =>
    rcases hal with hal | hal
    · subst hal
      exact siteInv_prepare_self s1 w w1 hr.storeOk ih hp
    · exact siteInv_prepare_other site s1 w w1 hr.storeOk ih hal hp
  | enter w _ ih => exact siteInv_stack site w ih _
  | leave w _ _ ih => exact siteInv_stack site w ih _

theorem Query.prepare_pending_cleared [Inhabited V] (site : Site) (w w1 : World V)
    (hw : StoreOk w) (hs : w.db.query_stack = 0) (h : Query.prepare site w = .ok w1) :
    pending w1.db.query_insert (makeQid site.sig) = [] := by
  obtain ⟨db2, c2, hr, rfl⟩ := Query.prepare_eq site w w1 h
  exact (reconcile_spec _ db2 site.sig _ _ c2 (storeOk_Query_init site w hw).remove hr).2.1
    (by rw [(Query.init_db_frame site w).2.1]; exact hs)

theorem StrictAsc.count_eq_one {β : Type} {l : List (Nat × β)} (hl : StrictAsc l)
    {x : Nat × β} (hx : x ∈ l) : (l.map Prod.fst).count x.1 = 1 := by
  apply List.count_eq_one_of_mem
  · exact List.Pairwise.map Prod.fst (fun a b (hab : a.1 < b.1) => Nat.ne_of_lt hab) hl
  · exact List.mem_map_of_mem Prod.fst hx

theorem StrictAsc.eq_of_mem {β : Type} {l : List (Nat × β)} (hl : StrictAsc l)
    {x y : Nat × β} (hx : x ∈ l) (hy : y ∈ l) (h : x.1 = y.1) : x = y := by
  induction l with
  | nil => cases hx
  | cons a as ih =>
    have hlt : ∀ z ∈ as, a.1 < z.1 := (List.pairwise_cons.mp hl).1
    rcases List.mem_cons.mp hx with h1 | h1 <;> rcases List.mem_cons.mp hy with h2 | h2
    · rw [h1, h2]
    · subst h1; have := hlt y h2; omega
    · subst h2; have := hlt x h1; omega
    · exact ih (List.pairwise_cons.mp hl).2 h1 h2

theorem visitedBy_sublist (p : CacheRow V → Bool) (rows : List (CacheRow V)) :
    (visitedBy p rows).Sublist rows := by
  induction rows with
  | nil => exact List.Sublist.slnil
  | cons r rs ih =>
    simp only [visitedBy]
    by_cases h : p r = true
    · rw [if_pos h]; exact List.Sublist.cons₂ r ih
    · rw [if_neg h]; exact List.Sublist.cons₂ r (List.nil_sublist rs)

theorem iterate_const_sublist [Inhabited V]
    (f : CacheRow V → World V → Except Fault (World V × Bool)) (rows : List (CacheRow V)) :
    ∀ n i w w1 vis, iterate f (fun _ => rows) n i w = .ok (w1, vis) →
      vis.Sublist (rows.drop i) := by
  intro n
  induction n with
  | zero =>
    intro i w w1 vis h
    simp only [iterate, Except.ok.injEq, Prod.mk.injEq] at h
    rw [← h.2]; exact List.nil_sublist _
  | succ n ih =>
    intro i w w1 vis h
    simp only [iterate] at h
    cases hrow : rows[i]? with
    | none => rw [hrow] at h; cases h
    | some row =>
      rw [hrow] at h
      dsimp only at h
      have hlt : i < rows.length := by
        by_contra hc
        rw [List.getElem?_eq_none (by omega)] at hrow
        cases hrow
      have hrow2 : rows[i] = row := by
        rw [List.getElem?_eq_getElem hlt] at hrow
        exact Option.some.inj hrow
      rw [List.drop_eq_getElem_cons hlt, hrow2]
      cases hfr : f row w with
      | error e => rw [hfr] at h; cases h
      | ok r =>
        obtain ⟨w2, b⟩ := r
        rw [hfr] at h
        dsimp only at h
        cases b with
        | false =>
          simp only [Bool.false_eq_true, if_false, Except.ok.injEq, Prod.mk.injEq] at h
          rw [← h.2]
          exact List.Sublist.cons₂ row (List.nil_sublist _)
        | true =>
          simp only [if_true] at h
          cases hit : iterate f (fun _ => rows) n (i + 1) w2 with
          | error e => rw [hit] at h; cases h
          | ok r2 =>
            obtain ⟨w3, vis3⟩ := r2
            rw [hit] at h
            simp only [Except.ok.injEq, Prod.mk.injEq] at h
            rw [← h.2]
            exact List.Sublist.cons₂ row (ih (i + 1) w2 w3 vis3 hit)

theorem Prog.sitesIn_any (p : Prog V) : p.SitesIn anySite := by
  induction p with
  | ret b => trivial
  | set t id v k ih => exact ih
  | query site fn k ihfn ihk => exact ⟨trivial, ihfn, ihk⟩
  | queryOnce sig fn k ihfn ihk => exact ⟨ihfn, ihk⟩

theorem Query.prepare_total [Inhabited V] (site : Site) (w : World V) (hw : StoreOk w)
    (hev : w.st.instance_id site ≠ 0)
    (hb : w.db.query_stack = 0 → w.cacheOf site ≠ [] →
      ∀ i ∈ pending w.db.query_insert (makeQid site.sig), ∃ r ∈ w.cacheOf site, i ≤ r.1) :
    ∃ w1, Query.prepare site w = .ok w1 := by
  unfold Query.prepare
  dsimp only
  rw [Query.init_of_evaluated site w hev]
  by_cases hs : w.db.query_stack = 0
  · rw [reconcile_top _ _ _ _ hs (hw.remove _)]
    obtain ⟨r, hr⟩ := reconcileInsert_total w.db site.sig (makeQid site.sig) (w.cacheOf site)
      (fun hne => by
        obtain ⟨c1, h1, _⟩ := insertDrain_ok w.db site.sig _ (w.cacheOf site)
          (hw.sorted _ _) (hw.width _ _) (hw.joinable _ _) (hb hs hne)
        exact ⟨c1, h1⟩)
    rw [hr]
    exact ⟨_, rfl⟩
  · rw [reconcile_nested _ _ _ _ hs]
    exact ⟨_, rfl⟩

theorem isInnerJoin_of_tables_eq (db db1 : DbTables V) (h : db1.m_tables = db.m_tables)
    (sig : List Nat) (c : List (CacheRow V)) (hj : IsInnerJoin db sig c) :
    IsInnerJoin db1 sig c := by
  refine ⟨hj.1, fun id vals => ?_⟩
  rw [hj.2 id vals, h]

/-- What a top-level non-first evaluation does to the cache when it completes and has
Ids to drain into a cache that is not empty. -/
theorem Query.prepare_drain [Inhabited V] (site : Site) (w w1 : World V) (hw : StoreOk w)
    (hev : w.st.instance_id site ≠ 0) (hs : w.db.query_stack = 0)
    (hpend : pending w.db.query_insert (makeQid site.sig) ≠ [])
    (hne : w.cacheOf site ≠ []) (h : Query.prepare site w = .ok w1) :
    w1.db.m_tables = w.db.m_tables ∧
      insertDrain w.db site.sig (pending w.db.query_insert (makeQid site.sig))
        (w.cacheOf site) = .ok (w1.cacheOf site) := by
  obtain ⟨db2, c2, hr, rfl⟩ := Query.prepare_eq site w w1 h
  rw [Query.init_of_evaluated site w hev] at hr ⊢
  have hcache : World.cacheOf
      { st := { w.st with
                cache_rows := setSlot w.st.cache_rows site.sig (w.st.instance_id site) c2 }
        db := db2 } site = c2 := by
    unfold World.cacheOf
    exact setSlot_same _ _ _ _
  rw [hcache]
  rcases reconcile_cases _ db2 site.sig _ _ c2 hw.remove hr with
    ⟨_, _, h3⟩ | ⟨h1, _, _, h3⟩
  · rcases h3 with h3 | h3
    · exact absurd hs h3
    · exact absurd h3 hpend
  · refine ⟨by rw [h1], ?_⟩
    rcases h3 with ⟨h4, _⟩ | ⟨_, h4⟩
    · exact absurd h4 hne
    · exact h4

theorem iterate_partial [Inhabited V] (P : World V → Prop)
    (f : CacheRow V → World V → Except Fault (World V × Bool)) (pr : CacheRow V → Bool)
    (rowsOf : World V → List (CacheRow V)) (rows : List (CacheRow V))
    (hrows : ∀ w, P w → rowsOf w = rows)
    (hf : ∀ row w w1 b, P w → f row w = .ok (w1, b) → b = pr row ∧ P w1) :
    ∀ n i w w1 vis, P w → i + n ≤ rows.length → iterate f rowsOf n i w = .ok (w1, vis) →
      vis = visitedBy pr ((rows.drop i).take n) := by
  intro n
  induction n with
  | zero =>
    intro i w w1 vis _ _ h
    simp only [iterate, Except.ok.injEq, Prod.mk.injEq] at h
    rw [← h.2]
    simp [visitedBy]
  | succ n ih =>
    intro i w w1 vis hP hi h
    have hlt : i < rows.length := by omega
    simp only [iterate, hrows w hP, List.getElem?_eq_getElem hlt] at h
    rw [List.drop_eq_getElem_cons hlt, List.take_succ_cons]
    simp only [visitedBy]
    cases hfr : f rows[i] w with
    | error e => rw [hfr] at h; cases h
    | ok r =>
      obtain ⟨w2, b⟩ := r
      rw [hfr] at h
      dsimp only at h
      obtain ⟨hb, hP2⟩ := hf rows[i] w w2 b hP hfr
      rw [← hb]
      cases b with
      | false =>
        simp only [Bool.false_eq_true, if_false, Except.ok.injEq, Prod.mk.injEq] at h
        rw [← h.2]
        rfl
      | true =>
        simp only [if_true] at h ⊢
        cases hit : iterate f rowsOf n (i + 1) w2 with
        | error e => rw [hit] at h; cases h
        | ok r2 =>
          obtain ⟨w3, vis3⟩ := r2
          rw [hit] at h
          simp only [Except.ok.injEq, Prod.mk.injEq] at h
          rw [← h.2, ih (i + 1) w2 w3 vis3 hP2 (by omega) hit]

theorem reconcileRemove_spec (db db1 : DbTables V) (q : Qid) (c c1 : List (CacheRow V))
    (h : reconcileRemove db q c = .ok (db1, c1)) :
    db1.query_insert = db.query_insert ∧ db1.query_stack = db.query_stack ∧
      pending db1.query_remove q = [] := by
  unfold reconcileRemove at h
  cases hq : db.query_remove q with
  | none =>
    rw [hq] at h
    simp only [Except.ok.injEq, Prod.mk.injEq] at h
    obtain ⟨rfl, rfl⟩ := h
    exact ⟨rfl, rfl, by simp [pending, hq]⟩
  | some l =>
    rw [hq] at h
    dsimp only at h
    cases l with
    | nil =>
      simp only [List.isEmpty_nil, if_true, Except.ok.injEq, Prod.mk.injEq] at h
      obtain ⟨rfl, rfl⟩ := h
      exact ⟨rfl, rfl, by simp [pending, hq]⟩
    | cons a as =>
      simp only [List.isEmpty_cons, Bool.false_eq_true, if_false] at h
      cases hd : (if c.isEmpty = true then Except.ok c else removeDrain (a :: as) c) with
      | error e => rw [hd] at h; cases h
      | ok c2 =>
        rw [hd] at h
        simp only [Except.ok.injEq, Prod.mk.injEq] at h
        obtain ⟨rfl, rfl⟩ := h
        exact ⟨rfl, rfl, by simp [pending]⟩

theorem reconcile_after [Inhabited V] (db db2 : DbTables V) (sig : List Nat) (q : Qid)
    (c c2 : List (CacheRow V)) (h : reconcile db sig q c = .ok (db2, c2)) :
    db2.query_stack = db.query_stack ∧
      (db.query_stack = 0 →
        pending db2.query_insert q = [] ∧ pending db2.query_remove q = []) := by
  unfold reconcile at h
  by_cases hs : db.query_stack = 0
  · rw [if_pos hs] at h
    cases hi : reconcileInsert db sig q c with
    | error e => rw [hi] at h; cases h
    | ok r =>
      obtain ⟨db1, c1⟩ := r
      rw [hi] at h
      dsimp only at h
      obtain ⟨h1, h2, _⟩ := reconcileInsert_spec db db1 sig q c c1 hi
      obtain ⟨h3, h4, h5⟩ := reconcileRemove_spec db1 db2 q c1 c2 h
      have hst : db1.query_stack = db.query_stack := by
        rcases h1 with h1 | h1 <;> rw [h1]
      exact ⟨by rw [h4, hst], fun _ => ⟨by rw [h3]; exact h2, h5⟩⟩
  · rw [if_neg hs] at h
    simp only [Except.ok.injEq, Prod.mk.injEq] at h
    obtain ⟨rfl, rfl⟩ := h
    exact ⟨rfl, fun h0 => absurd h0 hs⟩

theorem reconcile_idle [Inhabited V] (db : DbTables V) (sig : List Nat) (q : Qid)
    (c : List (CacheRow V))
    (h : db.query_stack = 0 → pending db.query_insert q = [] ∧ pending db.query_remove q = []) :
    reconcile db sig q c = .ok (db, c) := by
  by_cases hs : db.query_stack = 0
  · rw [reconcile_top db sig q c hs (h hs).2]
    exact reconcileInsert_of_empty db sig q c (h hs).1
  · exact reconcile_nested db sig q c hs

theorem Query.prepare_idem [Inhabited V] (site : Site) (w w1 : World V)
    (hpos : 0 < w.st.s_instances) (h : Query.prepare site w = .ok w1) :
    Query.prepare site w1 = .ok w1 := by
  obtain ⟨db2, c2, hr, hw1⟩ := Query.prepare_eq site w w1 h
  obtain ⟨hst, hpend⟩ := reconcile_after _ db2 site.sig _ _ c2 hr
  have hev : w1.st.instance_id site ≠ 0 := by
    rw [hw1]
    show (Query.init site w).st.instance_id site ≠ 0
    by_cases h0 : w.st.instance_id site = 0
    · rw [Query.init_of_first site w h0]
      dsimp only
      rw [Function.update_same]
      exact Nat.pos_iff_ne_zero.mp hpos
    · rw [Query.init_of_evaluated site w h0]
      exact h0
  have hdb : w1.db = db2 := by rw [hw1]
  unfold Query.prepare
  dsimp only
  rw [Query.init_of_evaluated site w1 hev,
    reconcile_idle w1.db site.sig _ _ (fun hs => by
      rw [hdb] at hs ⊢
      exact hpend (by rw [← hst]; exact hs))]
  dsimp only [World.cacheOf]
  rw [setSlot_self]

theorem Query_pure_inv [Inhabited V] (site : Site) (p : CacheRow V → Bool) (w w1 : World V)
    (vis : List (CacheRow V)) (h : Query site (pureFn p) w = .ok (w1, vis)) :
    Query.prepare site w = .ok w1 ∧ vis = visitedBy p (w1.cacheOf site) := by
  cases hp : Query.prepare site w with
  | error e =>
    unfold Query at h
    rw [hp] at h
    cases h
  | ok wp =>
    rw [Query_pure site p w wp hp] at h
    simp only [Except.ok.injEq, Prod.mk.injEq] at h
    obtain ⟨rfl, rfl⟩ := h
    exact ⟨rfl, rfl⟩

theorem shortCircuit_visitedBy (p : CacheRow V → Bool) (rows : List (CacheRow V)) :
    ShortCircuit p rows (visitedBy p rows) :=
  ⟨fun k hk hfalse htrue => visitedBy_stop p rows k hk hfalse htrue,
   fun h => visitedBy_all p rows h⟩

theorem length_upsert_of_mem (id : Nat) (b : β) (l : List (Nat × β)) (hl : StrictAsc l)
    (h : ∃ r ∈ l, r.1 = id) : (upsert id b l).length = l.length := by
  induction l with
  | nil => obtain ⟨r, hr, _⟩ := h; cases hr
  | cons a as ih =>
    have has : StrictAsc as := (List.pairwise_cons.mp hl).2
    have hlt : ∀ y ∈ as, a.1 < y.1 := (List.pairwise_cons.mp hl).1
    obtain ⟨r, hr, hrid⟩ := h
    by_cases h1 : a.1 < id
    · simp only [upsert, if_pos h1, List.length_cons]
      rcases List.mem_cons.mp hr with h2 | h2
      · subst h2; omega
      · rw [ih has ⟨r, h2, hrid⟩]
    · by_cases h2 : a.1 = id
      · simp only [upsert, if_neg h1, if_pos h2, List.length_cons]
      · rcases List.mem_cons.mp hr with h3 | h3
        · subst h3; exact absurd hrid h2
        · have := hlt r h3; omega

theorem length_upsert_of_not_mem (id : Nat) (b : β) (l : List (Nat × β))
    (h : ∀ r ∈ l, r.1 ≠ id) : (upsert id b l).length = l.length + 1 := by
  induction l with
  | nil => rfl
  | cons a as ih =>
    have h2 : a.1 ≠ id := h a (List.mem_cons_self _ _)
    by_cases h1 : a.1 < id
    · simp only [upsert, if_pos h1, List.length_cons]
      rw [ih (fun r hr => h r (List.mem_cons_of_mem _ hr))]
    · simp only [upsert, if_neg h1, if_neg h2, List.length_cons]

theorem foldl_set_spec (writes : List (Nat × V)) (t : Table V) (ht : StrictAsc t.rows) :
    StrictAsc (writes.foldl (fun t wr => t.set wr.1 wr.2) t).rows ∧
      ∀ id, (writes.foldl (fun t wr => t.set wr.1 wr.2) t).get id =
        match lastWrite writes id with
        | some v => some v
        | none => t.get id := by
  induction writes generalizing t with
  | nil => exact ⟨ht, fun _ => rfl⟩
  | cons wr rest ih =>
    obtain ⟨h1, h2⟩ := ih (t.set wr.1 wr.2) (Table.set_sorted t ht wr.1 wr.2)
    refine ⟨h1, fun id => ?_⟩
    simp only [List.foldl_cons, lastWrite]
    rw [h2 id]
    cases lastWrite rest id with
    | some v => rfl
    | none =>
      simp only
      rw [Table.get_set t ht]
      by_cases h : wr.1 = id
      · rw [if_pos h, if_pos h.symm]
      · rw [if_neg h, if_neg (Ne.symm h)]

theorem lastWrite_eq_none_iff (writes : List (Nat × V)) (id : Nat) :
    lastWrite writes id = none ↔ ∀ wr ∈ writes, wr.1 ≠ id := by
  induction writes with
  | nil => simp [lastWrite]
  | cons wr rest ih =>
    simp only [lastWrite, List.mem_cons, forall_eq_or_imp]
    cases h : lastWrite rest id with
    | some v =>
      simp only [reduceCtorEq, false_iff, not_and]
      intro _ hc
      rw [ih.mpr hc] at h
      cases h
    | none =>
      by_cases h1 : wr.1 = id
      · simp [h1]
      · simp only [if_neg h1, true_iff]
        exact ⟨h1, ih.mp h⟩

theorem trackInsert_snd_of_not_mem (id : Nat) (qs : List Qid)
    (maps : (Qid → Option (List Nat)) × (Qid → Option (List Nat))) (q : Qid) (hq : q ∉ qs) :
    (trackInsert id qs maps).2 q = maps.2 q := by
  induction qs generalizing maps with
  | nil => rfl
  | cons a as ih =>
    obtain ⟨ins, rem⟩ := maps
    simp only [trackInsert]
    rw [ih _ (fun h => hq (List.mem_cons_of_mem _ h))]
    exact Function.update_noteq (fun h => hq (by rw [h]; exact List.mem_cons_self _ _)) _ _

theorem trackInsert_snd_nodup (id : Nat) (qs : List Qid)
    (maps : (Qid → Option (List Nat)) × (Qid → Option (List Nat)))
    (hnd : ∀ q, (pending maps.2 q).Nodup) :
    ∀ q, (pending (trackInsert id qs maps).2 q).Nodup := by
  induction qs generalizing maps with
  | nil => exact hnd
  | cons a as ih =>
    obtain ⟨ins, rem⟩ := maps
    simp only [trackInsert]
    apply ih
    intro q1
    by_cases h : q1 = a
    · subst h
      simp only [pending, Function.update_same, Option.getD_some]
      exact (hnd q1).erase id
    · simp only [pending, Function.update_noteq h]
      exact hnd q1

theorem mem_trackInsert_snd (id : Nat) (qs : List Qid)
    (maps : (Qid → Option (List Nat)) × (Qid → Option (List Nat)))
    (hnd : ∀ q, (pending maps.2 q).Nodup) (q : Qid) (i : Nat) :
    i ∈ pending (trackInsert id qs maps).2 q ↔
      i ∈ pending maps.2 q ∧ ¬(q ∈ qs ∧ i = id) := by
  induction qs generalizing maps with
  | nil => simp [trackInsert]
  | cons a as ih =>
    obtain ⟨ins, rem⟩ := maps
    simp only [trackInsert]
    have hnd1 : ∀ q1,
        (pending (Function.update rem a (some ((pending rem a).erase id))) q1).Nodup := by
      intro q1
      by_cases h : q1 = a
      · subst h
        simp only [pending, Function.update_same, Option.getD_some]
        exact (hnd q1).erase id
      · simp only [pending, Function.update_noteq h]
        exact hnd q1
    rw [ih _ hnd1]
    by_cases hqa : q = a
    · subst hqa
      have hnq : (pending rem q).Nodup := hnd q
      simp only [pending, Function.update_same, Option.getD_some, List.mem_cons, true_or,
        true_and]
      simp only [pending] at hnq
      rw [hnq.mem_erase_iff]
      constructor
      · rintro ⟨⟨h1, h2⟩, _⟩
        exact ⟨h2, h1⟩
      · rintro ⟨h1, h2⟩
        exact ⟨⟨h2, h1⟩, fun hc => h2 hc.2⟩
    · simp only [pending, Function.update_noteq hqa, List.mem_cons, hqa, false_or]

theorem reconcileInsert_eq_guarded [Inhabited V] (db : DbTables V) (sig : List Nat) (q : Qid)
    (c : List (CacheRow V)) :
    reconcileInsert db sig q c =
      match db.query_insert q with
      | none => .ok (db, c)
      | some insert_list =>
        if insert_list.isEmpty then .ok (db, c)
        else
          match guardedInsertDrain db sig insert_list c with
          | .error e => .error e
          | .ok c1 =>
            .ok ({ db with query_insert := Function.update db.query_insert q (some []) }, c1) :=
  rfl

theorem insertDrain_twice [Inhabited V] (db : DbTables V) (sig : List Nat) (ids : List Nat)
    (c c1 : List (CacheRow V)) (hs : StrictAsc c) (hw : RowsWidth sig.length c)
    (hj : Joinable db sig c) (h : insertDrain db sig ids c = .ok c1) :
    insertDrain db sig ids c1 = .ok c1 := by
  obtain ⟨hb, hs1, hw1, hj1, hm1⟩ := insertDrain_of_ok db sig ids c c1 hs hw hj h
  have hb1 : ∀ id ∈ ids, ∃ r ∈ c1, id ≤ r.1 := by
    intro id hid
    obtain ⟨r, hr, hle⟩ := hb id hid
    by_cases hrid : r.1 ∈ ids
    · obtain ⟨vs, hvs⟩ := Option.isSome_iff_exists.mp (hj r hr)
      exact ⟨(r.1, vs), (hm1 (r.1, vs)).mpr (Or.inl ⟨hrid, hvs⟩), hle⟩
    · exact ⟨r, (hm1 r).mpr (Or.inr ⟨hrid, hr⟩), hle⟩
  obtain ⟨c2, h2, hs2, _, _, hm2⟩ := insertDrain_ok db sig ids c1 hs1 hw1 hj1 hb1
  rw [h2]
  congr 1
  apply strictAsc_ext hs2 hs1
  intro x
  rw [hm2 x]
  by_cases hx : x.1 ∈ ids
  · rw [hm1 x]
    constructor
    · rintro (h3 | h3)
      · exact Or.inl h3
      · exact absurd hx h3.1
    · rintro (h3 | h3)
      · exact Or.inl h3
      · exact absurd hx h3.1
  · constructor
    · rintro (h3 | h3)
      · exact absurd h3.1 hx
      · exact h3.2
    · intro h3
      exact Or.inr ⟨hx, h3⟩

theorem testBit_makeQid (sig : List Nat) (i : Nat) :
    (makeQid sig).testBit i = true ↔ i ∈ sig := by
  induction sig with
  | nil => simp [makeQid]
  | cons QR QRT ih =>
    simp only [makeQid, Nat.testBit_or, Bool.or_eq_true, ih, List.mem_cons,
      Nat.one_shiftLeft, Nat.testBit_two_pow, decide_eq_true_eq]
    constructor
    · rintro (h | h)
      · exact Or.inl h.symm
      · exact Or.inr h
    · rintro (h | h)
      · exact Or.inl h.symm
      · exact Or.inr h

theorem GetTableIndex.go_spec {Ty : Type} [DecidableEq Ty] (rest : List Ty) (hnd : rest.Nodup)
    (RowT : Ty) (n i : Nat) :
    GetTableIndex.go rest RowT n = some i ↔ ∃ k, i = n + k ∧ rest[k]? = some RowT := by
  induction rest generalizing n with
  | nil => simp [GetTableIndex.go]
  | cons T rest ih =>
    have hnd1 := (List.nodup_cons.mp hnd)
    by_cases hT : T = RowT
    · simp only [GetTableIndex.go, if_pos hT, Option.some.injEq]
      constructor
      · intro h
        exact ⟨0, by omega, by simp [hT]⟩
      · rintro ⟨k, hk, hget⟩
        cases k with
        | zero => omega
        | succ k =>
          simp only [List.getElem?_cons_succ] at hget
          have hmem : RowT ∈ rest := by
            obtain ⟨hlt, heq⟩ := List.getElem?_eq_some_iff.mp hget
            exact heq ▸ List.getElem_mem hlt
          exact absurd (hT ▸ hmem) hnd1.1
    · simp only [GetTableIndex.go, if_neg hT]
      rw [ih hnd1.2]
      constructor
      · rintro ⟨k, hk, hget⟩
        exact ⟨k + 1, by omega, by simpa using hget⟩
      · rintro ⟨k, hk, hget⟩
        cases k with
        | zero =>
          simp only [List.getElem?_cons_zero, Option.some.injEq] at hget
          exact absurd hget hT
        | succ k => exact ⟨k, by omega, by simpa using hget⟩

theorem mem_resolveSig {Ty : Type} [DecidableEq Ty] (schema sig : List Ty) (idxs : List Nat)
    (h : resolveSig schema sig = some idxs) (i : Nat) :
    i ∈ idxs ↔ ∃ T ∈ sig, GetTableIndex schema T = some i := by
  induction sig generalizing idxs with
  | nil =>
    simp only [resolveSig, Option.some.injEq] at h
    subst h
    simp
  | cons QR QRT ih =>
    simp only [resolveSig] at h
    cases hg : GetTableIndex schema QR with
    | none => rw [hg] at h; cases h
    | some j =>
      cases hr : resolveSig schema QRT with
      | none => rw [hg, hr] at h; cases h
      | some is =>
        rw [hg, hr] at h
        simp only [Option.some.injEq] at h
        subst h
        simp only [List.mem_cons, exists_eq_or_imp, hg, Option.some.injEq, ih is hr]
        constructor
        · rintro (h1 | h1)
          · exact Or.inl h1.symm
          · exact Or.inr h1
        · rintro (h1 | h1)
          · exact Or.inl h1.symm
          · exact Or.inr h1

theorem registerQueryTables_of_not_mem (q : Qid) (sig : List Nat) (q2t : Nat → List Qid)
    (t : Nat) (ht : t ∉ sig) : registerQueryTables q sig q2t t = q2t t := by
  induction sig generalizing q2t with
  | nil => rfl
  | cons QR QRT ih =>
    simp only [registerQueryTables]
    rw [ih _ (fun h => ht (List.mem_cons_of_mem _ h))]
    exact Function.update_noteq (fun h => ht (by rw [h]; exact List.mem_cons_self _ _)) _ _

theorem Query.prepare_registry [Inhabited V] (site : Site) (w w1 : World V) (hw : StoreOk w)
    (h : Query.prepare site w = .ok w1) :
    w1.db.query_to_tables =
      if w.st.instance_id site = 0 then
        registerQueryTables (makeQid site.sig) site.sig w.db.query_to_tables
      else w.db.query_to_tables := by
  obtain ⟨db2, c2, hr, rfl⟩ := Query.prepare_eq site w w1 h
  have hq2t : db2.query_to_tables = (Query.init site w).db.query_to_tables := by
    rcases reconcile_cases _ db2 site.sig _ _ c2 (storeOk_Query_init site w hw).remove hr with
      ⟨h1, _⟩ | ⟨h1, _⟩ <;> rw [h1]
  show db2.query_to_tables = _
  rw [hq2t]
  by_cases h0 : w.st.instance_id site = 0
  · rw [if_pos h0, Query.init_of_first site w h0]
  · rw [if_neg h0, Query.init_of_evaluated site w h0]

theorem Reachable.registryOk [Inhabited V] {allowed : Site → Prop} {w : World V}
    (h : Reachable allowed w) : RegistryOk w.db := by
  induction h with
  | init => intro t q hq; cases hq
  | set w t id v _ ih =>
    intro t1 q hq
    have hq1 : q ∈ (w.db.Set t id v).query_to_tables t1 := hq
    rw [Set_query_to_tables] at hq1
    exact ih t1 q hq1
  | prepare w w1 site hr _ hp ih =>
    intro t q hq
    rw [Query.prepare_registry site w w1 hr.storeOk hp] at hq
    by_cases h0 : w.st.instance_id site = 0
    · rw [if_pos h0, mem_registerQueryTables] at hq
      rcases hq with hq | ⟨hq, ht⟩
      · exact ih t q hq
      · rw [hq]; exact (testBit_makeQid site.sig t).mpr ht
    · rw [if_neg h0] at hq
      exact ih t q hq
  | enter w _ ih => exact ih
  | leave w _ _ ih => exact ih

theorem nodup_usetInsert {α : Type} [DecidableEq α] (s : List α) (a : α) (h : s.Nodup) :
    (usetInsert s a).Nodup := by
  unfold usetInsert
  by_cases ha : a ∈ s
  · rw [if_pos ha]; exact h
  · rw [if_neg ha]
    exact List.Nodup.append h (List.nodup_singleton a)
      (by
        intro x hx hx1
        rw [List.mem_singleton] at hx1
        exact ha (hx1 ▸ hx))

theorem trackInsert_fst_nodup (id : Nat) (qs : List Qid)
    (maps : (Qid → Option (List Nat)) × (Qid → Option (List Nat)))
    (hnd : ∀ q, (pending maps.1 q).Nodup) :
    ∀ q, (pending (trackInsert id qs maps).1 q).Nodup := by
  induction qs generalizing maps with
  | nil => exact hnd
  | cons a as ih =>
    obtain ⟨ins, rem⟩ := maps
    simp only [trackInsert]
    apply ih
    intro q1
    by_cases h : q1 = a
    · subst h
      simp only [pending, Function.update_same, Option.getD_some]
      exact nodup_usetInsert _ id (hnd q1)
    · simp only [pending, Function.update_noteq h]
      exact hnd q1

theorem trackRemove_eq_swap (id : Nat) (qs : List Qid)
    (ins rem : Qid → Option (List Nat)) :
    trackRemove id qs (ins, rem) =
      ((trackInsert id qs (rem, ins)).2, (trackInsert id qs (rem, ins)).1) := by
  induction qs generalizing ins rem with
  | nil => rfl
  | cons a as ih =>
    simp only [trackRemove, trackInsert]
    exact ih _ _

theorem trackInsert_pending (id : Nat) (qs : List Qid)
    (ins rem : Qid → Option (List Nat))
    (hi : ∀ q, (pending ins q).Nodup) (hr : ∀ q, (pending rem q).Nodup)
    (hd : ∀ q i, i ∈ pending ins q → i ∉ pending rem q) :
    (∀ q, (pending (trackInsert id qs (ins, rem)).1 q).Nodup) ∧
    (∀ q, (pending (trackInsert id qs (ins, rem)).2 q).Nodup) ∧
    (∀ q i, i ∈ pending (trackInsert id qs (ins, rem)).1 q →
      i ∉ pending (trackInsert id qs (ins, rem)).2 q) := by
  refine ⟨trackInsert_fst_nodup id qs (ins, rem) hi, trackInsert_snd_nodup id qs (ins, rem) hr,
    fun q i h1 h2 => ?_⟩
  rw [mem_trackInsert_fst] at h1
  rw [mem_trackInsert_snd id qs (ins, rem) hr] at h2
  rcases h1 with h1 | h1
  · exact hd q i h1 h2.1
  · exact h2.2 h1

theorem reconcileInsert_pending [Inhabited V] (db db1 : DbTables V) (sig : List Nat) (q : Qid)
    (c c1 : List (CacheRow V)) (h : reconcileInsert db sig q c = .ok (db1, c1)) :
    db1.query_remove = db.query_remove ∧
      ∀ q1, pending db1.query_insert q1 = pending db.query_insert q1 ∨
        pending db1.query_insert q1 = [] := by
  rcases (reconcileInsert_spec db db1 sig q c c1 h).1 with h1 | h1
  · rw [h1]; exact ⟨rfl, fun _ => Or.inl rfl⟩
  · rw [h1]
    refine ⟨rfl, fun q1 => ?_⟩
    by_cases hq : q1 = q
    · subst hq
      right
      simp only [pending, Function.update_same, Option.getD_some]
    · left
      simp only [pending, Function.update_noteq hq]

theorem reconcileRemove_pending (db db1 : DbTables V) (q : Qid) (c c1 : List (CacheRow V))
    (h : reconcileRemove db q c = .ok (db1, c1)) :
    db1.query_insert = db.query_insert ∧
      ∀ q1, pending db1.query_remove q1 = pending db.query_remove q1 ∨
        pending db1.query_remove q1 = [] := by
  unfold reconcileRemove at h
  cases hq : db.query_remove q with
  | none =>
    rw [hq] at h
    simp only [Except.ok.injEq, Prod.mk.injEq] at h
    rw [← h.1]; exact ⟨rfl, fun _ => Or.inl rfl⟩
  | some l =>
    rw [hq] at h
    dsimp only at h
    by_cases hl : l.isEmpty = true
    · rw [if_pos hl] at h
      simp only [Except.ok.injEq, Prod.mk.injEq] at h
      rw [← h.1]; exact ⟨rfl, fun _ => Or.inl rfl⟩
    · rw [if_neg hl] at h
      cases hd : (if c.isEmpty = true then (Except.ok c : Except Fault (List (CacheRow V)))
          else removeDrain l c) with
      | error e => rw [hd] at h; cases h
      | ok c2 =>
        rw [hd] at h
        simp only [Except.ok.injEq, Prod.mk.injEq] at h
        rw [← h.1]
        refine ⟨rfl, fun q1 => ?_⟩
        by_cases hq1 : q1 = q
        · subst hq1
          right
          simp only [pending, Function.update_same, Option.getD_some]
        · left
          simp only [pending, Function.update_noteq hq1]

theorem reconcile_pending [Inhabited V] (db db2 : DbTables V) (sig : List Nat) (q : Qid)
    (c c2 : List (CacheRow V)) (h : reconcile db sig q c = .ok (db2, c2)) :
    ∀ q1, (pending db2.query_insert q1 = pending db.query_insert q1 ∨
        pending db2.query_insert q1 = []) ∧
      (pending db2.query_remove q1 = pending db.query_remove q1 ∨
        pending db2.query_remove q1 = []) := by
  unfold reconcile at h
  by_cases hs : db.query_stack = 0
  · rw [if_pos hs] at h
    cases hi : reconcileInsert db sig q c with
    | error e => rw [hi] at h; cases h
    | ok r =>
      obtain ⟨db1, c1⟩ := r
      rw [hi] at h
      dsimp only at h
      obtain ⟨h1, h2⟩ := reconcileInsert_pending db db1 sig q c c1 hi
      obtain ⟨h3, h4⟩ := reconcileRemove_pending db1 db2 q c1 c2 h
      intro q1
      rw [h3, ← h1]
      exact ⟨h2 q1, h4 q1⟩
  · rw [if_neg hs] at h
    simp only [Except.ok.injEq, Prod.mk.injEq] at h
    rw [← h.1]
    exact fun _ => ⟨Or.inl rfl, Or.inl rfl⟩

theorem Query_stepClosed [Inhabited V] (allowed : Site → Prop) (P : World V → Prop)
    (hP : StepClosed allowed P) (site : Site) (hsite : allowed site)
    (f : CacheRow V → World V → Except Fault (World V × Bool))
    (hf : ∀ row w w1 b, Reachable allowed w → f row w = .ok (w1, b) →
      Reachable allowed w1 ∧ w1.db.query_stack = w.db.query_stack)
    (hfP : ∀ row w w1 b, Reachable allowed w → P w → f row w = .ok (w1, b) → P w1)
    (w w1 : World V) (vis : List (CacheRow V)) (hw : Reachable allowed w) (hPw : P w)
    (h : Query site f w = .ok (w1, vis)) : P w1 := by
  unfold Query at h
  cases hp : Query.prepare site w with
  | error e => rw [hp] at h; cases h
  | ok wp =>
    rw [hp] at h
    dsimp only at h
    have hrp : Reachable allowed wp := Reachable.prepare w wp site hw hsite hp
    have hPp : P wp := hP.prepare w wp site hw hsite hp hPw
    cases hit : iterate f (fun w => w.cacheOf site)
        (World.cacheOf { wp with db := { wp.db with query_stack := wp.db.query_stack + 1 } }
          site).length 0
        { wp with db := { wp.db with query_stack := wp.db.query_stack + 1 } } with
    | error e => rw [hit] at h; cases h
    | ok r =>
      obtain ⟨w3, vis3⟩ := r
      rw [hit] at h
      simp only [Except.ok.injEq, Prod.mk.injEq] at h
      have := iterate_preserves (fun x => Reachable allowed x ∧ P x) f _
        (fun row x x1 b hx hfx => ⟨(hf row x x1 b hx.1 hfx).1, hfP row x x1 b hx.1 hx.2 hfx⟩)
        _ 0 _ w3 vis3 ⟨Reachable.enter wp hrp, hP.stack wp _ hPp⟩ hit
      rw [← h.1]
      exact hP.stack w3 _ this.2

theorem QueryOnce_stepClosed [Inhabited V] (allowed : Site → Prop) (P : World V → Prop)
    (sig : List Nat) (f : CacheRow V → World V → Except Fault (World V × Bool))
    (hf : ∀ row w w1 b, Reachable allowed w → f row w = .ok (w1, b) →
      Reachable allowed w1 ∧ w1.db.query_stack = w.db.query_stack)
    (hfP : ∀ row w w1 b, Reachable allowed w → P w → f row w = .ok (w1, b) → P w1)
    (w w1 : World V) (vis : List (CacheRow V)) (hw : Reachable allowed w) (hPw : P w)
    (h : QueryOnce sig f w = .ok (w1, vis)) : P w1 := by
  unfold QueryOnce at h
  exact (iterate_preserves (fun x => Reachable allowed x ∧ P x) f _
    (fun row x x1 b hx hfx => ⟨(hf row x x1 b hx.1 hfx).1, hfP row x x1 b hx.1 hx.2 hfx⟩)
    _ 0 _ w1 vis ⟨hw, hPw⟩ h).2

theorem Prog.exec_stepClosed [Inhabited V] (allowed : Site → Prop) (P : World V → Prop)
    (hP : StepClosed allowed P) (p : Prog V) :
    ∀ (w w1 : World V) (b : Bool), p.SitesIn allowed → Reachable allowed w → P w →
      p.exec w = .ok (w1, b) → P w1 := by
  induction p with
  | ret b0 =>
    intro w w1 b _ _ hPw h
    simp only [Prog.exec, Except.ok.injEq, Prod.mk.injEq] at h
    rw [← h.1]; exact hPw
  | set t id v k ih =>
    intro w w1 b hp hw hPw h
    simp only [Prog.exec] at h
    exact ih _ w1 b hp (Reachable.set w t id v hw) (hP.set w t id v hw hPw) h
  | query site fn k ihfn ihk =>
    intro w w1 b hp hw hPw h
    simp only [Prog.exec] at h
    cases hq : Query site (fun row w1 => (fn row).exec w1) w with
    | error e => rw [hq] at h; cases h
    | ok r =>
      obtain ⟨w2, vis⟩ := r
      rw [hq] at h
      dsimp only at h
      have hfr : ∀ row x x1 b1, Reachable allowed x → (fn row).exec x = .ok (x1, b1) →
          Reachable allowed x1 ∧ x1.db.query_stack = x.db.query_stack :=
        fun row x x1 b1 => Prog.exec_reachable allowed (fn row) x x1 b1 (hp.2.1 row)
      have h1 := (Query_reachable allowed site hp.1 _ hfr w w2 vis hw hq).1
      have h2 := Query_stepClosed allowed P hP site hp.1 _ hfr
        (fun row x x1 b1 hx hPx => ihfn row x x1 b1 (hp.2.1 row) hx hPx) w w2 vis hw hPw hq
      exact ihk w2 w1 b hp.2.2 h1 h2 h
  | queryOnce sig fn k ihfn ihk =>
    intro w w1 b hp hw hPw h
    simp only [Prog.exec] at h
    cases hq : QueryOnce sig (fun row w1 => (fn row).exec w1) w with
    | error e => rw [hq] at h; cases h
    | ok r =>
      obtain ⟨w2, vis⟩ := r
      rw [hq] at h
      dsimp only at h
      have hfr : ∀ row x x1 b1, Reachable allowed x → (fn row).exec x = .ok (x1, b1) →
          Reachable allowed x1 ∧ x1.db.query_stack = x.db.query_stack :=
        fun row x x1 b1 => Prog.exec_reachable allowed (fn row) x x1 b1 (hp.1 row)
      have h1 := (QueryOnce_reachable allowed sig _ hfr w w2 vis hw hq).1
      have h2 := QueryOnce_stepClosed allowed P sig _ hfr
        (fun row x x1 b1 hx hPx => ihfn row x x1 b1 (hp.1 row) hx hPx) w w2 vis hw hPw hq
      exact ihk w2 w1 b hp.2 h1 h2 h

theorem grows_refl (w : World V) : Grows w w :=
  ⟨fun _ r hr => ⟨r, hr, rfl⟩, fun _ _ r hr => ⟨r, hr, rfl⟩⟩

theorem grows_trans {w w1 w2 : World V} (h1 : Grows w w1) (h2 : Grows w1 w2) : Grows w w2 := by
  constructor
  · intro t r hr
    obtain ⟨r1, hr1, he1⟩ := h1.1 t r hr
    obtain ⟨r2, hr2, he2⟩ := h2.1 t r1 hr1
    exact ⟨r2, hr2, by rw [he2, he1]⟩
  · intro sig i r hr
    obtain ⟨r1, hr1, he1⟩ := h1.2 sig i r hr
    obtain ⟨r2, hr2, he2⟩ := h2.2 sig i r1 hr1
    exact ⟨r2, hr2, by rw [he2, he1]⟩

theorem grows_set [Inhabited V] (w : World V) (hw : TablesSorted w.db) (t id : Nat) (v : V) :
    Grows w { w with db := w.db.Set t id v } := by
  refine ⟨fun t1 r hr => ?_, fun _ _ r hr => ⟨r, hr, rfl⟩⟩
  show ∃ r1 ∈ ((w.db.Set t id v).m_tables t1).rows, r1.1 = r.1
  rw [Set_m_tables]
  by_cases ht : t1 = t
  · subst ht
    rw [Function.update_same, Table.set_rows]
    by_cases hid : r.1 = id
    · exact ⟨(id, v), (mem_upsert id v _ (hw t1) _).mpr (Or.inl rfl), hid.symm⟩
    · exact ⟨r, (mem_upsert id v _ (hw t1) _).mpr (Or.inr ⟨hr, hid⟩), rfl⟩
  · rw [Function.update_noteq ht]
    exact ⟨r, hr, rfl⟩

theorem reconcile_keeps_ids [Inhabited V] (db db2 : DbTables V) (sig : List Nat) (q : Qid)
    (c c2 : List (CacheRow V)) (hr : ∀ q, pending db.query_remove q = [])
    (hs : StrictAsc c) (hw : RowsWidth sig.length c) (hj : Joinable db sig c)
    (h : reconcile db sig q c = .ok (db2, c2)) :
    ∀ r ∈ c, ∃ r1 ∈ c2, r1.1 = r.1 := by
  intro r hrc
  rcases (reconcile_spec db db2 sig q c c2 hr h).2.2 with h1 | h1
  · rw [h1.1]; exact ⟨r, hrc, rfl⟩
  · obtain ⟨_, _, _, _, hmem⟩ := insertDrain_of_ok db sig _ c c2 hs hw hj h1.2.2.2
    by_cases hp : r.1 ∈ pending db.query_insert q
    · have hsome := hj r hrc
      cases hjr : joinRow db sig r.1 with
      | none => rw [hjr] at hsome; cases hsome
      | some vs => exact ⟨(r.1, vs), (hmem (r.1, vs)).mpr (Or.inl ⟨hp, hjr⟩), rfl⟩
    · exact ⟨r, (hmem r).mpr (Or.inr ⟨hp, hrc⟩), rfl⟩

theorem grows_prepare [Inhabited V] (site : Site) (w w1 : World V) (hw : StoreOk w)
    (h : Query.prepare site w = .ok w1) : Grows w w1 := by
  have hw0 : StoreOk (Query.init site w) := storeOk_Query_init site w hw
  obtain ⟨db2, c2, hrec, hw1⟩ := Query.prepare_eq site w w1 h
  constructor
  · intro t r hr
    rw [(Query.prepare_db_frame site w w1 hw h).1]
    exact ⟨r, hr, rfl⟩
  · intro sig i r hr
    have h0 : ∃ r0 ∈ (Query.init site w).st.cache_rows sig i, r0.1 = r.1 := by
      by_cases hfirst : w.st.instance_id site = 0
      · rw [Query.init_of_first site w hfirst]
        show ∃ r0 ∈ setSlot w.st.cache_rows site.sig w.st.s_instances _ sig i, r0.1 = r.1
        refine setSlot_cases (fun c => ∃ r0 ∈ c, r0.1 = r.1) _ _ _ _ sig i
          (fun hsig hi => ?_) ⟨r, hr, rfl⟩
        rw [hw.statics.fresh sig i (by rw [hi])] at hr
        exact (List.not_mem_nil _ hr).elim
      · rw [Query.init_of_evaluated site w hfirst]
        exact ⟨r, hr, rfl⟩
    obtain ⟨r0, hr0, he0⟩ := h0
    rw [hw1]
    show ∃ r1 ∈ setSlot (Query.init site w).st.cache_rows site.sig
      ((Query.init site w).st.instance_id site) c2 sig i, r1.1 = r.1
    refine setSlot_cases (fun c => ∃ r1 ∈ c, r1.1 = r.1) _ _ _ _ sig i
      (fun hsig hi => ?_) ⟨r0, hr0, he0⟩
    subst hsig hi
    obtain ⟨r1, hr1, he1⟩ := reconcile_keeps_ids _ db2 _ _ _ c2 hw0.remove
      (hw0.sorted _ _) (hw0.width _ _) (hw0.joinable _ _) hrec r0 hr0
    exact ⟨r1, hr1, by rw [he1, he0]⟩

theorem grows_stepClosed [Inhabited V] (allowed : Site → Prop) (w0 : World V) :
    StepClosed allowed (fun x => Grows w0 x) where
  set := fun w t id v hw hg => grows_trans hg (grows_set w hw.storeOk.tables t id v)
  prepare := fun w w1 site hw _ hp hg =>
    grows_trans hg (grows_prepare site w w1 hw.storeOk hp)
  stack := fun _ _ hg => hg

theorem iterate_congr [Inhabited V] (P : World V → Prop)
    (f g : CacheRow V → World V → Except Fault (World V × Bool))
    (rowsOf : World V → List (CacheRow V))
    (hfg : ∀ row w, P w → g row w = f row w)
    (hf : ∀ row w w1 b, P w → f row w = .ok (w1, b) → P w1) :
    ∀ n i w, P w → iterate g rowsOf n i w = iterate f rowsOf n i w := by
  intro n
  induction n with
  | zero => intro i w _; rfl
  | succ n ih =>
    intro i w hPw
    simp only [iterate]
    cases hrow : (rowsOf w)[i]? with
    | none => rfl
    | some row =>
      dsimp only
      rw [hfg row w hPw]
      cases hfr : f row w with
      | error e => rfl
      | ok r =>
        obtain ⟨w2, b⟩ := r
        dsimp only
        rw [ih (i + 1) w2 (hf row w w2 b hPw hfr)]

theorem Query_guarded [Inhabited V] (allowed : Site → Prop) (site : Site) (hsite : allowed site)
    (f : CacheRow V → World V → Except Fault (World V × Bool))
    (hf : ∀ row w w1 b, Reachable allowed w → f row w = .ok (w1, b) →
      Reachable allowed w1 ∧ w1.db.query_stack = w.db.query_stack)
    (w : World V) (hw : Reachable allowed w) :
    Query site (fun row x =>
        if x.db.query_stack = w.db.query_stack + 1 then f row x else .error .assertFailed) w =
      Query site f w := by
  unfold Query
  cases hp : Query.prepare site w with
  | error e => rfl
  | ok wp =>
    dsimp only
    have hrp : Reachable allowed wp := Reachable.prepare w wp site hw hsite hp
    have hsp := (Query.prepare_db_frame site w wp hw.storeOk hp).2.1
    rw [iterate_congr (fun x => Reachable allowed x ∧ x.db.query_stack = w.db.query_stack + 1)
      f _ (fun w => w.cacheOf site) (fun row x hx => if_pos hx.2)
      (fun row x x1 b hx hfx => by
        obtain ⟨h1, h2⟩ := hf row x x1 b hx.1 hfx
        exact ⟨h1, by rw [h2, hx.2]⟩)
      _ 0 _ ⟨Reachable.enter wp hrp, by show wp.db.query_stack + 1 = _; rw [hsp]⟩]

theorem insertStep_cases [Inhabited V] (db : DbTables V) (sig : List Nat)
    (cache : List (CacheRow V)) (id : Nat) (hs : StrictAsc cache)
    (hw : RowsWidth sig.length cache) (hj : Joinable db sig cache) :
    insertStep db sig cache id = .error .pastTheEnd ∨
      ∃ cache1, insertStep db sig cache id = .ok cache1 ∧ StrictAsc cache1 ∧
        RowsWidth sig.length cache1 ∧ Joinable db sig cache1 := by
  by_cases hb : ∃ r ∈ cache, id ≤ r.1
  · obtain ⟨c1, h1, h2, h3, h4, _⟩ := insertStep_ok db sig cache id hs hw hj hb
    exact Or.inr ⟨c1, h1, h2, h3, h4⟩
  · left
    apply insertStep_pastTheEnd
    intro r hr
    by_contra hc
    exact hb ⟨r, hr, by omega⟩

theorem insertDrain_cases [Inhabited V] (db : DbTables V) (sig : List Nat) (ids : List Nat) :
    ∀ (cache : List (CacheRow V)), StrictAsc cache → RowsWidth sig.length cache →
      Joinable db sig cache →
      insertDrain db sig ids cache = .error .pastTheEnd ∨
        ∃ cache1, insertDrain db sig ids cache = .ok cache1 := by
  induction ids with
  | nil => intro cache _ _ _; exact Or.inr ⟨cache, rfl⟩
  | cons id ids ih =>
    intro cache hs hw hj
    simp only [insertDrain]
    rcases insertStep_cases db sig cache id hs hw hj with h | ⟨c1, h1, h2, h3, h4⟩
    · rw [h]; exact Or.inl rfl
    · rw [h1]; exact ih c1 h2 h3 h4

theorem reconcile_error [Inhabited V] (db : DbTables V) (sig : List Nat) (q : Qid)
    (c : List (CacheRow V)) (hr : ∀ q, pending db.query_remove q = [])
    (hs : StrictAsc c) (hw : RowsWidth sig.length c) (hj : Joinable db sig c) (e : Fault)
    (h : reconcile db sig q c = .error e) : e = .pastTheEnd := by
  by_cases hst : db.query_stack = 0
  · rw [reconcile_top db sig q c hst (hr q)] at h
    unfold reconcileInsert at h
    cases hq : db.query_insert q with
    | none => rw [hq] at h; cases h
    | some l =>
      rw [hq] at h
      dsimp only at h
      by_cases hl : l.isEmpty = true
      · rw [if_pos hl] at h; cases h
      · rw [if_neg hl] at h
        by_cases hc : c.isEmpty = true
        · rw [if_pos hc] at h; cases h
        · rw [if_neg hc] at h
          rcases insertDrain_cases db sig l c hs hw hj with hd | ⟨c1, hd⟩
          · rw [hd] at h
            simp only [Except.error.injEq] at h
            exact h.symm
          · rw [hd] at h; cases h
  · rw [reconcile_nested db sig q c hst] at h; cases h

theorem Query.prepare_error [Inhabited V] (site : Site) (w : World V) (hw : StoreOk w)
    (e : Fault) (h : Query.prepare site w = .error e) : e = .pastTheEnd := by
  have hw0 : StoreOk (Query.init site w) := storeOk_Query_init site w hw
  unfold Query.prepare at h
  dsimp only at h
  cases hrec : reconcile (Query.init site w).db site.sig (makeQid site.sig)
      ((Query.init site w).cacheOf site) with
  | error e1 =>
    rw [hrec] at h
    simp only [Except.error.injEq] at h
    rw [← h]
    exact reconcile_error _ _ _ _ hw0.remove (hw0.sorted _ _) (hw0.width _ _)
      (hw0.joinable _ _) e1 hrec
  | ok r => rw [hrec] at h; cases h

theorem iterate_error [Inhabited V] (P : World V → Prop)
    (f : CacheRow V → World V → Except Fault (World V × Bool))
    (rowsOf : World V → List (CacheRow V))
    (hf : ∀ row w w1 b, P w → f row w = .ok (w1, b) → P w1)
    (he : ∀ row w e, P w → f row w = .error e → e = .pastTheEnd) :
    ∀ n i w e, P w → iterate f rowsOf n i w = .error e → e = .pastTheEnd := by
  intro n
  induction n with
  | zero => intro i w e _ h; simp only [iterate] at h; cases h
  | succ n ih =>
    intro i w e hPw h
    simp only [iterate] at h
    cases hrow : (rowsOf w)[i]? with
    | none =>
      rw [hrow] at h
      simp only [Except.error.injEq] at h
      exact h.symm
    | some row =>
      rw [hrow] at h
      dsimp only at h
      cases hfr : f row w with
      | error e1 =>
        rw [hfr] at h
        simp only [Except.error.injEq] at h
        rw [← h]
        exact he row w e1 hPw hfr
      | ok r =>
        obtain ⟨w2, b⟩ := r
        rw [hfr] at h
        dsimp only at h
        cases b with
        | false => simp only [Bool.false_eq_true, if_false] at h; cases h
        | true =>
          simp only [if_true] at h
          cases hit : iterate f rowsOf n (i + 1) w2 with
          | error e2 =>
            rw [hit] at h
            simp only [Except.error.injEq] at h
            rw [← h]
            exact ih (i + 1) w2 e2 (hf row w w2 true hPw hfr) hit
          | ok r2 => rw [hit] at h; cases h

theorem Prog.exec_error [Inhabited V] (allowed : Site → Prop) (p : Prog V) :
    ∀ (w : World V) (e : Fault), p.SitesIn allowed → Reachable allowed w →
      p.exec w = .error e → e = .pastTheEnd := by
  induction p with
  | ret b0 => intro w e _ _ h; simp only [Prog.exec] at h; cases h
  | set t id v k ih =>
    intro w e hp hw h
    simp only [Prog.exec] at h
    exact ih _ e hp (Reachable.set w t id v hw) h
  | query site fn k ihfn ihk =>
    intro w e hp hw h
    simp only [Prog.exec] at h
    have hfr : ∀ row x x1 b1, Reachable allowed x → (fn row).exec x = .ok (x1, b1) →
        Reachable allowed x1 ∧ x1.db.query_stack = x.db.query_stack :=
      fun row x x1 b1 => Prog.exec_reachable allowed (fn row) x x1 b1 (hp.2.1 row)
    cases hq : Query site (fun row w1 => (fn row).exec w1) w with
    | error e1 =>
      rw [hq] at h
      simp only [Except.error.injEq] at h
      rw [← h]
      unfold Query at hq
      cases hpr : Query.prepare site w with
      | error e2 =>
        rw [hpr] at hq
        simp only [Except.error.injEq] at hq
        rw [← hq]
        exact Query.prepare_error site w hw.storeOk e2 hpr
      | ok wp =>
        rw [hpr] at hq
        dsimp only at hq
        have hrp : Reachable allowed wp := Reachable.prepare w wp site hw hp.1 hpr
        cases hit : iterate (fun row w1 => (fn row).exec w1) (fun w => w.cacheOf site)
            (World.cacheOf
              { wp with db := { wp.db with query_stack := wp.db.query_stack + 1 } }
              site).length 0
            { wp with db := { wp.db with query_stack := wp.db.query_stack + 1 } } with
        | error e3 =>
          rw [hit] at hq
          simp only [Except.error.injEq] at hq
          rw [← hq]
          exact iterate_error (fun x => Reachable allowed x) _ _
            (fun row x x1 b hx hfx => (hfr row x x1 b hx hfx).1)
            (fun row x e4 hx hfx => ihfn row x e4 (hp.2.1 row) hx hfx)
            _ 0 _ e3 (Reachable.enter wp hrp) hit
        | ok r => rw [hit] at hq; obtain ⟨w3, vis3⟩ := r; cases hq
    | ok r =>
      obtain ⟨w2, vis⟩ := r
      rw [hq] at h
      dsimp only at h
      exact ihk w2 e hp.2.2 (Query_reachable allowed site hp.1 _ hfr w w2 vis hw hq).1 h
  | queryOnce sig fn k ihfn ihk =>
    intro w e hp hw h
    simp only [Prog.exec] at h
    have hfr : ∀ row x x1 b1, Reachable allowed x → (fn row).exec x = .ok (x1, b1) →
        Reachable allowed x1 ∧ x1.db.query_stack = x.db.query_stack :=
      fun row x x1 b1 => Prog.exec_reachable allowed (fn row) x x1 b1 (hp.1 row)
    cases hq : QueryOnce sig (fun row w1 => (fn row).exec w1) w with
    | error e1 =>
      rw [hq] at h
      simp only [Except.error.injEq] at h
      rw [← h]
      unfold QueryOnce at hq
      exact iterate_error (fun x => Reachable allowed x) _ _
        (fun row x x1 b hx hfx => (hfr row x x1 b hx hfx).1)
        (fun row x e4 hx hfx => ihfn row x e4 (hp.1 row) hx hfx)
        _ 0 _ e1 hw hq
    | ok r =>
      obtain ⟨w2, vis⟩ := r
      rw [hq] at h
      dsimp only at h
      exact ihk w2 e hp.2 (QueryOnce_reachable allowed sig _ hfr w w2 vis hw hq).1 h

theorem reconcileInsert_nil [Inhabited V] (db : DbTables V) (sig : List Nat) (q : Qid) :
    ∃ db1, reconcileInsert db sig q [] = .ok (db1, []) ∧ db1.m_tables = db.m_tables := by
  unfold reconcileInsert
  cases hq : db.query_insert q with
  | none => exact ⟨db, rfl, rfl⟩
  | some l =>
    dsimp only
    by_cases hl : l.isEmpty = true
    · rw [if_pos hl]; exact ⟨db, rfl, rfl⟩
    · rw [if_neg hl]; exact ⟨_, rfl, rfl⟩

theorem reconcileRemove_nil (db : DbTables V) (q : Qid) :
    ∃ db1, reconcileRemove db q [] = .ok (db1, []) ∧ db1.m_tables = db.m_tables := by
  unfold reconcileRemove
  cases hq : db.query_remove q with
  | none => exact ⟨db, rfl, rfl⟩
  | some l =>
    dsimp only
    by_cases hl : l.isEmpty = true
    · rw [if_pos hl]; exact ⟨db, rfl, rfl⟩
    · rw [if_neg hl]; exact ⟨_, rfl, rfl⟩

theorem reconcile_nil [Inhabited V] (db : DbTables V) (sig : List Nat) (q : Qid) :
    ∃ db2, reconcile db sig q [] = .ok (db2, []) ∧ db2.m_tables = db.m_tables := by
  unfold reconcile
  by_cases hs : db.query_stack = 0
  · rw [if_pos hs]
    obtain ⟨db1, h1, h2⟩ := reconcileInsert_nil db sig q
    obtain ⟨db2, h3, h4⟩ := reconcileRemove_nil db1 q
    rw [h1]
    exact ⟨db2, h3, by rw [h4, h2]⟩
  · rw [if_neg hs]; exact ⟨db, rfl, rfl⟩

theorem Query.prepare_empty_cache [Inhabited V] (site : Site) (w : World V)
    (hev : w.st.instance_id site ≠ 0) (hc : w.cacheOf site = []) :
    ∃ w1, Query.prepare site w = .ok w1 ∧ w1.cacheOf site = [] ∧
      w1.db.m_tables = w.db.m_tables := by
  obtain ⟨db2, h1, h2⟩ := reconcile_nil w.db site.sig (makeQid site.sig)
  unfold Query.prepare
  dsimp only
  rw [Query.init_of_evaluated site w hev, hc, h1]
  exact ⟨_, rfl, setSlot_same _ _ _ _, h2⟩

theorem Query.prepare_isInnerJoin [Inhabited V] (site : Site)
    (w w1 : World V) (hw : Reachable (compatibleWith site) w)
    (hstack : w.db.query_stack = 0) (hp : Query.prepare site w = .ok w1)
    (hne : w1.cacheOf site ≠ []) : IsInnerJoin w.db site.sig (w1.cacheOf site) := by
  have hok := hw.storeOk
  have ht := (Query.prepare_db_frame site w w1 hok hp).1
  have hr1 : Reachable (compatibleWith site) w1 := Reachable.prepare w w1 site hw (Or.inl rfl) hp
  have hev := Query.prepare_evaluated site w w1 hok hp
  have hclear := Query.prepare_pending_cleared site w w1 hok hstack hp
  apply isInnerJoin_of_tables_eq w1.db w.db ht.symm
  refine ⟨hr1.storeOk.sorted _ _, fun id vals => ?_⟩
  rw [← joinRow_eq_some_iff w1.db hr1.storeOk.tables]
  exact (Reachable.siteInv site hr1).agree hev hne (id, vals)
    (by rw [hclear]; exact List.not_mem_nil _)

theorem Query_refines_QueryOnce [Inhabited V] (site : Site) (hsig : site.sig ≠ [])
    (p : CacheRow V → Bool) (w w1 : World V) (vis : List (CacheRow V))
    (hw : Reachable (compatibleWith site) w) (hstack : w.db.query_stack = 0)
    (hq : Query site (pureFn p) w = .ok (w1, vis)) (hne : w1.cacheOf site ≠ []) :
    QueryOnce site.sig (pureFn p) w = .ok (w, vis) := by
  obtain ⟨hp, hvis⟩ := Query_pure_inv site p w w1 vis hq
  have h1 := Query.prepare_isInnerJoin site w w1 hw hstack hp hne
  have h2 := fill_isInnerJoin w.db hw.storeOk.tables site.sig hsig
  have heq : w1.cacheOf site = fill w.db 0 site.sig [] :=
    strictAsc_ext h1.1 h2.1 (fun x => by
      obtain ⟨id, vals⟩ := x
      rw [h1.2 id vals, h2.2 id vals])
  rw [QueryOnce_pure, hvis, heq]

theorem lower_bound_le_length {α : Type} (less : α → Bool) (v : List α) :
    lower_bound less v ≤ v.length := by
  induction v with
  | nil => exact Nat.le_refl _
  | cons a as ih =>
    simp only [lower_bound]
    by_cases h : less a = true
    · rw [if_pos h, List.length_cons]; omega
    · rw [if_neg h]; exact Nat.zero_le _

theorem lower_bound_before {α : Type} (less : α → Bool) (v : List α) :
    ∀ i x, i < lower_bound less v → v[i]? = some x → less x = true := by
  induction v with
  | nil => intro i x h; simp [lower_bound] at h
  | cons a as ih =>
    intro i x h hx
    simp only [lower_bound] at h
    by_cases ha : less a = true
    · rw [if_pos ha] at h
      cases i with
      | zero =>
        simp only [List.getElem?_cons_zero, Option.some.injEq] at hx
        rw [← hx]; exact ha
      | succ i =>
        rw [List.getElem?_cons_succ] at hx
        exact ih i x (by omega) hx
    · rw [if_neg ha] at h; omega

theorem lower_bound_at {α : Type} (less : α → Bool) (v : List α) :
    ∀ x, v[lower_bound less v]? = some x → less x = false := by
  induction v with
  | nil => intro x h; simp [lower_bound] at h
  | cons a as ih =>
    intro x h
    simp only [lower_bound] at h
    by_cases ha : less a = true
    · rw [if_pos ha, List.getElem?_cons_succ] at h
      exact ih x h
    · rw [if_neg ha] at h
      simp only [List.getElem?_cons_zero, Option.some.injEq] at h
      rw [← h]
      simpa using ha

theorem lower_bound.bisect_eq {α : Type} (less : α → Bool) (v : List α)
    (hpart : ∀ (i j : Nat) (x y : α), i ≤ j → v[i]? = some x → v[j]? = some y →
      less y = true →
      less x = true) :
    ∀ fuel first len, len ≤ fuel → first + len ≤ v.length →
      first ≤ lower_bound less v → lower_bound less v ≤ first + len →
      lower_bound.bisect less v fuel first len = lower_bound less v := by
  intro fuel
  induction fuel with
  | zero =>
    intro first len h0 _ h1 h2
    simp only [lower_bound.bisect]
    omega
  | succ fuel ih =>
    intro first len hf hlen h1 h2
    simp only [lower_bound.bisect]
    by_cases h0 : len = 0
    · rw [if_pos h0]; omega
    · rw [if_neg h0]
      have hmid : first + len / 2 < v.length := by
        have := Nat.div_lt_self (Nat.pos_of_ne_zero h0) (by decide : 1 < 2)
        omega
      rw [List.getElem?_eq_getElem hmid]
      dsimp only
      have hget : v[first + len / 2]? = some v[first + len / 2] :=
        List.getElem?_eq_getElem hmid
      have hhalf : len / 2 < len := Nat.div_lt_self (Nat.pos_of_ne_zero h0) (by decide)
      by_cases hx : less v[first + len / 2] = true
      · rw [if_pos hx]
        have hlt : first + len / 2 < lower_bound less v := by
          by_contra hc
          have hle : lower_bound less v ≤ first + len / 2 := by omega
          have hlb : lower_bound less v < v.length := by omega
          have h3 := lower_bound_at less v _ (List.getElem?_eq_getElem hlb)
          have h4 := hpart _ _ _ _ hle (List.getElem?_eq_getElem hlb) hget hx
          rw [h3] at h4
          cases h4
        exact ih _ _ (by omega) (by omega) (by omega) (by omega)
      · rw [if_neg hx]
        have hle : lower_bound less v ≤ first + len / 2 := by
          by_contra hc
          exact hx (lower_bound_before less v _ _ (by omega) hget)
        exact ih _ _ (by omega) (by omega) h1 hle

theorem lower_bound.search_eq {α : Type} (less : α → Bool) (v : List α)
    (hpart : ∀ (i j : Nat) (x y : α), i ≤ j → v[i]? = some x → v[j]? = some y →
      less y = true →
      less x = true) :
    lower_bound.search less v = lower_bound less v :=
  lower_bound.bisect_eq less v hpart v.length 0 v.length (Nat.le_refl _)
    (by omega) (Nat.zero_le _) (by rw [Nat.zero_add]; exact lower_bound_le_length less v)

theorem lower_bound.search_eq_of_strictAsc (id : Nat) (l : List (Nat × β)) (hl : StrictAsc l) :
    lower_bound.search (fun a => decide (a.1 < id)) l =
      lower_bound (fun a => decide (a.1 < id)) l := by
  apply lower_bound.search_eq
  intro i j x y hij hx hy hlt
  rcases Nat.eq_or_lt_of_le hij with h | h
  · subst h
    rw [hx] at hy
    cases hy
    exact hlt
  · have hrel := (List.pairwise_iff_getElem.mp hl) i j
      (by
        have := (List.getElem?_eq_some_iff.mp hx).1
        exact this)
      (List.getElem?_eq_some_iff.mp hy).1 h
    have hxe := (List.getElem?_eq_some_iff.mp hx).2
    have hye := (List.getElem?_eq_some_iff.mp hy).2
    rw [hxe, hye] at hrel
    simp only [decide_eq_true_eq] at hlt ⊢
    omega

theorem Set_id_members_search_example :
    (setAll [(0, 5, Row.Position 0 0), (1, 3, Row.Name "A"), (0, 4, Row.Position 1 1)]
        ({} : DbTables Row)).id_members = [(5, 0), (3, 1), (4, 0)] ∧
    lower_bound.search (fun a => mem_id a (4, 0)) [(5, 0), (3, 1)] = 2 ∧
    lower_bound (fun a => mem_id a (4, 0)) [(5, 0), (3, 1)] = 0 :=
  ⟨rfl, rfl, rfl⟩

end Lemmas

/-! ## The claims -/

section Claims

variable {V : Type}

/-- C2: after any sequence of `Set` calls on a fresh store, the first top-level `Query`
of a signature completes, its cache is the inner join by Id of the current tables
(whatever the order of the writes), and an always-true callback visits exactly the rows
of that cache. -/
theorem first_evaluation_is_inner_join [Inhabited V] (writes : List (Nat × Nat × V))
    (site : Site) (hsig : site.sig ≠ []) :
    ∃ w1, Query.prepare site { db := setAll writes {} } = .ok w1 ∧
      w1.db.m_tables = (setAll writes ({} : DbTables V)).m_tables ∧
      IsInnerJoin (setAll writes ({} : DbTables V)) site.sig (w1.cacheOf site) ∧
      Query site (pureFn (fun _ => true)) { db := setAll writes {} } =
        .ok (w1, w1.cacheOf site) := by
  obtain ⟨hreach, hins, hstack⟩ := setAll_world writes ({} : DbTables V) {} anySite
    Reachable.init (fun _ => rfl)
  obtain ⟨w1, h1, h2, h3, _⟩ := Query.prepare_first site { db := setAll writes {} }
    hreach.storeOk rfl (fun _ => by
      show pending (setAll writes ({} : DbTables V)).query_insert _ = []
      rw [hins]; rfl)
  refine ⟨w1, h1, h3, ?_, ?_⟩
  · rw [h2]
    exact fill_isInnerJoin _ hreach.storeOk.tables site.sig hsig
  · rw [Query_pure site _ _ w1 h1, visitedBy_all _ _ (fun _ _ => rfl)]

/-- Witness of C2: the scenario `Set(1, Position{0,0})`, `Set(1, Name{"A"})`, then the
query over `{Position, Name}` visits exactly the row `(1, {0,0}, "A")`. -/
theorem first_evaluation_is_inner_join_witness :
    (⟨[0, 1], 0⟩ : Site).sig ≠ [] ∧
    (∃ w1, Query.prepare ⟨[0, 1], 0⟩
        { db := setAll [(0, 1, Row.Position 0 0), (1, 1, Row.Name "A")] {} } = .ok w1 ∧
      w1.db.m_tables =
        (setAll [(0, 1, Row.Position 0 0), (1, 1, Row.Name "A")] ({} : DbTables Row)).m_tables ∧
      IsInnerJoin (setAll [(0, 1, Row.Position 0 0), (1, 1, Row.Name "A")] ({} : DbTables Row))
        [0, 1] (w1.cacheOf ⟨[0, 1], 0⟩) ∧
      Query ⟨[0, 1], 0⟩ (pureFn (fun _ => true))
          { db := setAll [(0, 1, Row.Position 0 0), (1, 1, Row.Name "A")] {} } =
        .ok (w1, w1.cacheOf ⟨[0, 1], 0⟩)) ∧
    (Query ⟨[0, 1], 0⟩ (pureFn (fun _ => true))
        { db := setAll [(0, 1, Row.Position 0 0), (1, 1, Row.Name "A")] {} }).map Prod.snd =
      .ok [(1, [Row.Position 0 0, Row.Name "A"])] :=
  ⟨by decide,
   first_evaluation_is_inner_join [(0, 1, Row.Position 0 0), (1, 1, Row.Name "A")]
     ⟨[0, 1], 0⟩ (by decide),
   rfl⟩

/-- C9: a non-first evaluation made while `query_stack` is greater than zero applies no
pending diffs: the reconciliation block returns the store and the cache as they are, and
the whole part of `Query` before the iteration leaves the state (cache, pending-insert
set, pending-remove set and everything else) unchanged. -/
theorem nested_evaluation_applies_no_diffs [Inhabited V] (site : Site) (w : World V)
    (hfirst : w.st.instance_id site ≠ 0) (hstack : 0 < w.db.query_stack) :
    reconcile w.db site.sig (makeQid site.sig) (w.cacheOf site) = .ok (w.db, w.cacheOf site) ∧
      Query.prepare site w = .ok w := by
  have hne : w.db.query_stack ≠ 0 := by omega
  refine ⟨reconcile_nested _ _ _ _ hne, ?_⟩
  unfold Query.prepare
  dsimp only
  rw [Query.init_of_evaluated site w hfirst, reconcile_nested _ _ _ _ hne]
  dsimp only [World.cacheOf]
  rw [setSlot_self]

/-- Witness of C9: inside a callback (`query_stack` is 1) Id 1 is pending for the
evaluated query, and the evaluation leaves cache and pending set as they are. -/
theorem nested_evaluation_applies_no_diffs_witness :
    nestedWorld.st.instance_id positionName ≠ 0 ∧ 0 < nestedWorld.db.query_stack ∧
    pending nestedWorld.db.query_insert (makeQid positionName.sig) = [1] ∧
    (reconcile nestedWorld.db positionName.sig (makeQid positionName.sig)
        (nestedWorld.cacheOf positionName) =
        .ok (nestedWorld.db, nestedWorld.cacheOf positionName) ∧
      Query.prepare positionName nestedWorld = .ok nestedWorld) :=
  ⟨by decide, by decide, rfl,
    nested_evaluation_applies_no_diffs positionName nestedWorld (by decide) (by decide)⟩

/-- C1 fails in the code: the query is first evaluated on the empty store, then entity 1
is written to both tables. The reconciliation of the next top-level evaluation skips the
insert drain because the cache is empty, and clears the pending-insert set all the same:
it completes with an empty cache, which is not the inner join (the join holds the row
of entity 1). That evaluation visits no row and neither does the one after it, while
`QueryOnce` visits the row of entity 1. -/
theorem late_join_never_reaches_cache :
    lateJoinProg.exec {} = .ok (runProg lateJoinProg, true) ∧
    (runProg lateJoinProg).db.query_stack = 0 ∧
    Query.prepare positionName (runProg lateJoinProg) =
      .ok (prepared positionName (runProg lateJoinProg)) ∧
    ¬ IsInnerJoin (prepared positionName (runProg lateJoinProg)).db positionName.sig
        ((prepared positionName (runProg lateJoinProg)).cacheOf positionName) ∧
    (Query positionName (pureFn (fun _ => true)) (runProg lateJoinProg)).map Prod.snd =
      .ok [] ∧
    (Query positionName (pureFn (fun _ => true))
        (prepared positionName (runProg lateJoinProg))).map Prod.snd = .ok [] ∧
    (QueryOnce positionName.sig (pureFn (fun _ => true)) (runProg lateJoinProg)).map
        Prod.snd = .ok [(1, [Row.Position 0 0, Row.Name "A"])] := by
  refine ⟨rfl, rfl, rfl, fun h => ?_, rfl, rfl, rfl⟩
  have hmem := (h.2 1 [Row.Position 0 0, Row.Name "A"]).mpr
    (List.Forall₂.cons (List.mem_singleton.mpr rfl)
      (List.Forall₂.cons (List.mem_singleton.mpr rfl) List.Forall₂.nil))
  exact List.not_mem_nil _ hmem

/-- Where the reconciliation does reach the join: on one store on which the cached
queries evaluated are those of `site` and of sites with another QueryKey, immediately
after the reconciliation phase of a top-level evaluation of `site` that completes, the
cache of `site` is the inner join by Id of the current tables when this is the first
evaluation of `site` or the cache is not empty. -/
theorem cache_equals_join_after_reconciliation [Inhabited V] (site : Site)
    (hsig : site.sig ≠ []) (w w1 : World V) (hw : Reachable (compatibleWith site) w)
    (hstack : w.db.query_stack = 0) (hp : Query.prepare site w = .ok w1)
    (hne : w.st.instance_id site = 0 ∨ w1.cacheOf site ≠ []) :
    IsInnerJoin w1.db site.sig (w1.cacheOf site) := by
  have hok := hw.storeOk
  have hi := Reachable.siteInv site hw
  by_cases h0 : w.st.instance_id site = 0
  · obtain ⟨wf, hf1, hf2, hf3, _⟩ := Query.prepare_first site w hok h0
      (fun _ => (hi.unreg h0).2)
    rw [hp] at hf1
    simp only [Except.ok.injEq] at hf1
    subst hf1
    rw [hf2]
    exact isInnerJoin_of_tables_eq w.db w1.db hf3 _ _ (fill_isInnerJoin w.db hok.tables site.sig hsig)
  · have hne1 := hne.resolve_left h0
    have hr1 : Reachable (compatibleWith site) w1 :=
      Reachable.prepare w w1 site hw (Or.inl rfl) hp
    have hi1 := Reachable.siteInv site hr1
    have hev := Query.prepare_evaluated site w w1 hok hp
    have hclear := Query.prepare_pending_cleared site w w1 hok hstack hp
    refine ⟨hr1.storeOk.sorted _ _, fun id vals => ?_⟩
    rw [← joinRow_eq_some_iff w1.db hr1.storeOk.tables]
    exact hi1.agree hev hne1 (id, vals) (by rw [hclear]; exact List.not_mem_nil _)

/-- An instance of `cache_equals_join_after_reconciliation`: entity 1 joins, the query is
evaluated, the Position of entity 1 is overwritten; the next evaluation leaves the cache
equal to the join. -/
theorem cache_equals_join_after_reconciliation_witness :
    positionName.sig ≠ [] ∧
    Reachable (compatibleWith positionName) (runProg overwriteProg) ∧
    (runProg overwriteProg).db.query_stack = 0 ∧
    Query.prepare positionName (runProg overwriteProg) =
      .ok (prepared positionName (runProg overwriteProg)) ∧
    ((runProg overwriteProg).st.instance_id positionName = 0 ∨
      (prepared positionName (runProg overwriteProg)).cacheOf positionName ≠ []) ∧
    IsInnerJoin (prepared positionName (runProg overwriteProg)).db positionName.sig
      ((prepared positionName (runProg overwriteProg)).cacheOf positionName) :=
  have hreach : Reachable (compatibleWith positionName) (runProg overwriteProg) :=
    (Prog.exec_reachable (compatibleWith positionName) overwriteProg {} _ true
      ⟨Or.inl rfl, fun _ => trivial, trivial⟩ Reachable.init rfl).1
  have hne : (prepared positionName (runProg overwriteProg)).cacheOf positionName ≠ [] :=
    fun h => List.noConfusion h
  ⟨by decide, hreach, rfl, rfl, Or.inr hne,
    cache_equals_join_after_reconciliation positionName (by decide) _ _ hreach rfl rfl
      (Or.inr hne)⟩

/-- C3 fails in the code, in two ways. (1) After the query was first evaluated on the
empty store and entity 1 was then written to both tables, Id 1 is pending, absent from
the cache and has a row in every participating table, yet the next top-level evaluation
completes with no cache row for Id 1: the drain is skipped on an empty cache and the
pending set is cleared. (2) In the scenario of the spec, entity 1 is cached and entity 2
then gets both rows: Id 2 is pending, absent from the cache and complete, and the next
top-level evaluation dereferences the past-the-end result of its search for Id 2. -/
theorem pending_complete_id_is_dropped :
    (runProg lateJoinProg).st.instance_id positionName ≠ 0 ∧
    (runProg lateJoinProg).db.query_stack = 0 ∧
    pending (runProg lateJoinProg).db.query_insert (makeQid positionName.sig) = [1] ∧
    (runProg lateJoinProg).cacheOf positionName = [] ∧
    List.Forall₂ (fun t v => (1, v) ∈ ((runProg lateJoinProg).db.m_tables t).rows)
      positionName.sig [Row.Position 0 0, Row.Name "A"] ∧
    Query.prepare positionName (runProg lateJoinProg) =
      .ok (prepared positionName (runProg lateJoinProg)) ∧
    (prepared positionName (runProg lateJoinProg)).cacheOf positionName = [] ∧
    (runProg appendProg).st.instance_id positionName ≠ 0 ∧
    (runProg appendProg).db.query_stack = 0 ∧
    pending (runProg appendProg).db.query_insert (makeQid positionName.sig) = [2] ∧
    (runProg appendProg).cacheOf positionName = [(1, [Row.Position 0 0, Row.Name "A"])] ∧
    List.Forall₂ (fun t v => (2, v) ∈ ((runProg appendProg).db.m_tables t).rows)
      positionName.sig [Row.Position 5 5, Row.Name "B"] ∧
    Query.prepare positionName (runProg appendProg) = .error .pastTheEnd :=
  ⟨by decide, rfl, rfl, rfl,
    List.Forall₂.cons (List.mem_singleton.mpr rfl)
      (List.Forall₂.cons (List.mem_singleton.mpr rfl) List.Forall₂.nil),
    rfl, rfl, by decide, rfl, rfl, rfl,
    List.Forall₂.cons (List.mem_cons_of_mem _ (List.mem_singleton.mpr rfl))
      (List.Forall₂.cons (List.mem_cons_of_mem _ (List.mem_singleton.mpr rfl))
        List.Forall₂.nil),
    rfl⟩

/-- Where the drain does insert: at a top-level non-first evaluation of a query signature
whose cache is not empty and in which no pending Id is greater than every cached Id, the
reconciliation completes and, for every Id of the pending-insert set that is absent from
the cache and has a row in every participating table, the cache afterwards is strictly
ascending by Id and contains exactly one row for that Id, holding each participating
table's current row value. -/
theorem pending_complete_id_is_inserted [Inhabited V] (site : Site) (w : World V)
    (hw : Reachable anySite w) (hstack : w.db.query_stack = 0)
    (hev : w.st.instance_id site ≠ 0) (hne : w.cacheOf site ≠ [])
    (hb : ∀ i ∈ pending w.db.query_insert (makeQid site.sig),
      ∃ r ∈ w.cacheOf site, i ≤ r.1)
    (id : Nat) (hid : id ∈ pending w.db.query_insert (makeQid site.sig))
    (habs : ∀ r ∈ w.cacheOf site, r.1 ≠ id) (vals : List V)
    (hrows : List.Forall₂ (fun t v => (id, v) ∈ (w.db.m_tables t).rows) site.sig vals) :
    ∃ w1, Query.prepare site w = .ok w1 ∧ w1.db.m_tables = w.db.m_tables ∧
      StrictAsc (w1.cacheOf site) ∧
      ((w.cacheOf site).map Prod.fst).count id = 0 ∧
      ((w1.cacheOf site).map Prod.fst).count id = 1 ∧
      (id, vals) ∈ w1.cacheOf site := by
  have hok := hw.storeOk
  obtain ⟨w1, hp⟩ := Query.prepare_total site w hok hev (fun _ _ => hb)
  have hpend : pending w.db.query_insert (makeQid site.sig) ≠ [] :=
    fun hc => by rw [hc] at hid; exact List.not_mem_nil _ hid
  obtain ⟨htab, hdrain⟩ := Query.prepare_drain site w w1 hok hev hstack hpend hne hp
  obtain ⟨_, hs1, _, _, hmem⟩ := insertDrain_of_ok w.db site.sig _ _ _
    (hok.sorted _ _) (hok.width _ _) (hok.joinable _ _) hdrain
  have hin : (id, vals) ∈ w1.cacheOf site :=
    (hmem (id, vals)).mpr (Or.inl ⟨hid, (joinRow_eq_some_iff w.db hok.tables _ _ _).mpr hrows⟩)
  refine ⟨w1, hp, htab, hs1, ?_, StrictAsc.count_eq_one hs1 hin, hin⟩
  apply List.count_eq_zero_of_not_mem
  intro hc
  obtain ⟨r, hr, hr1⟩ := List.mem_map.mp hc
  exact habs r hr hr1

/-- An instance of `pending_complete_id_is_inserted`: entity 5 joins, the query is
evaluated, then entity 2 gets both rows; the next evaluation inserts the row of entity 2
before that of entity 5. -/
theorem pending_complete_id_is_inserted_witness :
    Reachable anySite (runProg insertProg) ∧
    (runProg insertProg).db.query_stack = 0 ∧
    (runProg insertProg).st.instance_id positionName ≠ 0 ∧
    (runProg insertProg).cacheOf positionName ≠ [] ∧
    (∀ i ∈ pending (runProg insertProg).db.query_insert (makeQid positionName.sig),
      ∃ r ∈ (runProg insertProg).cacheOf positionName, i ≤ r.1) ∧
    2 ∈ pending (runProg insertProg).db.query_insert (makeQid positionName.sig) ∧
    (∀ r ∈ (runProg insertProg).cacheOf positionName, r.1 ≠ 2) ∧
    List.Forall₂ (fun t v => (2, v) ∈ ((runProg insertProg).db.m_tables t).rows)
      positionName.sig [Row.Position 5 5, Row.Name "B"] ∧
    (∃ w1, Query.prepare positionName (runProg insertProg) = .ok w1 ∧
      w1.db.m_tables = (runProg insertProg).db.m_tables ∧
      StrictAsc (w1.cacheOf positionName) ∧
      (((runProg insertProg).cacheOf positionName).map Prod.fst).count 2 = 0 ∧
      ((w1.cacheOf positionName).map Prod.fst).count 2 = 1 ∧
      (2, [Row.Position 5 5, Row.Name "B"]) ∈ w1.cacheOf positionName) ∧
    (prepared positionName (runProg insertProg)).cacheOf positionName =
      [(2, [Row.Position 5 5, Row.Name "B"]), (5, [Row.Position 0 0, Row.Name "A"])] :=
  have hreach : Reachable anySite (runProg insertProg) :=
    (Prog.exec_reachable anySite insertProg {} _ true (Prog.sitesIn_any _)
      Reachable.init rfl).1
  have hcache : (runProg insertProg).cacheOf positionName =
      [(5, [Row.Position 0 0, Row.Name "A"])] := rfl
  have hpend : pending (runProg insertProg).db.query_insert (makeQid positionName.sig) = [2] :=
    rfl
  have hb : ∀ i ∈ pending (runProg insertProg).db.query_insert (makeQid positionName.sig),
      ∃ r ∈ (runProg insertProg).cacheOf positionName, i ≤ r.1 := by
    intro i hi
    rw [hpend] at hi
    rw [hcache]
    exact ⟨_, List.mem_singleton.mpr rfl, by rw [List.mem_singleton.mp hi]; decide⟩
  have hid : 2 ∈ pending (runProg insertProg).db.query_insert (makeQid positionName.sig) := by
    rw [hpend]; exact List.mem_singleton.mpr rfl
  have habs : ∀ r ∈ (runProg insertProg).cacheOf positionName, r.1 ≠ 2 := by
    intro r hr
    rw [hcache] at hr
    rw [List.mem_singleton.mp hr]
    decide
  have hrows : List.Forall₂ (fun t v => (2, v) ∈ ((runProg insertProg).db.m_tables t).rows)
      positionName.sig [Row.Position 5 5, Row.Name "B"] :=
    List.Forall₂.cons (List.mem_cons_self _ _)
      (List.Forall₂.cons (List.mem_cons_self _ _) List.Forall₂.nil)
  ⟨hreach, rfl, by decide, by rw [hcache]; exact fun h => List.noConfusion h, hb, hid, habs,
    hrows,
    pending_complete_id_is_inserted positionName _ hreach rfl (by decide)
      (by rw [hcache]; exact fun h => List.noConfusion h) hb 2 hid habs _ hrows,
    rfl⟩

/-- C4: at a top-level non-first evaluation, for an Id of the pending-insert set that is
already present in the cache: the reconciliation completes whenever no pending Id is
greater than every cached Id, and whenever it completes the cache has exactly one row
for that Id before and after (no row added or removed for it) and the row afterwards
holds each participating table's current row value. -/
theorem pending_cached_id_is_refreshed [Inhabited V] (site : Site) (w : World V)
    (hw : Reachable anySite w) (hstack : w.db.query_stack = 0)
    (hev : w.st.instance_id site ≠ 0)
    (id : Nat) (hid : id ∈ pending w.db.query_insert (makeQid site.sig))
    (hpres : ∃ r ∈ w.cacheOf site, r.1 = id) :
    ((∀ i ∈ pending w.db.query_insert (makeQid site.sig), ∃ r ∈ w.cacheOf site, i ≤ r.1) →
        ∃ w1, Query.prepare site w = .ok w1) ∧
      ∀ w1, Query.prepare site w = .ok w1 →
        w1.db.m_tables = w.db.m_tables ∧
        ((w.cacheOf site).map Prod.fst).count id = 1 ∧
        ((w1.cacheOf site).map Prod.fst).count id = 1 ∧
        ∃ vals, List.Forall₂ (fun t v => (id, v) ∈ (w.db.m_tables t).rows) site.sig vals ∧
          (id, vals) ∈ w1.cacheOf site := by
  have hok := hw.storeOk
  obtain ⟨r, hr, hrid⟩ := hpres
  have hne : w.cacheOf site ≠ [] := fun hc => by rw [hc] at hr; exact List.not_mem_nil _ hr
  have hpend : pending w.db.query_insert (makeQid site.sig) ≠ [] :=
    fun hc => by rw [hc] at hid; exact List.not_mem_nil _ hid
  refine ⟨fun hb => Query.prepare_total site w hok hev (fun _ _ => hb), fun w1 hp => ?_⟩
  obtain ⟨htab, hdrain⟩ := Query.prepare_drain site w w1 hok hev hstack hpend hne hp
  obtain ⟨_, hs1, _, _, hmem⟩ := insertDrain_of_ok w.db site.sig _ _ _
    (hok.sorted _ _) (hok.width _ _) (hok.joinable _ _) hdrain
  obtain ⟨vals, hvals⟩ := Option.isSome_iff_exists.mp (hok.joinable _ _ r hr)
  rw [hrid] at hvals
  have hin : (id, vals) ∈ w1.cacheOf site := (hmem (id, vals)).mpr (Or.inl ⟨hid, hvals⟩)
  have hbefore := StrictAsc.count_eq_one (hok.sorted site.sig (w.st.instance_id site)) hr
  rw [hrid] at hbefore
  exact ⟨htab, hbefore, StrictAsc.count_eq_one hs1 hin, vals,
    (joinRow_eq_some_iff w.db hok.tables _ _ _).mp hvals, hin⟩

/-- Witness of C4: entity 1 joins, the query is evaluated, then `(1, Position{9,9})` is
written; the next evaluation shows Id 1 with `Position{9,9}` and the unchanged Name. -/
theorem pending_cached_id_is_refreshed_witness :
    Reachable anySite (runProg overwriteProg) ∧
    (runProg overwriteProg).db.query_stack = 0 ∧
    (runProg overwriteProg).st.instance_id positionName ≠ 0 ∧
    1 ∈ pending (runProg overwriteProg).db.query_insert (makeQid positionName.sig) ∧
    (∃ r ∈ (runProg overwriteProg).cacheOf positionName, r.1 = 1) ∧
    (((∀ i ∈ pending (runProg overwriteProg).db.query_insert (makeQid positionName.sig),
          ∃ r ∈ (runProg overwriteProg).cacheOf positionName, i ≤ r.1) →
        ∃ w1, Query.prepare positionName (runProg overwriteProg) = .ok w1) ∧
      ∀ w1, Query.prepare positionName (runProg overwriteProg) = .ok w1 →
        w1.db.m_tables = (runProg overwriteProg).db.m_tables ∧
        (((runProg overwriteProg).cacheOf positionName).map Prod.fst).count 1 = 1 ∧
        ((w1.cacheOf positionName).map Prod.fst).count 1 = 1 ∧
        ∃ vals, List.Forall₂
            (fun t v => (1, v) ∈ ((runProg overwriteProg).db.m_tables t).rows)
            positionName.sig vals ∧
          (1, vals) ∈ w1.cacheOf positionName) ∧
    (runProg overwriteProg).cacheOf positionName = [(1, [Row.Position 0 0, Row.Name "A"])] ∧
    Query.prepare positionName (runProg overwriteProg) =
      .ok (prepared positionName (runProg overwriteProg)) ∧
    (prepared positionName (runProg overwriteProg)).cacheOf positionName =
      [(1, [Row.Position 9 9, Row.Name "A"])] :=
  have hreach : Reachable anySite (runProg overwriteProg) :=
    (Prog.exec_reachable anySite overwriteProg {} _ true (Prog.sitesIn_any _)
      Reachable.init rfl).1
  have hid : 1 ∈ pending (runProg overwriteProg).db.query_insert (makeQid positionName.sig) :=
    List.mem_singleton.mpr rfl
  have hpres : ∃ r ∈ (runProg overwriteProg).cacheOf positionName, r.1 = 1 :=
    ⟨(1, [Row.Position 0 0, Row.Name "A"]), List.mem_singleton.mpr rfl, rfl⟩
  ⟨hreach, rfl, by decide, hid, hpres,
    pending_cached_id_is_refreshed positionName _ hreach rfl (by decide) 1 hid hpres,
    rfl, rfl, rfl⟩

/-- C5 (code at the failing input): entity 1 joins, the query is evaluated, then only
`(2, Position{5,5})` is written. Id 2 is pending, absent from the cache and has no Name
row; the next top-level evaluation dereferences the past-the-end position returned by
the search instead of skipping the Id. -/
theorem skipped_id_scenario_faults :
    skipProg.exec {} = .ok (runProg skipProg, true) ∧
    (runProg skipProg).st.instance_id positionName ≠ 0 ∧
    (runProg skipProg).db.query_stack = 0 ∧
    pending (runProg skipProg).db.query_insert (makeQid positionName.sig) = [2] ∧
    (runProg skipProg).cacheOf positionName = [(1, [Row.Position 0 0, Row.Name "A"])] ∧
    ((runProg skipProg).db.m_tables 1).get 2 = none ∧
    isInCache (runProg skipProg).db positionName.sig 2 = false ∧
    Query.prepare positionName (runProg skipProg) = .error .pastTheEnd :=
  ⟨rfl, by decide, rfl, rfl, rfl, rfl, rfl, rfl⟩

/-- C6: in every reachable state every query cache and every one-shot materialization
is strictly ascending by Id, and the rows handed to the callback by `Query` and by
`QueryOnce` are strictly ascending by Id, whatever the callback does. -/
theorem caches_strictly_ascending [Inhabited V] (w : World V) (hw : Reachable anySite w) :
    (∀ sig i, StrictAsc (w.st.cache_rows sig i)) ∧
    (∀ sig, StrictAsc (fill w.db 0 sig [])) ∧
    (∀ site (fn : CacheRow V → Prog V) w1 vis,
      Query site (fun row x => (fn row).exec x) w = .ok (w1, vis) → StrictAsc vis) ∧
    (∀ sig (fn : CacheRow V → Prog V) w1 vis,
      QueryOnce sig (fun row x => (fn row).exec x) w = .ok (w1, vis) → StrictAsc vis) := by
  have hok := hw.storeOk
  refine ⟨hok.sorted, fun sig => (fill_nil_props w.db hok.tables sig).1, ?_, ?_⟩
  · intro site fn w1 vis h
    cases hp : Query.prepare site w with
    | error e =>
      unfold Query at h
      rw [hp] at h
      cases h
    | ok wp =>
      obtain ⟨w4, h4, _, _⟩ := Query_nested anySite site trivial
        (fun row x => (fn row).exec x) (fun row => (fn row).result)
        (fun row x hx hxs => Prog.exec_nested anySite (fn row) x (Prog.sitesIn_any _) hx hxs)
        w wp hw hp
      rw [h4] at h
      simp only [Except.ok.injEq, Prod.mk.injEq] at h
      rw [← h.2]
      exact List.Pairwise.sublist (visitedBy_sublist _ _)
        ((Reachable.prepare w wp site hw trivial hp).storeOk.sorted _ _)
  · intro sig fn w1 vis h
    unfold QueryOnce at h
    have := iterate_const_sublist _ _ _ 0 w w1 vis h
    rw [List.drop_zero] at this
    exact List.Pairwise.sublist this (fill_nil_props w.db hok.tables sig).1

/-- Witness of C6: the state after entity 5 joined, the query was evaluated and entity 2
got both rows. -/
theorem caches_strictly_ascending_witness :
    Reachable anySite (runProg insertProg) ∧
    ((∀ sig i, StrictAsc ((runProg insertProg).st.cache_rows sig i)) ∧
    (∀ sig, StrictAsc (fill (runProg insertProg).db 0 sig [])) ∧
    (∀ site (fn : CacheRow Row → Prog Row) w1 vis,
      Query site (fun row x => (fn row).exec x) (runProg insertProg) = .ok (w1, vis) →
        StrictAsc vis) ∧
    (∀ sig (fn : CacheRow Row → Prog Row) w1 vis,
      QueryOnce sig (fun row x => (fn row).exec x) (runProg insertProg) = .ok (w1, vis) →
        StrictAsc vis)) :=
  have hreach : Reachable anySite (runProg insertProg) :=
    (Prog.exec_reachable anySite insertProg {} _ true (Prog.sitesIn_any _)
      Reachable.init rfl).1
  ⟨hreach, caches_strictly_ascending _ hreach⟩

/-- C7: the short-circuit contract of `Query` and `QueryOnce`. For a callback whose
result on a row is `pr row` and which leaves the cache of the site alone, whatever else
it does: whenever the call completes, the rows the callback was invoked on are the rows
up to and including the first one with a false result, and all rows when no result is
false. With the side-effect-free callback `pr` both calls complete (for `Query`, once
the part before the iteration has). -/
theorem short_circuit_iteration [Inhabited V] (site : Site) (sig : List Nat)
    (f : CacheRow V → World V → Except Fault (World V × Bool)) (pr : CacheRow V → Bool)
    (w wp : World V)
    (hres : ∀ row x x1 b, f row x = .ok (x1, b) →
      b = pr row ∧ x1.cacheOf site = x.cacheOf site)
    (hp : Query.prepare site w = .ok wp) :
    (∀ w1 vis, Query site f w = .ok (w1, vis) → ShortCircuit pr (wp.cacheOf site) vis) ∧
    (∀ w1 vis, QueryOnce sig f w = .ok (w1, vis) →
      ShortCircuit pr (fill w.db 0 sig []) vis) ∧
    (∃ vis, Query site (pureFn pr) w = .ok (wp, vis) ∧
      ShortCircuit pr (wp.cacheOf site) vis) ∧
    (∃ vis, QueryOnce sig (pureFn pr) w = .ok (w, vis) ∧
      ShortCircuit pr (fill w.db 0 sig []) vis) := by
  refine ⟨?_, ?_, ⟨_, Query_pure site pr w wp hp, shortCircuit_visitedBy pr _⟩,
    ⟨_, QueryOnce_pure sig pr w, shortCircuit_visitedBy pr _⟩⟩
  · intro w1 vis h
    unfold Query at h
    rw [hp] at h
    dsimp only at h
    cases hit : iterate f (fun x => x.cacheOf site)
        (World.cacheOf { wp with db := { wp.db with query_stack := wp.db.query_stack + 1 } }
          site).length 0
        { wp with db := { wp.db with query_stack := wp.db.query_stack + 1 } } with
    | error e => rw [hit] at h; cases h
    | ok r =>
      obtain ⟨w3, vis3⟩ := r
      rw [hit] at h
      simp only [Except.ok.injEq, Prod.mk.injEq] at h
      have := iterate_partial (fun x => x.cacheOf site = wp.cacheOf site) f pr
        (fun x => x.cacheOf site) (wp.cacheOf site) (fun _ hx => hx)
        (fun row x x1 b hx hfx => ⟨(hres row x x1 b hfx).1,
          ((hres row x x1 b hfx).2).trans hx⟩)
        (wp.cacheOf site).length 0
        { wp with db := { wp.db with query_stack := wp.db.query_stack + 1 } } w3 vis3 rfl
        (Nat.le_of_eq (Nat.zero_add _)) hit
      rw [← h.2, this]
      simp only [List.drop_zero, List.take_length]
      exact shortCircuit_visitedBy pr _
  · intro w1 vis h
    unfold QueryOnce at h
    have := iterate_partial (fun _ => True) f pr (fun _ => fill w.db 0 sig [])
      (fill w.db 0 sig []) (fun _ _ => rfl)
      (fun row x x1 b _ hfx => ⟨(hres row x x1 b hfx).1, trivial⟩)
      _ 0 w w1 vis trivial (by simp) h
    rw [this]
    simp only [List.drop_zero, List.take_length]
    exact shortCircuit_visitedBy pr _

/-- Witness of C7: after entities 2 and 5 joined, a callback that is false on entity 2
is invoked on the row of entity 2 only. -/
theorem short_circuit_iteration_witness :
    (∀ row (x x1 : World Row) b, pureFn (fun r => decide (r.1 ≠ 2)) row x = .ok (x1, b) →
      b = decide (row.1 ≠ 2) ∧ x1.cacheOf positionName = x.cacheOf positionName) ∧
    Query.prepare positionName (runProg insertProg) =
      .ok (prepared positionName (runProg insertProg)) ∧
    ((∀ w1 vis, Query positionName (pureFn (fun r => decide (r.1 ≠ 2))) (runProg insertProg) =
        .ok (w1, vis) →
      ShortCircuit (fun r => decide (r.1 ≠ 2))
        ((prepared positionName (runProg insertProg)).cacheOf positionName) vis) ∧
    (∀ w1 vis, QueryOnce [0, 1] (pureFn (fun r => decide (r.1 ≠ 2))) (runProg insertProg) =
        .ok (w1, vis) →
      ShortCircuit (fun r => decide (r.1 ≠ 2))
        (fill (runProg insertProg).db 0 [0, 1] []) vis) ∧
    (∃ vis, Query positionName (pureFn (fun r => decide (r.1 ≠ 2))) (runProg insertProg) =
        .ok (prepared positionName (runProg insertProg), vis) ∧
      ShortCircuit (fun r => decide (r.1 ≠ 2))
        ((prepared positionName (runProg insertProg)).cacheOf positionName) vis) ∧
    (∃ vis, QueryOnce [0, 1] (pureFn (fun r => decide (r.1 ≠ 2))) (runProg insertProg) =
        .ok (runProg insertProg, vis) ∧
      ShortCircuit (fun r => decide (r.1 ≠ 2))
        (fill (runProg insertProg).db 0 [0, 1] []) vis)) ∧
    (Query positionName (pureFn (fun r => decide (r.1 ≠ 2))) (runProg insertProg)).map
        Prod.snd = .ok [(2, [Row.Position 5 5, Row.Name "B"])] :=
  have hres : ∀ row (x x1 : World Row) b,
      pureFn (fun r => decide (r.1 ≠ 2)) row x = .ok (x1, b) →
      b = decide (row.1 ≠ 2) ∧ x1.cacheOf positionName = x.cacheOf positionName := by
    intro row x x1 b h
    simp only [pureFn, Except.ok.injEq, Prod.mk.injEq] at h
    exact ⟨h.2.symm, by rw [h.1]⟩
  ⟨hres, rfl,
    short_circuit_iteration positionName [0, 1] _ (fun r => decide (r.1 ≠ 2)) _ _ hres rfl,
    rfl⟩

/-- C8: evaluating the same query site twice in a row with the same side-effect-free
callback and no write in between: once the first evaluation has completed, the second
one completes, leaves the state (the cache included) as the first one left it and
invokes the callback on the same rows in the same order. -/
theorem repeated_evaluation_is_idempotent [Inhabited V] (site : Site)
    (p : CacheRow V → Bool) (w w1 : World V) (vis : List (CacheRow V))
    (hpos : 0 < w.st.s_instances) (h : Query site (pureFn p) w = .ok (w1, vis)) :
    Query site (pureFn p) w1 = .ok (w1, vis) := by
  obtain ⟨hp, hvis⟩ := Query_pure_inv site p w w1 vis h
  rw [Query_pure site p w1 w1 (Query.prepare_idem site w w1 hpos hp), hvis]

/-- Witness of C8: the evaluation after the overwrite of `(1, Position{9,9})`, run
twice. -/
theorem repeated_evaluation_is_idempotent_witness :
    0 < (runProg overwriteProg).st.s_instances ∧
    Query positionName (pureFn (fun _ => true)) (runProg overwriteProg) =
      .ok (prepared positionName (runProg overwriteProg),
        [(1, [Row.Position 9 9, Row.Name "A"])]) ∧
    Query positionName (pureFn (fun _ => true)) (prepared positionName (runProg overwriteProg)) =
      .ok (prepared positionName (runProg overwriteProg),
        [(1, [Row.Position 9 9, Row.Name "A"])]) :=
  ⟨by decide, rfl,
    repeated_evaluation_is_idempotent positionName _ (runProg overwriteProg) _ _
      (by decide) rfl⟩

/-- C10: when the callback of a cached `Query` is client code that writes (`Set`) and
evaluates queries, the call completes once the part before the iteration has, the rows
handed to the callback are rows of the cache as it was when the iteration began, in
order, up to and including the first false result (all of them when no result is
false), that cache is strictly ascending by Id, and after the call every cache vector
that existed when the iteration began is unchanged. `Set` changes no cache. -/
theorem callbacks_do_not_disturb_iteration [Inhabited V] (site : Site)
    (fn : CacheRow V → Prog V) (w wp : World V) (hw : Reachable anySite w)
    (hp : Query.prepare site w = .ok wp) :
    (∀ (x : World V) table id row, ({ x with db := x.db.Set table id row } : World V).st = x.st) ∧
    StrictAsc (wp.cacheOf site) ∧
    ∃ w1, Query site (fun row x => (fn row).exec x) w =
        .ok (w1, visitedBy (fun row => (fn row).result) (wp.cacheOf site)) ∧
      ShortCircuit (fun row => (fn row).result) (wp.cacheOf site)
        (visitedBy (fun row => (fn row).result) (wp.cacheOf site)) ∧
      w1.cacheOf site = wp.cacheOf site ∧
      (∀ sig i, i < wp.st.s_instances → w1.st.cache_rows sig i = wp.st.cache_rows sig i) ∧
      w1.db.query_stack = w.db.query_stack := by
  have hrp : Reachable anySite wp := Reachable.prepare w wp site hw trivial hp
  obtain ⟨w4, h4, _, hs4, hf4⟩ := Query_nested anySite site trivial
    (fun row x => (fn row).exec x) (fun row => (fn row).result)
    (fun row x hx hxs => Prog.exec_nested anySite (fn row) x (Prog.sitesIn_any _) hx hxs)
    w wp hw hp
  refine ⟨fun _ _ _ _ => rfl, hrp.storeOk.sorted _ _, w4, h4, shortCircuit_visitedBy _ _,
    StFrame.cacheOf hf4 hrp.storeOk.statics site
      (Query.prepare_evaluated site w wp hw.storeOk hp),
    hf4.caches, ?_⟩
  rw [hs4]
  exact (Query.prepare_db_frame site w wp hw.storeOk hp).2.1

/-- Witness of C10: after entity 1 joined and the query was evaluated, an evaluation
whose callback writes and re-evaluates the query visits the one cached row with the
values it had, and leaves the cache as it was. -/
theorem callbacks_do_not_disturb_iteration_witness :
    Reachable anySite (runProg overwriteProg) ∧
    Query.prepare positionName (runProg overwriteProg) =
      .ok (prepared positionName (runProg overwriteProg)) ∧
    ((∀ (x : World Row) table id row,
      ({ x with db := x.db.Set table id row } : World Row).st = x.st) ∧
    StrictAsc ((prepared positionName (runProg overwriteProg)).cacheOf positionName) ∧
    ∃ w1, Query positionName (fun row x => (disturbingCallback row).exec x)
          (runProg overwriteProg) =
        .ok (w1, visitedBy (fun row => (disturbingCallback row).result)
          ((prepared positionName (runProg overwriteProg)).cacheOf positionName)) ∧
      ShortCircuit (fun row => (disturbingCallback row).result)
        ((prepared positionName (runProg overwriteProg)).cacheOf positionName)
        (visitedBy (fun row => (disturbingCallback row).result)
          ((prepared positionName (runProg overwriteProg)).cacheOf positionName)) ∧
      w1.cacheOf positionName =
        (prepared positionName (runProg overwriteProg)).cacheOf positionName ∧
      (∀ sig i, i < (prepared positionName (runProg overwriteProg)).st.s_instances →
        w1.st.cache_rows sig i =
          (prepared positionName (runProg overwriteProg)).st.cache_rows sig i) ∧
      w1.db.query_stack = (runProg overwriteProg).db.query_stack) ∧
    (Query positionName (fun row x => (disturbingCallback row).exec x)
        (runProg overwriteProg)).map Prod.snd =
      .ok [(1, [Row.Position 9 9, Row.Name "A"])] :=
  have hreach : Reachable anySite (runProg overwriteProg) :=
    (Prog.exec_reachable anySite overwriteProg {} _ true (Prog.sitesIn_any _)
      Reachable.init rfl).1
  ⟨hreach, rfl, callbacks_do_not_disturb_iteration positionName disturbingCallback _ _
    hreach rfl, rfl⟩

/-- C12: on a store whose tables are sorted, `QueryOnce` with an always-true callback
completes, leaves the state as it is and visits exactly the inner join of the current
tables: it is strictly ascending by Id and holds the row `(id, r1, ..., rn)` exactly when
`(id, rk)` is a row of the `k`-th participating table for every `k`. Caches and pending
sets are arbitrary. -/
theorem queryOnce_visits_inner_join [Inhabited V] (sig : List Nat) (hsig : sig ≠ [])
    (w : World V) (hw : TablesSorted w.db) :
    ∃ vis, QueryOnce sig (pureFn (fun _ => true)) w = .ok (w, vis) ∧
      IsInnerJoin w.db sig vis := by
  refine ⟨fill w.db 0 sig [], ?_, fill_isInnerJoin w.db hw sig hsig⟩
  rw [QueryOnce_pure, visitedBy_all _ _ (fun _ _ => rfl)]

/-- Witness of C12: after entity 5 joined, the query was evaluated and entity 2 got
both rows (so Id 2 is pending and not yet cached), the one-shot join visits both. -/
theorem queryOnce_visits_inner_join_witness :
    positionName.sig ≠ [] ∧ TablesSorted (runProg insertProg).db ∧
    (∃ vis, QueryOnce positionName.sig (pureFn (fun _ => true)) (runProg insertProg) =
        .ok (runProg insertProg, vis) ∧
      IsInnerJoin (runProg insertProg).db positionName.sig vis) ∧
    (QueryOnce positionName.sig (pureFn (fun _ => true)) (runProg insertProg)).map Prod.snd =
      .ok [(2, [Row.Position 5 5, Row.Name "B"]), (5, [Row.Position 0 0, Row.Name "A"])] ∧
    (runProg insertProg).cacheOf positionName = [(5, [Row.Position 0 0, Row.Name "A"])] :=
  have hreach : Reachable anySite (runProg insertProg) :=
    (Prog.exec_reachable anySite insertProg {} _ true (Prog.sitesIn_any _)
      Reachable.init rfl).1
  ⟨by decide, hreach.storeOk.tables,
    queryOnce_visits_inner_join positionName.sig (by decide) _ hreach.storeOk.tables,
    rfl, rfl⟩

/-- C13: `QueryOnce` with a side-effect-free callback completes and returns the state it
was called on: tables, membership index, query registry, pending-insert and
pending-remove sets, caches and `query_stack` are all unchanged. -/
theorem queryOnce_leaves_store_unchanged [Inhabited V] (sig : List Nat)
    (p : CacheRow V → Bool) (w : World V) :
    ∃ vis, QueryOnce sig (pureFn p) w = .ok (w, vis) :=
  ⟨_, QueryOnce_pure sig p w⟩

/-- C14: after `Set(id, row)` on table `T`, for every QueryKey registered as depending on
`T` the Id is in the key's pending-insert set and not in its pending-remove set, and
the pending sets of every QueryKey not registered on `T` are the same as before. (The
pending-remove lists represent sets: they hold no Id twice.) -/
theorem set_notifies_registered_queries [Inhabited V] (db : DbTables V) (T id : Nat) (row : V)
    (hnd : ∀ q, (pending db.query_remove q).Nodup) :
    (∀ q ∈ db.query_to_tables T,
      id ∈ pending (db.Set T id row).query_insert q ∧
        id ∉ pending (db.Set T id row).query_remove q) ∧
    (∀ q, q ∉ db.query_to_tables T →
      (db.Set T id row).query_insert q = db.query_insert q ∧
        (db.Set T id row).query_remove q = db.query_remove q) := by
  rw [Set_query_insert, Set_query_remove]
  refine ⟨fun q hq => ⟨?_, ?_⟩, fun q hq => ⟨?_, ?_⟩⟩
  · exact (mem_trackInsert_fst id _ _ q id).mpr (Or.inr ⟨hq, rfl⟩)
  · intro hc
    exact ((mem_trackInsert_snd id _ (db.query_insert, db.query_remove) hnd q id).mp hc).2
      ⟨hq, rfl⟩
  · exact trackInsert_fst_of_not_mem id _ _ q hq
  · exact trackInsert_snd_of_not_mem id _ _ q hq

/-- Witness of C14: in the state after entity 1 joined and the query over tables 0 and
1 was evaluated, a write of entity 7 to table 0 makes Id 7 pending for the query's key
and leaves the sets of the other keys alone. -/
theorem set_notifies_registered_queries_witness :
    (∀ q, (pending (runProg overwriteProg).db.query_remove q).Nodup) ∧
    ((∀ q ∈ (runProg overwriteProg).db.query_to_tables 0,
      7 ∈ pending ((runProg overwriteProg).db.Set 0 7 (Row.Position 1 1)).query_insert q ∧
        7 ∉ pending ((runProg overwriteProg).db.Set 0 7 (Row.Position 1 1)).query_remove q) ∧
    (∀ q, q ∉ (runProg overwriteProg).db.query_to_tables 0 →
      ((runProg overwriteProg).db.Set 0 7 (Row.Position 1 1)).query_insert q =
          (runProg overwriteProg).db.query_insert q ∧
        ((runProg overwriteProg).db.Set 0 7 (Row.Position 1 1)).query_remove q =
          (runProg overwriteProg).db.query_remove q)) ∧
    (runProg overwriteProg).db.query_to_tables 0 = [makeQid positionName.sig] ∧
    pending ((runProg overwriteProg).db.Set 0 7 (Row.Position 1 1)).query_insert
      (makeQid positionName.sig) = [1, 7] :=
  have hreach : Reachable anySite (runProg overwriteProg) :=
    (Prog.exec_reachable anySite overwriteProg {} _ true (Prog.sitesIn_any _)
      Reachable.init rfl).1
  have hnd : ∀ q, (pending (runProg overwriteProg).db.query_remove q).Nodup :=
    fun q => by rw [hreach.storeOk.remove q]; exact List.nodup_nil
  ⟨hnd, set_notifies_registered_queries _ 0 7 (Row.Position 1 1) hnd, rfl, rfl⟩

/-- C15: a table built from the empty table by any sequence of `set` calls is the finite
map with last-write-wins: `get id` is the row of the most recent `set` for `id`, and it
is the absent result exactly when `id` was never set. (`get` is a function of the table
and the Id alone: `Table::get` only reads.) -/
theorem table_is_last_write_wins_map (writes : List (Nat × V)) (id : Nat) :
    (Table.build writes).get id = lastWrite writes id ∧
      ((Table.build writes).get id = none ↔ ∀ wr ∈ writes, wr.1 ≠ id) := by
  have h := (foldl_set_spec writes ({} : Table V) List.Pairwise.nil).2 id
  have hget : (Table.build writes).get id = lastWrite writes id := by
    unfold Table.build
    rw [h]
    cases lastWrite writes id <;> rfl
  exact ⟨hget, by rw [hget]; exact lastWrite_eq_none_iff writes id⟩

/-- C16: diff application is idempotent. On a well-formed cache (strictly ascending,
rows of the signature's width, every cached Id present in every participating table)
and with the tables unchanged, applying the insert drain for a pending-insert set twice
gives what applying it once gives, fault included; the same holds with the guard that
skips the loop on an empty cache. -/
theorem insert_drain_is_idempotent [Inhabited V] (db : DbTables V) (sig : List Nat)
    (ids : List Nat) (c : List (CacheRow V)) (hs : StrictAsc c)
    (hw : RowsWidth sig.length c) (hj : Joinable db sig c) :
    (insertDrain db sig ids c).bind (insertDrain db sig ids) = insertDrain db sig ids c ∧
    (guardedInsertDrain db sig ids c).bind (guardedInsertDrain db sig ids) =
      guardedInsertDrain db sig ids c := by
  constructor
  · cases h : insertDrain db sig ids c with
    | error e => rfl
    | ok c1 => exact insertDrain_twice db sig ids c c1 hs hw hj h
  · unfold guardedInsertDrain
    cases c with
    | nil => rfl
    | cons r rs =>
      simp only [List.isEmpty_cons, Bool.false_eq_true, if_false]
      cases h : insertDrain db sig ids (r :: rs) with
      | error e => rfl
      | ok c1 =>
        show (if c1.isEmpty = true then Except.ok c1 else insertDrain db sig ids c1) = _
        rw [insertDrain_twice db sig ids _ c1 hs hw hj h]
        simp

/-- Witness of C16: the cache and pending set of the insert scenario (cache `[5]`,
pending `[2]`, entity 2 complete): one drain and two drains both give the rows of
entities 2 and 5. -/
theorem insert_drain_is_idempotent_witness :
    StrictAsc ((runProg insertProg).cacheOf positionName) ∧
    RowsWidth positionName.sig.length ((runProg insertProg).cacheOf positionName) ∧
    Joinable (runProg insertProg).db positionName.sig
      ((runProg insertProg).cacheOf positionName) ∧
    ((insertDrain (runProg insertProg).db positionName.sig [2]
          ((runProg insertProg).cacheOf positionName)).bind
        (insertDrain (runProg insertProg).db positionName.sig [2]) =
      insertDrain (runProg insertProg).db positionName.sig [2]
        ((runProg insertProg).cacheOf positionName) ∧
    (guardedInsertDrain (runProg insertProg).db positionName.sig [2]
          ((runProg insertProg).cacheOf positionName)).bind
        (guardedInsertDrain (runProg insertProg).db positionName.sig [2]) =
      guardedInsertDrain (runProg insertProg).db positionName.sig [2]
        ((runProg insertProg).cacheOf positionName)) ∧
    insertDrain (runProg insertProg).db positionName.sig [2]
        ((runProg insertProg).cacheOf positionName) =
      .ok [(2, [Row.Position 5 5, Row.Name "B"]), (5, [Row.Position 0 0, Row.Name "A"])] :=
  have hreach : Reachable anySite (runProg insertProg) :=
    (Prog.exec_reachable anySite insertProg {} _ true (Prog.sitesIn_any _)
      Reachable.init rfl).1
  ⟨hreach.storeOk.sorted _ _, hreach.storeOk.width _ _, hreach.storeOk.joinable _ _,
    insert_drain_is_idempotent _ positionName.sig [2] _ (hreach.storeOk.sorted _ _)
      (hreach.storeOk.width _ _) (hreach.storeOk.joinable _ _),
    rfl⟩

/-- C17: `Table::set` preserves the table invariant: rows strictly ascending by Id stay
strictly ascending by Id; setting an Id that is present keeps the number of rows and
setting an absent Id adds exactly one row. Hence every table built from the empty table
is strictly ascending by Id. -/
theorem table_set_preserves_invariant (t : Table V) (id : Nat) (row : V)
    (ht : StrictAsc t.rows) :
    StrictAsc (t.set id row).rows ∧
    ((∃ r ∈ t.rows, r.1 = id) → (t.set id row).rows.length = t.rows.length) ∧
    ((∀ r ∈ t.rows, r.1 ≠ id) → (t.set id row).rows.length = t.rows.length + 1) ∧
    (∀ writes : List (Nat × V), StrictAsc (Table.build writes).rows) := by
  refine ⟨Table.set_sorted t ht id row, fun h => ?_, fun h => ?_, fun writes => ?_⟩
  · rw [Table.set_rows]
    exact length_upsert_of_mem id row t.rows ht h
  · rw [Table.set_rows]
    exact length_upsert_of_not_mem id row t.rows h
  · exact (foldl_set_spec writes ({} : Table V) List.Pairwise.nil).1

/-- Witness of C17: setting Id 3 in the table with rows for Ids 1 and 5. -/
theorem table_set_preserves_invariant_witness :
    StrictAsc (Table.build [(5, Row.Name "e"), (1, Row.Name "a")]).rows ∧
    (StrictAsc ((Table.build [(5, Row.Name "e"), (1, Row.Name "a")]).set 3
        (Row.Name "c")).rows ∧
    ((∃ r ∈ (Table.build [(5, Row.Name "e"), (1, Row.Name "a")]).rows, r.1 = 3) →
      ((Table.build [(5, Row.Name "e"), (1, Row.Name "a")]).set 3 (Row.Name "c")).rows.length =
        (Table.build [(5, Row.Name "e"), (1, Row.Name "a")]).rows.length) ∧
    ((∀ r ∈ (Table.build [(5, Row.Name "e"), (1, Row.Name "a")]).rows, r.1 ≠ 3) →
      ((Table.build [(5, Row.Name "e"), (1, Row.Name "a")]).set 3 (Row.Name "c")).rows.length =
        (Table.build [(5, Row.Name "e"), (1, Row.Name "a")]).rows.length + 1) ∧
    (∀ writes : List (Nat × Row), StrictAsc (Table.build writes).rows)) ∧
    ((Table.build [(5, Row.Name "e"), (1, Row.Name "a")]).set 3 (Row.Name "c")).rows =
      [(1, Row.Name "a"), (3, Row.Name "c"), (5, Row.Name "e")] :=
  have hs : StrictAsc (Table.build [(5, Row.Name "e"), (1, Row.Name "a")]).rows :=
    (foldl_set_spec _ ({} : Table Row) List.Pairwise.nil).1
  ⟨hs, table_set_preserves_invariant _ 3 (Row.Name "c") hs, rfl⟩

/-- C19: after the first evaluation of a query site, its QueryKey is in the dependency
list of every table index the signature references and the dependency list of every
other table is unchanged; a later write to a participating table then puts the Id into
the key's pending-insert set, and a write to another table leaves that set alone. -/
theorem first_evaluation_registers_query [Inhabited V] (site : Site) (w w1 : World V)
    (hw : Reachable anySite w) (hfirst : w.st.instance_id site = 0)
    (hp : Query.prepare site w = .ok w1) :
    (∀ t ∈ site.sig, makeQid site.sig ∈ w1.db.query_to_tables t) ∧
    (∀ t, t ∉ site.sig → w1.db.query_to_tables t = w.db.query_to_tables t) ∧
    (∀ t ∈ site.sig, ∀ id row,
      id ∈ pending (w1.db.Set t id row).query_insert (makeQid site.sig)) ∧
    (∀ t, t ∉ site.sig → ∀ id row,
      (w1.db.Set t id row).query_insert (makeQid site.sig) =
        w1.db.query_insert (makeQid site.sig)) := by
  have hq := Query.prepare_registry site w w1 hw.storeOk hp
  rw [if_pos hfirst] at hq
  have hreg : ∀ t ∈ site.sig, makeQid site.sig ∈ w1.db.query_to_tables t := by
    intro t ht
    rw [hq, mem_registerQueryTables]
    exact Or.inr ⟨rfl, ht⟩
  have hr1 : Reachable anySite w1 := Reachable.prepare w w1 site hw trivial hp
  refine ⟨hreg, fun t ht => ?_, fun t ht id row => ?_, fun t ht id row => ?_⟩
  · rw [hq]
    exact registerQueryTables_of_not_mem _ _ _ t ht
  · rw [Set_query_insert]
    exact (mem_trackInsert_fst id _ _ _ id).mpr (Or.inr ⟨hreg t ht, rfl⟩)
  · rw [Set_query_insert]
    apply trackInsert_fst_of_not_mem
    intro hc
    exact ht ((testBit_makeQid site.sig t).mp (hr1.registryOk t _ hc))

/-- Witness of C19: the first evaluation of the query over tables 0 and 1 on the store
holding entity 1. -/
theorem first_evaluation_registers_query_witness :
    Reachable anySite ({ db := setAll [(0, 1, Row.Position 0 0), (1, 1, Row.Name "A")] {} } :
      World Row) ∧
    ({ db := setAll [(0, 1, Row.Position 0 0), (1, 1, Row.Name "A")] {} } :
      World Row).st.instance_id positionName = 0 ∧
    Query.prepare positionName
        { db := setAll [(0, 1, Row.Position 0 0), (1, 1, Row.Name "A")] {} } =
      .ok (prepared positionName
        { db := setAll [(0, 1, Row.Position 0 0), (1, 1, Row.Name "A")] {} }) ∧
    ((∀ t ∈ positionName.sig, makeQid positionName.sig ∈
        (prepared positionName
          { db := setAll [(0, 1, Row.Position 0 0), (1, 1, Row.Name "A")] {} }).db.query_to_tables
          t) ∧
    (∀ t, t ∉ positionName.sig →
      (prepared positionName
          { db := setAll [(0, 1, Row.Position 0 0), (1, 1, Row.Name "A")] {} }).db.query_to_tables
          t =
        ({ db := setAll [(0, 1, Row.Position 0 0), (1, 1, Row.Name "A")] {} } :
          World Row).db.query_to_tables t) ∧
    (∀ t ∈ positionName.sig, ∀ id row,
      id ∈ pending ((prepared positionName
          { db := setAll [(0, 1, Row.Position 0 0), (1, 1, Row.Name "A")] {} }).db.Set
            t id row).query_insert (makeQid positionName.sig)) ∧
    (∀ t, t ∉ positionName.sig → ∀ id row,
      ((prepared positionName
          { db := setAll [(0, 1, Row.Position 0 0), (1, 1, Row.Name "A")] {} }).db.Set
            t id row).query_insert (makeQid positionName.sig) =
        (prepared positionName
          { db := setAll [(0, 1, Row.Position 0 0), (1, 1, Row.Name "A")] {} }).db.query_insert
          (makeQid positionName.sig))) :=
  have hreach : Reachable anySite
      ({ db := setAll [(0, 1, Row.Position 0 0), (1, 1, Row.Name "A")] {} } : World Row) :=
    (setAll_world [(0, 1, Row.Position 0 0), (1, 1, Row.Name "A")] ({} : DbTables Row) {}
      anySite Reachable.init (fun _ => rfl)).1
  ⟨hreach, rfl, rfl, first_evaluation_registers_query positionName _ _ hreach rfl rfl⟩

/-- C20: for declared row types that are pairwise distinct and a signature whose types
are all declared, `makeQid` returns the bit-vector in which bit `i` is set exactly when
the `i`-th declared row type occurs in the signature (no bit beyond the declared types
is set); two signatures with the same types, in any order and multiplicity, have the
same key. -/
theorem makeQid_sets_bits_of_signature {Ty : Type} [DecidableEq Ty] (schema sig : List Ty)
    (idxs : List Nat) (hnd : schema.Nodup) (hres : resolveSig schema sig = some idxs) :
    (∀ i (hi : i < schema.length),
      (makeQid idxs).testBit i = true ↔ schema.get ⟨i, hi⟩ ∈ sig) ∧
    (∀ i, schema.length ≤ i → (makeQid idxs).testBit i = false) ∧
    (∀ sig1 idxs1, resolveSig schema sig1 = some idxs1 → (∀ T, T ∈ sig1 ↔ T ∈ sig) →
      makeQid idxs1 = makeQid idxs) := by
  have key : ∀ (s : List Ty) (is : List Nat), resolveSig schema s = some is → ∀ i,
      ((makeQid is).testBit i = true ↔ ∃ T ∈ s, schema[i]? = some T) := by
    intro s is hs i
    rw [testBit_makeQid, mem_resolveSig schema s is hs]
    constructor
    · rintro ⟨T, hT, hg⟩
      obtain ⟨k, hk, hget⟩ := (GetTableIndex.go_spec schema hnd T 0 i).mp hg
      have : i = k := by omega
      subst this
      exact ⟨T, hT, hget⟩
    · rintro ⟨T, hT, hget⟩
      exact ⟨T, hT, (GetTableIndex.go_spec schema hnd T 0 i).mpr ⟨i, by omega, hget⟩⟩
  refine ⟨fun i hi => ?_, fun i hi => ?_, fun sig1 idxs1 h1 hsame => ?_⟩
  · rw [key sig idxs hres i, List.getElem?_eq_getElem hi]
    constructor
    · rintro ⟨T, hT, hget⟩
      simp only [Option.some.injEq] at hget
      rw [List.get_eq_getElem, hget]
      exact hT
    · intro h
      exact ⟨_, h, rfl⟩
  · cases hb : (makeQid idxs).testBit i with
    | false => rfl
    | true =>
      obtain ⟨T, _, hget⟩ := (key sig idxs hres i).mp hb
      rw [List.getElem?_eq_none hi] at hget
      cases hget
  · apply Nat.eq_of_testBit_eq
    intro i
    rw [Bool.eq_iff_iff, key sig1 idxs1 h1 i, key sig idxs hres i]
    constructor
    · rintro ⟨T, hT, hget⟩
      exact ⟨T, (hsame T).mp hT, hget⟩
    · rintro ⟨T, hT, hget⟩
      exact ⟨T, (hsame T).mpr hT, hget⟩

/-- Witness of C20: three declared row types (tags 10, 20, 30) and the signature
`<30, 10, 30>`: the key has bits 0 and 2 set, like that of `<10, 30>`. -/
theorem makeQid_sets_bits_of_signature_witness :
    ([10, 20, 30] : List Nat).Nodup ∧
    resolveSig [10, 20, 30] [30, 10, 30] = some [2, 0, 2] ∧
    ((∀ i (hi : i < ([10, 20, 30] : List Nat).length),
      (makeQid [2, 0, 2]).testBit i = true ↔
        ([10, 20, 30] : List Nat).get ⟨i, hi⟩ ∈ ([30, 10, 30] : List Nat)) ∧
    (∀ i, ([10, 20, 30] : List Nat).length ≤ i → (makeQid [2, 0, 2]).testBit i = false) ∧
    (∀ sig1 idxs1, resolveSig [10, 20, 30] sig1 = some idxs1 →
      (∀ T, T ∈ sig1 ↔ T ∈ ([30, 10, 30] : List Nat)) →
      makeQid idxs1 = makeQid [2, 0, 2])) ∧
    makeQid [2, 0, 2] = 5 ∧ makeQid [0, 2] = 5 :=
  ⟨by decide, rfl,
    makeQid_sets_bits_of_signature [10, 20, 30] [30, 10, 30] [2, 0, 2] (by decide) rfl,
    rfl, rfl⟩

/-- C11 fails in the code: `instance_id` is a static of the member function `Query` and
the caches are a static map of `getCacheRows`, both shared by every store of the class.
Store A holds entity 1 and evaluates the query; store B, a second instance holding
entity 2, then evaluates the same instantiation: it is not a first run, so B is handed
the cache of A (the row of entity 1) instead of its own inner join (the row of
entity 2), and the query is never registered with B. Evaluated without A's earlier
evaluation, the same call on B visits the row of entity 2. -/
theorem second_store_visits_first_stores_cache :
    storeAProg.exec {} = .ok (runProg storeAProg, true) ∧
    (Query positionName (pureFn (fun _ => true)) storeB).map Prod.snd =
      .ok [(1, [Row.Position 0 0, Row.Name "A"])] ∧
    IsInnerJoin storeB.db positionName.sig [(2, [Row.Position 5 5, Row.Name "B"])] ∧
    (Query positionName (pureFn (fun _ => true)) { db := storeB.db }).map Prod.snd =
      .ok [(2, [Row.Position 5 5, Row.Name "B"])] ∧
    Query.prepare positionName storeB = .ok (prepared positionName storeB) ∧
    (∀ t, (prepared positionName storeB).db.query_to_tables t = []) := by
  refine ⟨rfl, rfl, ?_, rfl, rfl, fun _ => rfl⟩
  have hsorted : TablesSorted storeB.db :=
    (setAll_world [(0, 2, Row.Position 5 5), (1, 2, Row.Name "B")] ({} : DbTables Row) {}
      anySite Reachable.init (fun _ => rfl)).1.storeOk.tables
  exact fill_isInnerJoin storeB.db hsorted positionName.sig (by decide)

/-- C18 fails in the code: the comparator `mem_id` of `Set` is not the lexicographic
order (it lacks the test that the Ids are equal before comparing the table indices).
On a store with two tables, `Set` of Id 5 in table 0 followed by `Set` of Id 3 in
table 1 searches the one-element index `[(5, 0)]`, finds `(5, 0)` less than `(3, 1)`
and appends: the index is `[(5, 0), (3, 1)]`, which is not sorted by
(Id, table-index). -/
theorem id_members_not_sorted :
    (setAll [(0, 5, Row.Position 0 0)] {}).id_members = [(5, 0)] ∧
    mem_id (5, 0) (3, 1) = true ∧
    (setAll [(0, 5, Row.Position 0 0), (1, 3, Row.Name "A")] {}).id_members =
      [(5, 0), (3, 1)] ∧
    ¬ MembersSorted
        (setAll [(0, 5, Row.Position 0 0), (1, 3, Row.Name "A")] {}).id_members := by
  refine ⟨rfl, rfl, rfl, ?_⟩
  rw [show (setAll [(0, 5, Row.Position 0 0), (1, 3, Row.Name "A")] {}).id_members =
    [(5, 0), (3, 1)] from rfl]
  unfold MembersSorted
  decide

/-- C21: the pending-insert and pending-remove sets of every QueryKey are disjoint on
the fresh store, and from any state in which they are disjoint (the pending lists
holding no Id twice, as sets do) they are disjoint after `queryTrackInsertForId`, after
`queryTrackRemoveForId`, after `Set`, and after the reconciliation block of `Query`
whenever it completes. -/
theorem pending_sets_stay_disjoint [Inhabited V] (db : DbTables V) (hs : PendingSets db)
    (hd : PendingDisjoint db) :
    (PendingSets ({} : DbTables V) ∧ PendingDisjoint ({} : DbTables V)) ∧
    (∀ id table, PendingSets (queryTrackInsertForId db id table) ∧
      PendingDisjoint (queryTrackInsertForId db id table)) ∧
    (∀ id table, PendingSets (queryTrackRemoveForId db id table) ∧
      PendingDisjoint (queryTrackRemoveForId db id table)) ∧
    (∀ table id row, PendingSets (db.Set table id row) ∧
      PendingDisjoint (db.Set table id row)) ∧
    (∀ sig q c db2 c2, reconcile db sig q c = .ok (db2, c2) →
      PendingSets db2 ∧ PendingDisjoint db2) := by
  have hi : ∀ q, (pending db.query_insert q).Nodup := fun q => (hs q).1
  have hr : ∀ q, (pending db.query_remove q).Nodup := fun q => (hs q).2
  refine ⟨⟨fun _ => ⟨List.nodup_nil, List.nodup_nil⟩, fun _ _ h => (List.not_mem_nil _ h).elim⟩,
    fun id table => ?_, fun id table => ?_, fun table id row => ?_,
    fun sig q c db2 c2 h => ?_⟩
  · obtain ⟨h1, h2, h3⟩ :=
      trackInsert_pending id (db.query_to_tables table) db.query_insert db.query_remove hi hr hd
    exact ⟨fun q => ⟨h1 q, h2 q⟩, h3⟩
  · obtain ⟨h1, h2, h3⟩ :=
      trackInsert_pending id (db.query_to_tables table) db.query_remove db.query_insert hr hi
        (fun q i h1 h2 => hd q i h2 h1)
    have he : (queryTrackRemoveForId db id table).query_insert =
          (trackInsert id (db.query_to_tables table) (db.query_remove, db.query_insert)).2 ∧
        (queryTrackRemoveForId db id table).query_remove =
          (trackInsert id (db.query_to_tables table) (db.query_remove, db.query_insert)).1 := by
      unfold queryTrackRemoveForId
      rw [trackRemove_eq_swap]
      exact ⟨rfl, rfl⟩
    constructor
    · intro q; rw [he.1, he.2]; exact ⟨h2 q, h1 q⟩
    · intro q i hq hq1
      rw [he.1] at hq
      rw [he.2] at hq1
      exact h3 q i hq1 hq
  · obtain ⟨h1, h2, h3⟩ :=
      trackInsert_pending id (db.query_to_tables table) db.query_insert db.query_remove hi hr hd
    constructor
    · intro q; rw [Set_query_insert, Set_query_remove]; exact ⟨h1 q, h2 q⟩
    · intro q i hq
      rw [Set_query_insert] at hq
      rw [Set_query_remove]
      exact h3 q i hq
  · have hp := reconcile_pending db db2 sig q c c2 h
    constructor
    · intro q1
      obtain ⟨ha, hb⟩ := hp q1
      constructor
      · rcases ha with ha | ha <;> rw [ha]
        · exact hi q1
        · exact List.nodup_nil
      · rcases hb with hb | hb <;> rw [hb]
        · exact hr q1
        · exact List.nodup_nil
    · intro q1 i h1 h2
      obtain ⟨ha, hb⟩ := hp q1
      rcases ha with ha | ha
      · rcases hb with hb | hb
        · rw [ha] at h1; rw [hb] at h2; exact hd q1 i h1 h2
        · rw [hb] at h2; exact List.not_mem_nil _ h2
      · rw [ha] at h1; exact List.not_mem_nil _ h1

/-- Witness of C21: on a state in which Id 1 is pending for insert and Id 2 for remove,
`queryTrackRemoveForId` of Id 1 moves it to the pending-remove set and
`queryTrackInsertForId` of Id 2 moves it to the pending-insert set. -/
theorem pending_sets_stay_disjoint_witness :
    PendingSets pendingExample ∧ PendingDisjoint pendingExample ∧
    pending (queryTrackRemoveForId pendingExample 1 0).query_insert 3 = [] ∧
    pending (queryTrackRemoveForId pendingExample 1 0).query_remove 3 = [2, 1] ∧
    pending (queryTrackInsertForId pendingExample 2 0).query_insert 3 = [1, 2] ∧
    pending (queryTrackInsertForId pendingExample 2 0).query_remove 3 = [] ∧
    ((PendingSets ({} : DbTables Row) ∧ PendingDisjoint ({} : DbTables Row)) ∧
    (∀ id table, PendingSets (queryTrackInsertForId pendingExample id table) ∧
      PendingDisjoint (queryTrackInsertForId pendingExample id table)) ∧
    (∀ id table, PendingSets (queryTrackRemoveForId pendingExample id table) ∧
      PendingDisjoint (queryTrackRemoveForId pendingExample id table)) ∧
    (∀ table id row, PendingSets (pendingExample.Set table id row) ∧
      PendingDisjoint (pendingExample.Set table id row)) ∧
    (∀ sig q c db2 c2, reconcile pendingExample sig q c = .ok (db2, c2) →
      PendingSets db2 ∧ PendingDisjoint db2)) :=
  have hs : PendingSets pendingExample := fun q => by
    by_cases h : q = 3 <;> simp [pending, pendingExample, h]
  have hd : PendingDisjoint pendingExample := fun q i => by
    by_cases h : q = 3 <;> simp [pending, pendingExample, h]
    intro h1 h2
    omega
  ⟨hs, hd, rfl, rfl, rfl, rfl, pending_sets_stay_disjoint pendingExample hs hd⟩

/-- C22: in every state reachable on a store by `Set`, `Query` and `QueryOnce` calls
(top level or inside callbacks) every pending-remove set is empty, and nothing is
removed from then on: after a `Set`, after the reconciliation of a `Query`, and after
any client code that completes, every Id stored in a table is still stored in it and
every Id cached in a cache vector is still cached in it. -/
theorem nothing_is_ever_removed [Inhabited V] (w : World V) (hw : Reachable anySite w) :
    (∀ q, pending w.db.query_remove q = []) ∧
    (∀ t id v, Grows w { w with db := w.db.Set t id v }) ∧
    (∀ site w1, Query.prepare site w = .ok w1 → Grows w w1) ∧
    (∀ (p : Prog V) w1 b, p.exec w = .ok (w1, b) →
      Grows w w1 ∧ ∀ q, pending w1.db.query_remove q = []) := by
  refine ⟨hw.storeOk.remove, fun t id v => grows_set w hw.storeOk.tables t id v,
    fun site w1 h => grows_prepare site w w1 hw.storeOk h, fun p w1 b h => ⟨?_, ?_⟩⟩
  · exact Prog.exec_stepClosed anySite (fun x => Grows w x) (grows_stepClosed anySite w) p
      w w1 b (Prog.sitesIn_any p) hw (grows_refl w) h
  · exact (Prog.exec_reachable anySite p w w1 b (Prog.sitesIn_any p) hw h).1.storeOk.remove

/-- Witness of C22: the state after entity 5 joined, the query was evaluated and entity 2
got both rows; the next evaluation drains Id 2 into the cache, which then holds the Ids
2 and 5. -/
theorem nothing_is_ever_removed_witness :
    Reachable anySite (runProg insertProg) ∧
    ((runProg insertProg).cacheOf positionName).map Prod.fst = [5] ∧
    ((prepared positionName (runProg insertProg)).cacheOf positionName).map Prod.fst = [2, 5] ∧
    ((∀ q, pending (runProg insertProg).db.query_remove q = []) ∧
    (∀ t id v, Grows (runProg insertProg)
      { runProg insertProg with db := (runProg insertProg).db.Set t id v }) ∧
    (∀ site w1, Query.prepare site (runProg insertProg) = .ok w1 →
      Grows (runProg insertProg) w1) ∧
    (∀ (p : Prog Row) w1 b, p.exec (runProg insertProg) = .ok (w1, b) →
      Grows (runProg insertProg) w1 ∧ ∀ q, pending w1.db.query_remove q = [])) :=
  have hreach : Reachable anySite (runProg insertProg) :=
    (Prog.exec_reachable anySite insertProg {} _ true (Prog.sitesIn_any _)
      Reachable.init rfl).1
  ⟨hreach, rfl, rfl, nothing_is_ever_removed _ hreach⟩

/-- C23: immediately after the reconciliation phase of a top-level evaluation
(`query_stack` is 0) of a query signature, the pending-insert set and the
pending-remove set of its QueryKey are both empty. The phase completes on every
reachable state of an evaluated site in which no pending Id is above every Id of a
non-empty cache. -/
theorem reconciliation_clears_pending_sets [Inhabited V] (site : Site) (w : World V)
    (hs : w.db.query_stack = 0) :
    (∀ w1, Query.prepare site w = .ok w1 →
      pending w1.db.query_insert (makeQid site.sig) = [] ∧
        pending w1.db.query_remove (makeQid site.sig) = []) ∧
    (Reachable anySite w → w.st.instance_id site ≠ 0 →
      (w.cacheOf site ≠ [] → ∀ i ∈ pending w.db.query_insert (makeQid site.sig),
        ∃ r ∈ w.cacheOf site, i ≤ r.1) →
      ∃ w1, Query.prepare site w = .ok w1) := by
  constructor
  · intro w1 hp
    obtain ⟨db2, c2, hrec, hw1⟩ := Query.prepare_eq site w w1 hp
    have h0 : (Query.init site w).db.query_stack = 0 := by
      rw [(Query.init_db_frame site w).2.1]; exact hs
    have := (reconcile_after _ db2 _ _ _ c2 hrec).2 h0
    rw [hw1]
    exact this
  · intro hw hev hb
    exact Query.prepare_total site w hw.storeOk hev (fun _ => hb)

/-- Witness of C23: entity 5 is cached and Id 2 is pending; after the reconciliation of
the next top-level evaluation no Id is pending. -/
theorem reconciliation_clears_pending_sets_witness :
    (runProg insertProg).db.query_stack = 0 ∧
    pending (runProg insertProg).db.query_insert (makeQid positionName.sig) = [2] ∧
    Query.prepare positionName (runProg insertProg) =
      .ok (prepared positionName (runProg insertProg)) ∧
    pending (prepared positionName (runProg insertProg)).db.query_insert
      (makeQid positionName.sig) = [] ∧
    ((∀ w1, Query.prepare positionName (runProg insertProg) = .ok w1 →
      pending w1.db.query_insert (makeQid positionName.sig) = [] ∧
        pending w1.db.query_remove (makeQid positionName.sig) = []) ∧
    (Reachable anySite (runProg insertProg) →
      (runProg insertProg).st.instance_id positionName ≠ 0 →
      ((runProg insertProg).cacheOf positionName ≠ [] →
        ∀ i ∈ pending (runProg insertProg).db.query_insert (makeQid positionName.sig),
          ∃ r ∈ (runProg insertProg).cacheOf positionName, i ≤ r.1) →
      ∃ w1, Query.prepare positionName (runProg insertProg) = .ok w1)) :=
  ⟨rfl, rfl, rfl, rfl, reconciliation_clears_pending_sets positionName _ rfl⟩

/-- C24: `Query` with client code as callback returns with `query_stack` equal to its
value at entry, whatever the callback results are; every invocation of the callback
sees the counter one above the value at entry (asserting so in the callback changes
nothing), so inside a callback it is the number of enclosing `Query` iterations; and
client code started on the fresh store ends with the counter at 0. -/
theorem query_restores_query_stack [Inhabited V] (site : Site) (fn : CacheRow V → Prog V)
    (w w1 : World V) (vis : List (CacheRow V)) (hw : Reachable anySite w)
    (h : Query site (fun row x => (fn row).exec x) w = .ok (w1, vis)) :
    w1.db.query_stack = w.db.query_stack ∧
    Query site (fun row x =>
        if x.db.query_stack = w.db.query_stack + 1 then (fn row).exec x
        else .error .assertFailed) w = .ok (w1, vis) ∧
    (∀ (p : Prog V) w2 b, p.exec w = .ok (w2, b) → w2.db.query_stack = w.db.query_stack) ∧
    (∀ (p : Prog V) w2 b, p.exec ({} : World V) = .ok (w2, b) → w2.db.query_stack = 0) := by
  have hfr : ∀ row x x1 b1, Reachable anySite x → (fn row).exec x = .ok (x1, b1) →
      Reachable anySite x1 ∧ x1.db.query_stack = x.db.query_stack :=
    fun row x x1 b1 => Prog.exec_reachable anySite (fn row) x x1 b1 (Prog.sitesIn_any _)
  refine ⟨(Query_reachable anySite site trivial _ hfr w w1 vis hw h).2, ?_,
    fun p w2 b hp => (Prog.exec_reachable anySite p w w2 b (Prog.sitesIn_any p) hw hp).2,
    fun p w2 b hp =>
      (Prog.exec_reachable anySite p {} w2 b (Prog.sitesIn_any p) Reachable.init hp).2⟩
  rw [Query_guarded anySite site trivial _ hfr w hw]
  exact h

/-- Witness of C24: the cache holds the rows of entities 2 and 5 after the
reconciliation; the callback evaluates the query again and returns false on the first
row, so the iteration is cut short after one row, and `query_stack` is 0 again. -/
theorem query_restores_query_stack_witness :
    Reachable anySite (runProg insertProg) ∧
    Query positionName (fun row x => (stoppingCallback row).exec x) (runProg insertProg) =
      .ok ((queried positionName stoppingCallback (runProg insertProg)).1,
        (queried positionName stoppingCallback (runProg insertProg)).2) ∧
    (queried positionName stoppingCallback (runProg insertProg)).2 =
      [(2, [Row.Position 5 5, Row.Name "B"])] ∧
    ((queried positionName stoppingCallback (runProg insertProg)).1.cacheOf positionName).map
      Prod.fst = [2, 5] ∧
    (runProg insertProg).db.query_stack = 0 ∧
    ((queried positionName stoppingCallback (runProg insertProg)).1.db.query_stack =
      (runProg insertProg).db.query_stack ∧
    Query positionName (fun row x =>
        if x.db.query_stack = (runProg insertProg).db.query_stack + 1
        then (stoppingCallback row).exec x else .error .assertFailed) (runProg insertProg) =
      .ok ((queried positionName stoppingCallback (runProg insertProg)).1,
        (queried positionName stoppingCallback (runProg insertProg)).2) ∧
    (∀ (p : Prog Row) w2 b, p.exec (runProg insertProg) = .ok (w2, b) →
      w2.db.query_stack = (runProg insertProg).db.query_stack) ∧
    (∀ (p : Prog Row) w2 b, p.exec ({} : World Row) = .ok (w2, b) →
      w2.db.query_stack = 0)) :=
  have hreach : Reachable anySite (runProg insertProg) :=
    (Prog.exec_reachable anySite insertProg {} _ true (Prog.sitesIn_any _)
      Reachable.init rfl).1
  ⟨hreach, rfl, rfl, rfl, rfl,
    query_restores_query_stack positionName stoppingCallback _ _ _ hreach rfl⟩

/-- C25: in every state reachable on one store by `Set`, `Query` and `QueryOnce` calls,
whenever the insert drain reaches the copy step for an Id (the Id is found in the cache,
or `isInCache` holds for it), every participating table holds a row for that Id; hence
the assertion of `updateCache` never fires: not in a drain of the site's cache over any
pending set, not in the reconciliation, and not in any client code run from that
state. -/
theorem copy_step_assertion_never_fires [Inhabited V] (w : World V)
    (hw : Reachable anySite w) :
    (∀ site id r,
      (w.cacheOf site)[lower_bound (fun (row : CacheRow V) => decide (row.1 < id))
        (w.cacheOf site)]? = some r →
      (r.1 = id ∨ isInCache w.db site.sig id = true) →
      ∀ t ∈ site.sig, ((w.db.m_tables t).get id).isSome) ∧
    (∀ site ids, insertDrain w.db site.sig ids (w.cacheOf site) ≠ .error .assertFailed) ∧
    (∀ site, Query.prepare site w ≠ .error .assertFailed) ∧
    (∀ p : Prog V, p.exec w ≠ .error .assertFailed) := by
  have hok := hw.storeOk
  refine ⟨fun site id r hr hc => ?_, fun site ids h => ?_, fun site h => ?_, fun p h => ?_⟩
  · rw [← joinRow_isSome_iff]
    rcases hc with hc | hc
    · rw [← hc]
      exact hok.joinable _ _ r (lower_bound_some_ge id _ r hr).2
    · rw [← isInCache_eq]; exact hc
  · rcases insertDrain_cases w.db site.sig ids (w.cacheOf site) (hok.sorted _ _)
      (hok.width _ _) (hok.joinable _ _) with h1 | ⟨c1, h1⟩
    · rw [h1] at h; cases h
    · rw [h1] at h; cases h
  · cases Query.prepare_error site w hok _ h
  · cases Prog.exec_error anySite p w _ (Prog.sitesIn_any p) hw h

/-- Witness of C25: entity 1 is cached and its Position was overwritten, so Id 1 is
pending; the reconciliation finds it in the cache and copies the rows of both tables. -/
theorem copy_step_assertion_never_fires_witness :
    Reachable anySite (runProg overwriteProg) ∧
    pending (runProg overwriteProg).db.query_insert (makeQid positionName.sig) = [1] ∧
    (prepared positionName (runProg overwriteProg)).cacheOf positionName =
      [(1, [Row.Position 9 9, Row.Name "A"])] ∧
    ((∀ site id r,
      ((runProg overwriteProg).cacheOf site)[lower_bound
        (fun (row : CacheRow Row) => decide (row.1 < id))
        ((runProg overwriteProg).cacheOf site)]? = some r →
      (r.1 = id ∨ isInCache (runProg overwriteProg).db site.sig id = true) →
      ∀ t ∈ site.sig, (((runProg overwriteProg).db.m_tables t).get id).isSome) ∧
    (∀ site ids, insertDrain (runProg overwriteProg).db site.sig ids
      ((runProg overwriteProg).cacheOf site) ≠ .error .assertFailed) ∧
    (∀ site, Query.prepare site (runProg overwriteProg) ≠ .error .assertFailed) ∧
    (∀ p : Prog Row, p.exec (runProg overwriteProg) ≠ .error .assertFailed)) :=
  have hreach : Reachable anySite (runProg overwriteProg) :=
    (Prog.exec_reachable anySite overwriteProg {} _ true (Prog.sitesIn_any _)
      Reachable.init rfl).1
  ⟨hreach, rfl, rfl, copy_step_assertion_never_fires _ hreach⟩

/-- C26 fails in the code: the insert drain reads `get<0>(*iter)` without testing
`iter` against `end()`. Entity 1 is cached and entity 2 has got both rows, so Id 2 is
pending and complete; the search for Id 2 in the cache `[(1, ...)]` returns the
past-the-end position (index 1 of a vector of length 1), which the drain dereferences:
the reconciliation of the next top-level evaluation faults. -/
theorem drain_dereferences_past_the_end :
    appendProg.exec {} = .ok (runProg appendProg, true) ∧
    (runProg appendProg).db.query_stack = 0 ∧
    (runProg appendProg).cacheOf positionName = [(1, [Row.Position 0 0, Row.Name "A"])] ∧
    pending (runProg appendProg).db.query_insert (makeQid positionName.sig) = [2] ∧
    isInCache (runProg appendProg).db positionName.sig 2 = true ∧
    lower_bound (fun (row : CacheRow Row) => decide (row.1 < 2))
        ((runProg appendProg).cacheOf positionName) =
      ((runProg appendProg).cacheOf positionName).length ∧
    insertStep (runProg appendProg).db positionName.sig
        ((runProg appendProg).cacheOf positionName) 2 = .error .pastTheEnd ∧
    Query.prepare positionName (runProg appendProg) = .error .pastTheEnd :=
  ⟨rfl, rfl, rfl, rfl, rfl, rfl, rfl, rfl⟩

/-- C28 fails in the code, in two ways. (1) Entity 1 is cached and a callback gives
entity 3 both rows: `QueryOnce` visits the rows of entities 1 and 3, while the next
top-level `Query` dereferences the past-the-end result of its search for Id 3 and
faults. (2) Two instantiations of the one signature (two callback types) own two caches
but share the pending-insert set of the key: after the Position of entity 1 is
overwritten the evaluation of the first instantiation drains and clears the set, and the
second instantiation then visits the old row, while `QueryOnce` visits the new one. -/
theorem query_does_not_refine_queryOnce :
    callbackWriteProg.exec {} = .ok (runProg callbackWriteProg, true) ∧
    (runProg callbackWriteProg).db.query_stack = 0 ∧
    (runProg callbackWriteProg).cacheOf positionName =
      [(1, [Row.Position 0 0, Row.Name "A"])] ∧
    (QueryOnce positionName.sig (pureFn (fun _ => true)) (runProg callbackWriteProg)).map
        Prod.snd =
      .ok [(1, [Row.Position 0 0, Row.Name "A"]), (3, [Row.Position 7 7, Row.Name "C"])] ∧
    (Query positionName (pureFn (fun _ => true)) (runProg callbackWriteProg)).map Prod.snd =
      .error .pastTheEnd ∧
    twoSiteProg.exec {} = .ok (runProg twoSiteProg, true) ∧
    (runProg twoSiteProg).db.query_stack = 0 ∧
    (QueryOnce positionNameOther.sig (pureFn (fun _ => true)) (runProg twoSiteProg)).map
        Prod.snd =
      .ok [(1, [Row.Position 9 9, Row.Name "A"])] ∧
    (Query positionNameOther (pureFn (fun _ => true)) (runProg twoSiteProg)).map Prod.snd =
      .ok [(1, [Row.Position 0 0, Row.Name "A"])] :=
  ⟨rfl, rfl, rfl, rfl, rfl, rfl, rfl, rfl, rfl⟩

/-- C29 fails in the code: `<Position, Name>` and `<Name, Position>` have one QueryKey,
hence one pending-insert set, and two caches. Both are evaluated with entity 5 in the
store, then entity 2 gets both rows. The top-level evaluation of `<Position, Name>`
drains Id 2 into its cache and clears the set; the following top-level evaluation of
`<Name, Position>` finds nothing pending and visits Id 5 only, while the inner join
holds the Ids 2 and 5. -/
theorem reordered_signature_misses_writes :
    makeQid positionName.sig = makeQid namePosition.sig ∧
    twoOrderProg.exec {} = .ok (runProg twoOrderProg, true) ∧
    (runProg twoOrderProg).db.query_stack = 0 ∧
    pending (runProg twoOrderProg).db.query_insert (makeQid positionName.sig) = [2] ∧
    Query.prepare positionName (runProg twoOrderProg) =
      .ok (prepared positionName (runProg twoOrderProg)) ∧
    (Query positionName (pureFn (fun _ => true)) (runProg twoOrderProg)).map Prod.snd =
      .ok [(2, [Row.Position 5 5, Row.Name "B"]), (5, [Row.Position 0 0, Row.Name "A"])] ∧
    Query positionName (pureFn (fun _ => true)) (runProg twoOrderProg) =
      .ok (prepared positionName (runProg twoOrderProg),
        (prepared positionName (runProg twoOrderProg)).cacheOf positionName) ∧
    (Query namePosition (pureFn (fun _ => true))
        (prepared positionName (runProg twoOrderProg))).map Prod.snd =
      .ok [(5, [Row.Name "A", Row.Position 0 0])] ∧
    (QueryOnce namePosition.sig (pureFn (fun _ => true))
        (prepared positionName (runProg twoOrderProg))).map Prod.snd =
      .ok [(2, [Row.Name "B", Row.Position 5 5]), (5, [Row.Name "A", Row.Position 0 0])] := by
  refine ⟨rfl, rfl, rfl, rfl, rfl, rfl, ?_, rfl, rfl⟩
  have hp : Query.prepare positionName (runProg twoOrderProg) =
      .ok (prepared positionName (runProg twoOrderProg)) := rfl
  rw [Query_pure positionName (fun _ => true) (runProg twoOrderProg)
    (prepared positionName (runProg twoOrderProg)) hp, visitedBy_all _ _ (fun _ _ => rfl)]

/-- C27: on a non-first top-level evaluation of a query signature whose cache is empty,
the reconciliation completes and applies no pending Id, whatever the pending-insert set
holds: the cache stays empty, the pending-insert set is cleared, the tables are
unchanged, and the evaluation visits no row. -/
theorem empty_cache_drops_pending_ids [Inhabited V] (site : Site) (w : World V)
    (hev : w.st.instance_id site ≠ 0) (hs : w.db.query_stack = 0)
    (hc : w.cacheOf site = []) :
    ∃ w1, Query.prepare site w = .ok w1 ∧ w1.cacheOf site = [] ∧
      pending w1.db.query_insert (makeQid site.sig) = [] ∧
      w1.db.m_tables = w.db.m_tables ∧
      Query site (pureFn (fun _ => true)) w = .ok (w1, []) := by
  obtain ⟨w1, h1, h2, h3⟩ := Query.prepare_empty_cache site w hev hc
  refine ⟨w1, h1, h2, ?_, h3, ?_⟩
  · obtain ⟨db2, c2, hrec, hw1⟩ := Query.prepare_eq site w w1 h1
    have h0 : (Query.init site w).db.query_stack = 0 := by
      rw [(Query.init_db_frame site w).2.1]; exact hs
    have := ((reconcile_after _ db2 _ _ _ c2 hrec).2 h0).1
    rw [hw1]
    exact this
  · rw [Query_pure site (fun _ => true) w w1 h1, h2]
    rfl

/-- Witness of C27: the query was first evaluated on the empty store, then entity 1 got
both rows; Id 1 is pending and has a row in both tables, and the next top-level
evaluation leaves the cache empty. -/
theorem empty_cache_drops_pending_ids_witness :
    (runProg lateJoinProg).st.instance_id positionName ≠ 0 ∧
    (runProg lateJoinProg).db.query_stack = 0 ∧
    (runProg lateJoinProg).cacheOf positionName = [] ∧
    pending (runProg lateJoinProg).db.query_insert (makeQid positionName.sig) = [1] ∧
    isInCache (runProg lateJoinProg).db positionName.sig 1 = true ∧
    ∃ w1, Query.prepare positionName (runProg lateJoinProg) = .ok w1 ∧
      w1.cacheOf positionName = [] ∧
      pending w1.db.query_insert (makeQid positionName.sig) = [] ∧
      w1.db.m_tables = (runProg lateJoinProg).db.m_tables ∧
      Query positionName (pureFn (fun _ => true)) (runProg lateJoinProg) = .ok (w1, []) :=
  ⟨by decide, rfl, rfl, rfl, rfl,
    empty_cache_drops_pending_ids positionName (runProg lateJoinProg) (by decide) rfl rfl⟩

end Claims

end dng

namespace tsvdata

theorem segments_ne_nil (l : List Char) : segments l ≠ [] := by
  induction l with
  | nil => simp [segments]
  | cons c cs ih =>
    simp only [segments]
    split
    · simp
    · split <;> simp

theorem segments_of_not_mem (s : List Char) (h : '\t' ∉ s) : segments s = [s] := by
  induction s with
  | nil => rfl
  | cons c cs ih =>
    have hc : c ≠ '\t' := fun hc => h (by rw [hc]; exact List.mem_cons_self _ _)
    have hcs : '\t' ∉ cs := fun hm => h (List.mem_cons_of_mem _ hm)
    simp only [segments, if_neg hc, ih hcs]

theorem segments_append_tab (s t : List Char) (h : '\t' ∉ s) :
    segments (s ++ '\t' :: t) = s :: segments t := by
  induction s with
  | nil => simp [segments]
  | cons c cs ih =>
    have hc : c ≠ '\t' := fun hc => h (by rw [hc]; exact List.mem_cons_self _ _)
    have hcs : '\t' ∉ cs := fun hm => h (List.mem_cons_of_mem _ hm)
    show segments (c :: (cs ++ '\t' :: t)) = _
    simp only [segments, if_neg hc, ih hcs]

theorem length_segments (l : List Char) : (segments l).length = l.count '\t' + 1 := by
  induction l with
  | nil => rfl
  | cons c cs ih =>
    simp only [segments]
    by_cases hc : c = '\t'
    · rw [if_pos hc, hc, List.count_cons_self, List.length_cons, ih]
    · have hcount : List.count '\t' (c :: cs) = List.count '\t' cs := by
        simp [List.count_cons, hc]
      rw [if_neg hc, hcount]
      cases hs : segments cs with
      | nil => exact absurd hs (segments_ne_nil cs)
      | cons s ss =>
        rw [hs] at ih
        simpa using ih

theorem not_mem_segments (l : List Char) : ∀ s ∈ segments l, '\t' ∉ s := by
  induction l with
  | nil => intro s hs; simp [segments] at hs; rw [hs]; exact List.not_mem_nil _
  | cons c cs ih =>
    intro s hs
    simp only [segments] at hs
    by_cases hc : c = '\t'
    · rw [if_pos hc] at hs
      rcases List.mem_cons.mp hs with h | h
      · rw [h]; exact List.not_mem_nil _
      · exact ih s h
    · rw [if_neg hc] at hs
      cases hseg : segments cs with
      | nil => exact absurd hseg (segments_ne_nil cs)
      | cons s1 ss =>
        rw [hseg] at hs ih
        rcases List.mem_cons.mp hs with h | h
        · rw [h]
          intro hm
          rcases List.mem_cons.mp hm with h1 | h1
          · exact hc h1.symm
          · exact ih s1 (List.mem_cons_self _ _) h1
        · exact ih s (List.mem_cons_of_mem _ h)

theorem intercalate_segments (l : List Char) : ['\t'].intercalate (segments l) = l := by
  induction l with
  | nil => rfl
  | cons c cs ih =>
    simp only [segments]
    by_cases hc : c = '\t'
    · rw [if_pos hc, hc]
      cases hseg : segments cs with
      | nil => exact absurd hseg (segments_ne_nil cs)
      | cons s1 ss =>
        rw [hseg] at ih
        simp only [List.intercalate, List.intersperse_cons₂, List.flatten_cons, List.nil_append,
          List.singleton_append] at ih ⊢
        rw [ih]
    · rw [if_neg hc]
      cases hseg : segments cs with
      | nil => exact absurd hseg (segments_ne_nil cs)
      | cons s1 ss =>
        rw [hseg] at ih
        cases ss with
        | nil =>
          simp only [List.intercalate, List.intersperse_single, List.flatten_cons,
            List.flatten_nil, List.append_nil] at ih ⊢
          rw [ih]
        | cons s2 ss2 =>
          simp only [List.intercalate, List.intersperse_cons₂, List.flatten_cons,
            List.cons_append] at ih ⊢
          rw [ih]

theorem segments_eq_splitOn (l : List Char) : segments l = l.splitOn '\t' := by
  induction l with
  | nil => rfl
  | cons c cs ih =>
    unfold List.splitOn at ih ⊢
    rw [List.splitOnP_cons]
    simp only [segments, ih]
    by_cases hc : c = '\t'
    · simp [hc]
    · have hb : (c == '\t') = false := by simpa using hc
      rw [if_neg hc, hb]
      cases hs : List.splitOnP (fun x => x == '\t') cs with
      | nil => exact absurd hs (List.splitOnP_ne_nil _ _)
      | cons s ss => simp [List.modifyHead]

theorem findFrom_spec (ch : Char) (rest : List Char) :
    ∀ pos, (ch ∉ rest ∧ findFrom ch rest pos = npos) ∨
      ∃ pre post, rest = pre ++ ch :: post ∧ ch ∉ pre ∧
        findFrom ch rest pos = pos + pre.length := by
  induction rest with
  | nil => intro pos; exact Or.inl ⟨List.not_mem_nil _, rfl⟩
  | cons c cs ih =>
    intro pos
    simp only [findFrom]
    by_cases hc : c = ch
    · rw [if_pos hc]
      exact Or.inr ⟨[], cs, by rw [hc]; rfl, List.not_mem_nil _, rfl⟩
    · rw [if_neg hc]
      rcases ih (pos + 1) with ⟨h1, h2⟩ | ⟨pre, post, h1, h2, h3⟩
      · left
        refine ⟨fun hm => ?_, h2⟩
        rcases List.mem_cons.mp hm with h | h
        · exact hc h.symm
        · exact h1 h
      · right
        refine ⟨c :: pre, post, by rw [h1]; rfl, fun hm => ?_, ?_⟩
        · rcases List.mem_cons.mp hm with h | h
          · exact hc h.symm
          · exact h2 h
        · rw [h3, List.length_cons]; omega

theorem sizeSub_eq (a b : Nat) (hb : b ≤ a) (ha : a < 2 ^ 64) : sizeSub a b = a - b := by
  unfold sizeSub
  have h : a + 2 ^ 64 - b = (a - b) + 2 ^ 64 := by omega
  rw [h, Nat.add_mod_right, Nat.mod_eq_of_lt (by omega)]

theorem parseTabs.loop_spec (line : List Char) (hlen : line.length < npos) :
    ∀ fuel iter parts, iter ≤ line.length → line.length - iter < fuel →
      parseTabs.loop line fuel iter parts =
        .ok (parts ++ (segments (line.drop iter)).map stripLineEnd) := by
  have hnpos : npos = 2 ^ 64 - 1 := rfl
  intro fuel
  induction fuel with
  | zero => intro iter parts _ h; omega
  | succ fuel ih =>
    intro iter parts hiter hfuel
    have hrl : (line.drop iter).length = line.length - iter := List.length_drop _ _
    simp only [parseTabs.loop, find, substr, if_neg (Nat.not_lt.mpr hiter)]
    rcases findFrom_spec '\t' (line.drop iter) iter with ⟨h1, h2⟩ | ⟨pre, post, h1, h2, h3⟩
    · rw [h2, sizeSub_eq npos iter (by omega) (by omega),
        List.take_of_length_le (by rw [hrl]; omega), segments_of_not_mem _ h1]
      simp
    · have hl : (line.drop iter).length = pre.length + (post.length + 1) := by
        rw [h1, List.length_append, List.length_cons]
      have hlt : iter + pre.length < line.length := by omega
      have hne : iter + pre.length ≠ npos := by omega
      have hmod : (iter + pre.length + 1) % 2 ^ 64 = iter + pre.length + 1 :=
        Nat.mod_eq_of_lt (by omega)
      have hdrop : line.drop (iter + pre.length + 1) = post := by
        rw [Nat.add_assoc, ← List.drop_drop, h1]
        simp
      rw [h3, sizeSub_eq _ iter (by omega) (by omega), Nat.add_sub_cancel_left, if_pos hne,
        hmod, ih _ _ (by omega) (by omega), hdrop]
      rw [h1, List.take_left' rfl, segments_append_tab pre post h2]
      simp

theorem stripLineEnd_eq_self (s : List Char)
    (h : ∀ c, s.getLast? = some c → c ≠ '\n' ∧ c ≠ '\r') : stripLineEnd s = s := by
  unfold stripLineEnd
  rw [List.rdropWhile_eq_self_iff]
  intro hl
  have := h (s.getLast hl) (List.getLast?_eq_getLast _ hl)
  simp [this.1, this.2]

theorem not_mem_stripLineEnd (s : List Char) (h : '\t' ∉ s) : '\t' ∉ stripLineEnd s :=
  fun hm => h ((List.rdropWhile_prefix _ s).subset hm)

theorem stripLineEnd_spec (s : List Char) :
    ∃ t, s = stripLineEnd s ++ t ∧ (∀ c ∈ t, c = '\n' ∨ c = '\r') ∧
      ∀ c, (stripLineEnd s).getLast? = some c → c ≠ '\n' ∧ c ≠ '\r' := by
  refine ⟨s.rtakeWhile (fun c => c == '\n' || c == '\r'), ?_, fun c hc => ?_, fun c hc => ?_⟩
  · unfold stripLineEnd List.rdropWhile List.rtakeWhile
    rw [← List.reverse_append, List.takeWhile_append_dropWhile, List.reverse_reverse]
  · have := List.mem_rtakeWhile_imp hc
    simpa using this
  · have hne : stripLineEnd s ≠ [] := by
      intro h0
      rw [h0] at hc
      cases hc
    have hlast : (stripLineEnd s).getLast hne = c := by
      rw [List.getLast?_eq_getLast _ hne] at hc
      exact Option.some.inj hc
    have := List.rdropWhile_last_not (fun c => c == '\n' || c == '\r') s hne
    unfold stripLineEnd at hlast
    rw [hlast] at this
    simpa using this

/-- C30: for every line (a `std::string`, so shorter than `npos`) `parseTabs` terminates
and appends to `parts` the tab-delimited segments of the line, in order, each with its
trailing carriage-return and line-feed characters removed (what is removed are only such
characters, and what is left does not end in one). There are as many fields as the line
has tab characters, plus one; no field contains a tab; and joining the fields with tabs
gives back the line when no segment ends in a carriage return or line feed. -/
theorem parseTabs_appends_stripped_segments (line : List Char) (parts : List (List Char))
    (hlen : line.length < npos) :
    parseTabs line parts = .ok (parts ++ (segments line).map stripLineEnd) ∧
    (∀ fuel, line.length < fuel →
      parseTabs.loop line fuel 0 parts = .ok (parts ++ (segments line).map stripLineEnd)) ∧
    segments line = line.splitOn '\t' ∧
    ((segments line).map stripLineEnd).length = line.count '\t' + 1 ∧
    (∀ f ∈ (segments line).map stripLineEnd, '\t' ∉ f) ∧
    (∀ s : List Char, ∃ t, s = stripLineEnd s ++ t ∧ (∀ c ∈ t, c = '\n' ∨ c = '\r') ∧
      ∀ c, (stripLineEnd s).getLast? = some c → c ≠ '\n' ∧ c ≠ '\r') ∧
    ((∀ s ∈ segments line, ∀ c, s.getLast? = some c → c ≠ '\n' ∧ c ≠ '\r') →
      ['\t'].intercalate ((segments line).map stripLineEnd) = line) := by
  have hloop := parseTabs.loop_spec line hlen
  refine ⟨?_, fun fuel hf => ?_, segments_eq_splitOn line, ?_, fun f hf => ?_,
    stripLineEnd_spec, fun h => ?_⟩
  · unfold parseTabs
    rw [hloop _ 0 parts (Nat.zero_le _) (by omega), List.drop_zero]
  · rw [hloop fuel 0 parts (Nat.zero_le _) (by omega), List.drop_zero]
  · rw [List.length_map, length_segments]
  · obtain ⟨s, hs, hsf⟩ := List.mem_map.mp hf
    rw [← hsf]
    exact not_mem_stripLineEnd s (not_mem_segments line s hs)
  · have hmap : (segments line).map stripLineEnd = segments line := by
      conv_rhs => rw [← List.map_id (segments line)]
      exact List.map_congr_left (fun s hs => stripLineEnd_eq_self s (h s hs))
    rw [hmap, intercalate_segments]

/-- Witness of C30: the line `a<TAB>b c<CR><LF>` gives the fields `a` and `b c`, and the
line `x<TAB><TAB>y` gives `x`, the empty field and `y`. -/
theorem parseTabs_appends_stripped_segments_witness :
    (['a', '\t', 'b', ' ', 'c', '\r', '\n'] : List Char).length < npos ∧
    parseTabs ['a', '\t', 'b', ' ', 'c', '\r', '\n'] [['r']] =
      .ok [['r'], ['a'], ['b', ' ', 'c']] ∧
    parseTabs ['x', '\t', '\t', 'y'] [] = .ok [['x'], [], ['y']] ∧
    (parseTabs ['a', '\t', 'b', ' ', 'c', '\r', '\n'] [['r']] =
      .ok ([['r']] ++ (segments ['a', '\t', 'b', ' ', 'c', '\r', '\n']).map stripLineEnd) ∧
    (∀ fuel, (['a', '\t', 'b', ' ', 'c', '\r', '\n'] : List Char).length < fuel →
      parseTabs.loop ['a', '\t', 'b', ' ', 'c', '\r', '\n'] fuel 0 [['r']] =
        .ok ([['r']] ++
          (segments ['a', '\t', 'b', ' ', 'c', '\r', '\n']).map stripLineEnd)) ∧
    segments ['a', '\t', 'b', ' ', 'c', '\r', '\n'] =
      (['a', '\t', 'b', ' ', 'c', '\r', '\n'] : List Char).splitOn '\t' ∧
    ((segments ['a', '\t', 'b', ' ', 'c', '\r', '\n']).map stripLineEnd).length =
      (['a', '\t', 'b', ' ', 'c', '\r', '\n'] : List Char).count '\t' + 1 ∧
    (∀ f ∈ (segments ['a', '\t', 'b', ' ', 'c', '\r', '\n']).map stripLineEnd, '\t' ∉ f) ∧
    (∀ s : List Char, ∃ t, s = stripLineEnd s ++ t ∧ (∀ c ∈ t, c = '\n' ∨ c = '\r') ∧
      ∀ c, (stripLineEnd s).getLast? = some c → c ≠ '\n' ∧ c ≠ '\r') ∧
    ((∀ s ∈ segments ['a', '\t', 'b', ' ', 'c', '\r', '\n'],
        ∀ c, s.getLast? = some c → c ≠ '\n' ∧ c ≠ '\r') →
      ['\t'].intercalate
          ((segments ['a', '\t', 'b', ' ', 'c', '\r', '\n']).map stripLineEnd) =
        ['a', '\t', 'b', ' ', 'c', '\r', '\n'])) :=
  ⟨by decide, rfl, rfl,
    parseTabs_appends_stripped_segments ['a', '\t', 'b', ' ', 'c', '\r', '\n'] [['r']]
      (by decide)⟩

end tsvdata
